import Mathlib

/-!
fdmap: a file-descriptor keyed hash table over doubly linked bucket lists.

Shallow embedding of `fdmap_list.c` and `fdmap.c`.

* Pointers are `Option Nat`: `none` is `NULL`, `some p` is the address of a node cell.
* Every list owns the node cells it allocated; they live in the `mem` component of the
  list record, `mem p = none` meaning that no live cell sits at address `p`.
  `malloc` is a bump allocator (`brk` is the next fresh address) that never fails.
* A function returns `none` when the C program stops abnormally: a failed `assert`
  (debug build), a dereference of `NULL` or of a freed cell, a division by zero, an
  out-of-bounds bucket index, or a pointer walk that never ends. The loops that follow
  `next` pointers run on `brk + 1` units of fuel: only `brk` cells were ever allocated, so a
  walk that is still going after `brk` cells has met a cell twice and would go on for ever.
  The theorems below show that on every well-formed list the fuel is never exhausted.
* `int` keys are mathematical integers and `size_t` is `Nat`; the only arithmetic on keys
  is the remainder in `fdmap_hash`, modelled with the truncating `Int.tmod` of C. The
  `int items` counter of the table is a 32-bit two's complement integer: `map->items++` and
  `map->items--` wrap around (`int_wrap`), as they do on the usual targets.
* Output parameters are passed as the value currently stored at the location and
  returned as the value stored there afterwards.
-/

namespace Fdmap

/-- The two list disciplines of `fdmap_list.h`. -/
inductive fdmap_list_type_t where
  | FDMAP_LIST_TYPE_FIFO
  | FDMAP_LIST_TYPE_ORDERED
deriving DecidableEq, Repr

/-- Placement of a node relative to a reference node (`fdmap_list.c`). -/
inductive preposition_t where
  | BEFORE
  | AFTER
deriving DecidableEq, Repr

/-- The node cell: `struct fdmap_node`. -/
structure fdmap_node (D : Type) where
  fd : Int
  data : D
  prev : Option Nat
  next : Option Nat
deriving DecidableEq, Repr

/-- The list record `struct fdmap_list`, together with the node cells it owns. -/
structure fdmap_list (D : Type) where
  type : fdmap_list_type_t
  size : Nat
  head : Option Nat
  tail : Option Nat
  mem : Nat → Option (fdmap_node D)
  brk : Nat

/-- Memory with the cell at `p` replaced by `n`. -/
def store_write {D : Type} (m : Nat → Option (fdmap_node D)) (p : Nat) (n : fdmap_node D) :
    Nat → Option (fdmap_node D) :=
  fun a => if a = p then some n else m a

/-- Memory with the cell at `p` released. -/
def store_free {D : Type} (m : Nat → Option (fdmap_node D)) (p : Nat) :
    Nat → Option (fdmap_node D) :=
  fun a => if a = p then none else m a

/-- The assignment `p->next = v`. -/
def wr_next {D : Type} (l : fdmap_list D) (p : Nat) (v : Option Nat) : Option (fdmap_list D) :=
  match l.mem p with
  | none => none
  | some n => some { l with mem := store_write l.mem p { n with next := v } }

/-- The assignment `p->prev = v`. -/
def wr_prev {D : Type} (l : fdmap_list D) (p : Nat) (v : Option Nat) : Option (fdmap_list D) :=
  match l.mem p with
  | none => none
  | some n => some { l with mem := store_write l.mem p { n with prev := v } }

/-- The size after `list->size--` on a `size_t`. -/
def size_dec (n : Nat) : Nat := if n = 0 then 2 ^ 64 - 1 else n - 1

/-- Allocation of a node cell: `fdmap_node_new`, returning the address and the new memory. -/
def fdmap_node_new {D : Type} (l : fdmap_list D) (fd : Int) (data : D)
    (prev next : Option Nat) : Nat × fdmap_list D :=
  (l.brk, { l with mem := store_write l.mem l.brk ⟨fd, data, prev, next⟩, brk := l.brk + 1 })

/-- Release of a node cell: `fdmap_node_free`. -/
def fdmap_node_free {D : Type} (l : fdmap_list D) (node : Option Nat) : Option (fdmap_list D) :=
  match node with
  | none => none
  | some p =>
    match l.mem p with
    | none => none
    | some _ => some { l with mem := store_free l.mem p }

/-- The `placement == BEFORE` block of `fdmap_list_link`, `refnode` being non-null. -/
def link_before {D : Type} (list : fdmap_list D) (np rp : Nat) : Option (fdmap_list D) :=
  (wr_next list np (some rp)).bind fun l1 =>
  (l1.mem rp).bind fun r1 =>
  (wr_prev l1 np r1.prev).bind fun l2 =>
  (l2.mem rp).bind fun r2 =>
  (match r2.prev with
    | some pp => if l2.head = some rp then none else wr_next l2 pp (some np)
    | none => if l2.head = some rp then some { l2 with head := some np } else none).bind fun l3 =>
  (wr_prev l3 rp (some np)).bind fun l4 =>
  some { l4 with size := l4.size + 1 }

/-- The `placement == AFTER` block of `fdmap_list_link`, `refnode` being non-null. -/
def link_after {D : Type} (list : fdmap_list D) (np rp : Nat) : Option (fdmap_list D) :=
  (list.mem rp).bind fun r0 =>
  (wr_next list np r0.next).bind fun l1 =>
  (wr_prev l1 np (some rp)).bind fun l2 =>
  (l2.mem rp).bind fun r2 =>
  (match r2.next with
    | some nx => if l2.tail = some rp then none else wr_prev l2 nx (some np)
    | none => if l2.tail = some rp then some { l2 with tail := some np } else none).bind fun l3 =>
  (wr_next l3 rp (some np)).bind fun l4 =>
  some { l4 with size := l4.size + 1 }

/-- Insertion of `node` next to `refnode`: `fdmap_list_link`. -/
def fdmap_list_link {D : Type} (list : fdmap_list D) (node : Option Nat)
    (placement : preposition_t) (refnode : Option Nat) : Option (fdmap_list D) :=
  match node with
  | none => none
  | some np =>
    if refnode = none ∧ list.head = none then
      if list.tail = none ∧ list.size = 0 then
        (wr_next list np none).bind fun l1 =>
        (wr_prev l1 np none).bind fun l2 =>
        some { l2 with head := some np, tail := some np, size := l2.size + 1 }
      else none
    else
      match (if refnode = none then
          (if placement = preposition_t.BEFORE then list.head else list.tail)
        else refnode) with
      | none => none
      | some rp =>
        match placement with
        | preposition_t.BEFORE => link_before list np rp
        | preposition_t.AFTER => link_after list np rp

/-- Removal of `node` from the chain: `fdmap_list_unlink`. -/
def fdmap_list_unlink {D : Type} (list : fdmap_list D) (node : Option Nat) :
    Option (fdmap_list D) :=
  match node with
  | none => none
  | some p =>
    (list.mem p).bind fun n0 =>
    (match n0.prev with
      | some pp =>
        if list.head = some p then none
        else if list.size = 0 then none
        else wr_next list pp n0.next
      | none =>
        if list.head = some p then some { list with head := n0.next } else none).bind fun l1 =>
    (l1.mem p).bind fun n1 =>
    (match n1.next with
      | some nx =>
        if l1.tail = some p then none
        else if l1.size = 0 then none
        else wr_prev l1 nx n1.prev
      | none =>
        if l1.tail = some p then some { l1 with tail := n1.prev } else none).bind fun l2 =>
    some { l2 with size := size_dec l2.size }

/-- The `FDMAP_LIST_TYPE_FIFO` loop of `fdmap_list_fd_find`. -/
def fd_find_fifo {D : Type} (m : Nat → Option (fdmap_node D)) (fd : Int) :
    Nat → Option Nat → Option (Option Nat)
  | 0, _ => none
  | _ + 1, none => some none
  | fuel + 1, some p =>
    match m p with
    | none => none
    | some n => if n.fd = fd then some (some p) else fd_find_fifo m fd fuel n.next

/-- The `FDMAP_LIST_TYPE_ORDERED` loop of `fdmap_list_fd_find`. -/
def fd_find_ordered {D : Type} (m : Nat → Option (fdmap_node D)) (fd : Int) :
    Nat → Option Nat → Option (Option Nat)
  | 0, _ => none
  | _ + 1, none => some none
  | fuel + 1, some p =>
    match m p with
    | none => none
    | some n =>
      if n.fd = fd then some (some p)
      else if n.fd > fd then some none
      else fd_find_ordered m fd fuel n.next

/-- Search of the node carrying `fd`: `fdmap_list_fd_find`. A walk of more than `brk` cells
has met a cell twice and never ends. -/
def fdmap_list_fd_find {D : Type} (list : fdmap_list D) (fd : Int) : Option (Option Nat) :=
  match list.type with
  | fdmap_list_type_t.FDMAP_LIST_TYPE_FIFO => fd_find_fifo list.mem fd (list.brk + 1) list.head
  | fdmap_list_type_t.FDMAP_LIST_TYPE_ORDERED =>
    fd_find_ordered list.mem fd (list.brk + 1) list.head

/-- Creation of an empty list: `fdmap_list_new`. -/
def fdmap_list_new {D : Type} (type : fdmap_list_type_t) : fdmap_list D :=
  { type := type, size := 0, head := none, tail := none, mem := fun _ => none, brk := 0 }

/-- The number of entries: `fdmap_list_size`. -/
def fdmap_list_size {D : Type} (list : fdmap_list D) : Nat := list.size

/-- The `FDMAP_LIST_TYPE_FIFO` loop of `fdmap_list_find`. -/
def find_fifo {D : Type} (m : Nat → Option (fdmap_node D)) (fd : Int) (data : D) :
    Nat → Option Nat → Option (Int × D)
  | 0, _ => none
  | _ + 1, none => some (0, data)
  | fuel + 1, some p =>
    match m p with
    | none => none
    | some n => if n.fd = fd then some (1, n.data) else find_fifo m fd data fuel n.next

/-- The `FDMAP_LIST_TYPE_ORDERED` loop of `fdmap_list_find`. -/
def find_ordered {D : Type} (m : Nat → Option (fdmap_node D)) (fd : Int) (data : D) :
    Nat → Option Nat → Option (Int × D)
  | 0, _ => none
  | _ + 1, none => some (0, data)
  | fuel + 1, some p =>
    match m p with
    | none => none
    | some n =>
      if n.fd = fd then some (1, n.data)
      else if n.fd > fd then some (0, data)
      else find_ordered m fd data fuel n.next

/-- Lookup of the data mapped to `fd`: `fdmap_list_find`. The result is the return value
and the content of `*data` afterwards. -/
def fdmap_list_find {D : Type} (list : fdmap_list D) (fd : Int) (data : D) : Option (Int × D) :=
  match list.type with
  | fdmap_list_type_t.FDMAP_LIST_TYPE_FIFO => find_fifo list.mem fd data (list.brk + 1) list.head
  | fdmap_list_type_t.FDMAP_LIST_TYPE_ORDERED =>
    find_ordered list.mem fd data (list.brk + 1) list.head

/-- The insertion scan of `fdmap_list_add`:
`for(runner = list->head; runner && (runner->fd < fd); runner = node->next) ;`. -/
def add_scan {D : Type} (m : Nat → Option (fdmap_node D)) (node : Nat) (fd : Int) :
    Nat → Option Nat → Option (Option Nat)
  | 0, _ => none
  | _ + 1, none => some none
  | fuel + 1, some r =>
    match m r with
    | none => none
    | some rn =>
      if rn.fd < fd then
        match m node with
        | none => none
        | some nn => add_scan m node fd fuel nn.next
      else some (some r)

/-- Insertion of a mapping: `fdmap_list_add`. -/
def fdmap_list_add {D : Type} (list : fdmap_list D) (fd : Int) (data : D) :
    Option (fdmap_list D) :=
  match fdmap_node_new list fd data none none with
  | (node, l1) =>
    match l1.type with
    | fdmap_list_type_t.FDMAP_LIST_TYPE_FIFO =>
      fdmap_list_link l1 (some node) preposition_t.AFTER l1.tail
    | fdmap_list_type_t.FDMAP_LIST_TYPE_ORDERED =>
      (add_scan l1.mem node fd (l1.brk + 1) l1.head).bind fun runner =>
      match runner with
      | some _ => fdmap_list_link l1 (some node) preposition_t.BEFORE runner
      | none => fdmap_list_link l1 (some node) preposition_t.AFTER runner

/-- Removal of the mapping for `fd`: `fdmap_list_rm`, returning the C result and the list. -/
def fdmap_list_rm {D : Type} (list : fdmap_list D) (fd : Int) : Option (Int × fdmap_list D) :=
  (fdmap_list_fd_find list fd).bind fun node =>
  match node with
  | some p =>
    (fdmap_list_unlink list (some p)).bind fun l1 =>
    (fdmap_node_free l1 (some p)).bind fun l2 =>
    some (1, l2)
  | none => some (0, list)

/-- Removal of the head entry: `fdmap_list_pop`. The outputs `fd` and `data` are `none` for a
null location and otherwise hold the value stored at the location. -/
def fdmap_list_pop {D : Type} (list : fdmap_list D) (fd : Option Int) (data : Option D) :
    Option (Int × Option Int × Option D × fdmap_list D) :=
  match list.head with
  | some p =>
    (fdmap_list_unlink list (some p)).bind fun l1 =>
    (l1.mem p).bind fun n =>
    (fdmap_node_free l1 (some p)).bind fun l2 =>
    some (1, fd.map (fun _ => n.fd), data.map (fun _ => n.data), l2)
  | none => some (0, fd, data, list)

/-- Inspection of the head entry: `fdmap_list_peek`. -/
def fdmap_list_peek {D : Type} (list : fdmap_list D) (fd : Option Int) (data : Option D) :
    Option (Int × Option Int × Option D × fdmap_list D) :=
  match list.head with
  | some p =>
    (list.mem p).bind fun n =>
    some (1, fd.map (fun _ => n.fd), data.map (fun _ => n.data), list)
  | none => some (0, fd, data, list)

/-- The value an `int` holds after an arithmetic result `x`: `x` reduced to the 32-bit two's
complement range `-2^31 .. 2^31 - 1`. ISO C leaves signed overflow undefined; this is the
wrap-around the compiled code performs. -/
def int_wrap (x : Int) : Int := (x + 2147483648) % 4294967296 - 2147483648

/-- The table record `struct fdmap`; `table` holds the bucket lists. -/
structure fdmap (D : Type) where
  items : Int
  size : Int
  table : List (fdmap_list D)

/-- The default number of buckets (`fdmap.h`). -/
def FDMAP_DEFAULT_SIZE : Int := 10

/-- The bucket index of a key: `fdmap_hash`, the remainder `fd % map->size` of C. -/
def fdmap_hash {D : Type} (map : fdmap D) (fd : Int) : Option Int :=
  if map.size = 0 then none else some (Int.tmod fd map.size)

/-- The array read `map->table[i]`. -/
def table_get {D : Type} (map : fdmap D) (i : Int) : Option (fdmap_list D) :=
  if 0 ≤ i then map.table[i.toNat]? else none

/-- Creation of a table: `fdmap_new`. -/
def fdmap_new {D : Type} (initial_size : Int) : fdmap D :=
  let size := if initial_size > 0 then initial_size else FDMAP_DEFAULT_SIZE
  { items := 0, size := size,
    table := List.replicate size.toNat (fdmap_list_new fdmap_list_type_t.FDMAP_LIST_TYPE_ORDERED) }

/-- Insertion into the table: `fdmap_add`. -/
def fdmap_add {D : Type} (map : fdmap D) (fd : Int) (data : D) : Option (fdmap D) :=
  if fd ≥ 0 then
    (fdmap_hash map fd).bind fun i =>
    (table_get map i).bind fun list =>
    (fdmap_list_add list fd data).bind fun list1 =>
    some { map with table := map.table.set i.toNat list1, items := int_wrap (map.items + 1) }
  else none

/-- Removal from the table: `fdmap_rm`. -/
def fdmap_rm {D : Type} (map : fdmap D) (fd : Int) : Option (fdmap D) :=
  if fd ≥ 0 then
    (fdmap_hash map fd).bind fun i =>
    (table_get map i).bind fun list =>
    (fdmap_list_rm list fd).bind fun r =>
    if r.1 ≠ 0 then
      some { map with table := map.table.set i.toNat r.2, items := int_wrap (map.items - 1) }
    else some { map with table := map.table.set i.toNat r.2 }
  else none

/-- Lookup in the table: `fdmap_find`. -/
def fdmap_find {D : Type} (map : fdmap D) (fd : Int) (data : D) : Option (Int × D) :=
  if fd ≥ 0 then
    (fdmap_hash map fd).bind fun i =>
    (table_get map i).bind fun list =>
    fdmap_list_find list fd data
  else none

/-! ## Observation of a list and of a table -/

/-- The `(fd, data)` pairs met by following `next` from `p`. -/
def walk {D : Type} (m : Nat → Option (fdmap_node D)) : Nat → Option Nat → Option (List (Int × D))
  | 0, _ => none
  | _ + 1, none => some []
  | fuel + 1, some p =>
    match m p with
    | none => none
    | some n => (walk m fuel n.next).map fun s => (n.fd, n.data) :: s

/-- The head-to-tail sequence of `(fd, data)` pairs of a list. -/
def fdmap_list_seq {D : Type} (list : fdmap_list D) : Option (List (Int × D)) :=
  walk list.mem (list.brk + 1) list.head

/-! ## The chain described by a list of cells -/

/-- The address of the first cell of `cs`, or `nxt` when there is none. -/
def first {D : Type} (cs : List (Nat × Int × D)) (nxt : Option Nat) : Option Nat :=
  match cs with
  | [] => nxt
  | c :: _ => some c.1

/-- The address of the last cell of `cs`, or `prev` when there is none. -/
def last_addr {D : Type} (prev : Option Nat) : List (Nat × Int × D) → Option Nat
  | [] => prev
  | c :: rest => last_addr (some c.1) rest

/-- The cells `cs` (address, key, data) are linked in `m` in this order, the first pointing
back to `prev` and the last pointing forward to `nxt`. -/
def Seg {D : Type} (m : Nat → Option (fdmap_node D)) :
    Option Nat → List (Nat × Int × D) → Option Nat → Prop
  | _, [], _ => True
  | prev, c :: rest, nxt =>
    m c.1 = some ⟨c.2.1, c.2.2, prev, first rest nxt⟩ ∧ Seg m (some c.1) rest nxt

/-- The structural invariant of a list: its record and cells represent the chain `cs`. -/
structure WF {D : Type} (l : fdmap_list D) (cs : List (Nat × Int × D)) : Prop where
  seg : Seg l.mem none cs none
  nodup : (cs.map Prod.fst).Nodup
  lt : ∀ c ∈ cs, c.1 < l.brk
  head : l.head = first cs none
  tail : l.tail = last_addr none cs
  size : l.size = cs.length

/-- A list is well formed when it represents some chain. -/
def WellFormed {D : Type} (l : fdmap_list D) : Prop := ∃ cs, WF l cs

/-- The cell selected by the search of a list of type `t` for key `k`, with the cells before
and after it: the first cell keyed `k`, an `ORDERED` search giving up at a larger key. -/
def csplit {D : Type} (t : fdmap_list_type_t) (k : Int) :
    List (Nat × Int × D) → Option (List (Nat × Int × D) × (Nat × Int × D) × List (Nat × Int × D))
  | [] => none
  | c :: rest =>
    if c.2.1 = k then some ([], c, rest)
    else if t = fdmap_list_type_t.FDMAP_LIST_TYPE_ORDERED ∧ c.2.1 > k then none
    else (csplit t k rest).map fun r => (c :: r.1, r.2.1, r.2.2)

/-- The result of a lookup that selected `r`: found with the data of the cell, or not found
with the output location left as it was. -/
def find_result {D : Type} (data : D)
    (r : Option (List (Nat × Int × D) × (Nat × Int × D) × List (Nat × Int × D))) : Int × D :=
  match r with
  | none => (0, data)
  | some x => (1, x.2.1.2.2)

/-- The chain after `fdmap_list_add` of the cell `c`: at the tail of a `FIFO` list; in an
`ORDERED` list in front when the chain is empty or its head key is not below the key of `c`,
at the tail otherwise. -/
def cins {D : Type} (t : fdmap_list_type_t) (c : Nat × Int × D) (cs : List (Nat × Int × D)) :
    List (Nat × Int × D) :=
  match t with
  | fdmap_list_type_t.FDMAP_LIST_TYPE_FIFO => cs ++ [c]
  | fdmap_list_type_t.FDMAP_LIST_TYPE_ORDERED =>
    match cs with
    | [] => [c]
    | h :: rest => if h.2.1 < c.2.1 then (h :: rest) ++ [c] else c :: h :: rest

/-! ## Runs of table operations and the table invariant -/

/-- A mutating call on a table: `fdmap_add(map, fd, data)` or `fdmap_rm(map, fd)`. -/
inductive fdmap_op (D : Type) where
  | add (fd : Int) (data : D)
  | rm (fd : Int)

/-- The key a call is made with. -/
def fdmap_op.key {D : Type} : fdmap_op D → Int
  | fdmap_op.add fd _ => fd
  | fdmap_op.rm fd => fd

/-- One call on a table. -/
def fdmap_step {D : Type} (map : fdmap D) : fdmap_op D → Option (fdmap D)
  | fdmap_op.add fd data => fdmap_add map fd data
  | fdmap_op.rm fd => fdmap_rm map fd

/-- A sequence of calls on a table, in order. -/
def fdmap_run {D : Type} (map : fdmap D) : List (fdmap_op D) → Option (fdmap D)
  | [] => some map
  | op :: ops => (fdmap_step map op).bind fun m => fdmap_run m ops

/-- The sum of `fdmap_list_size` over the buckets of a table. -/
def bucket_sizes {D : Type} (map : fdmap D) : Nat :=
  (map.table.map fdmap_list_size).sum

/-- The position in `table` of the bucket of a key. -/
def bucket_of {D : Type} (map : fdmap D) (fd : Int) : Nat :=
  (Int.tmod fd map.size).toNat

/-- The invariant of a table: a positive bucket count matching the bucket array, and every
bucket a well-formed `ORDERED` list. -/
structure TableInv {D : Type} (map : fdmap D) : Prop where
  size_pos : 0 < map.size
  len : map.table.length = map.size.toNat
  wf : ∀ b ∈ map.table, WellFormed b
  ordered : ∀ b ∈ map.table, b.type = fdmap_list_type_t.FDMAP_LIST_TYPE_ORDERED

/-! ## Sequences of list calls and observations used in the statements -/

/-- The keys of a list from head to tail. -/
def fdmap_list_keys {D : Type} (l : fdmap_list D) : List Int :=
  ((fdmap_list_seq l).getD []).map Prod.fst

/-- The calls `fdmap_list_add(l, k, v)` for the pairs of `xs`, in order. -/
def list_adds {D : Type} (l : fdmap_list D) : List (Int × D) → Option (fdmap_list D)
  | [] => some l
  | x :: xs => (fdmap_list_add l x.1 x.2).bind fun l1 => list_adds l1 xs

/-- The call `fdmap_list_pop(l, &fd, &data)` made `n` times on the same two locations,
with the result and the content of the locations after every call, and the final list. -/
def list_pops {D : Type} (l : fdmap_list D) (fd : Int) (data : D) :
    Nat → Option (List (Int × Int × D) × fdmap_list D)
  | 0 => some ([], l)
  | n + 1 =>
    (fdmap_list_pop l (some fd) (some data)).bind fun r =>
    (list_pops r.2.2.2 (r.2.1.getD fd) (r.2.2.1.getD data) n).map fun q =>
      ((r.1, r.2.1.getD fd, r.2.2.1.getD data) :: q.1, q.2)

/-- The list obtained from an empty list of type `t` by adding the pairs of `xs` in order. -/
def list_of_adds {D : Type} (t : fdmap_list_type_t) (xs : List (Int × D)) : fdmap_list D :=
  (list_adds (fdmap_list_new t) xs).getD (fdmap_list_new t)

/-- The table obtained from `fdmap_new n` by the calls `ops`. -/
def table_of_ops {D : Type} (n : Int) (ops : List (fdmap_op D)) : fdmap D :=
  (fdmap_run (fdmap_new n) ops).getD (fdmap_new n)

/-- The ordered insertion as the specification words it: scan from the head to the first
entry whose key is at least the new key and insert immediately before it; when there is no
such entry, append at the tail. -/
def spec_ordered_insert {D : Type} (k : Int) (v : D) : List (Int × D) → List (Int × D)
  | [] => [(k, v)]
  | x :: rest => if x.1 ≥ k then (k, v) :: x :: rest else x :: spec_ordered_insert k v rest

/-- The lookup the specification words for a `FIFO` list, on the head-to-tail sequence: a
linear scan to the end, giving the value of the first entry keyed `k`; the result is the
return value and the content of the output location, `d` when nothing was written. -/
def seq_lookup {D : Type} (k : Int) (d : D) : List (Int × D) → Int × D
  | [] => (0, d)
  | e :: rest => if e.1 = k then (1, e.2) else seq_lookup k d rest

/-- The head cell of the chain carries a least key. -/
def head_min {D : Type} (cs : List (Nat × Int × D)) : Prop :=
  ∀ h ∈ cs.head?, ∀ x ∈ cs, h.2.1 ≤ x.2.1

/-! ## Runs of list operations and the nodes of a list -/

/-- A call on a list: `fdmap_list_add`, `fdmap_list_rm`, `fdmap_list_pop` or
`fdmap_list_peek`, the last two with `NULL` output locations. -/
inductive list_op (D : Type) where
  | add (fd : Int) (data : D)
  | rm (fd : Int)
  | pop
  | peek

/-- One call on a list, giving the list after the call. -/
def list_step {D : Type} (l : fdmap_list D) : list_op D → Option (fdmap_list D)
  | list_op.add fd data => fdmap_list_add l fd data
  | list_op.rm fd => (fdmap_list_rm l fd).map fun r => r.2
  | list_op.pop => (fdmap_list_pop l none none).map fun r => r.2.2.2
  | list_op.peek => (fdmap_list_peek l none none).map fun r => r.2.2.2

/-- A sequence of calls on a list, in order. -/
def list_run {D : Type} (l : fdmap_list D) : List (list_op D) → Option (fdmap_list D)
  | [] => some l
  | op :: ops => (list_step l op).bind fun l1 => list_run l1 ops

/-- The addresses of the nodes met by following `next` from `p`. -/
def walk_nodes {D : Type} (m : Nat → Option (fdmap_node D)) :
    Nat → Option Nat → Option (List Nat)
  | 0, _ => none
  | _ + 1, none => some []
  | fuel + 1, some p =>
    match m p with
    | none => none
    | some n => (walk_nodes m fuel n.next).map fun s => p :: s

/-- The addresses of the nodes of a list from head to tail. Nodes are allocated at
increasing addresses, so a node with a smaller address was inserted earlier. -/
def fdmap_list_nodes {D : Type} (list : fdmap_list D) : Option (List Nat) :=
  walk_nodes list.mem (list.brk + 1) list.head

/-- The chain after `fdmap_list_link` of the cell `n` next to the node at address `p`. -/
def clink_at {D : Type} (n : Nat × Int × D) (placement : preposition_t) (p : Nat) :
    List (Nat × Int × D) → List (Nat × Int × D)
  | [] => []
  | c :: rest =>
    if c.1 = p then
      (match placement with
        | preposition_t.BEFORE => n :: c :: rest
        | preposition_t.AFTER => c :: n :: rest)
    else c :: clink_at n placement p rest

/-- The chain after `fdmap_list_link(list, n, placement, refnode)`: with a `NULL` reference
node the cell goes in front for BEFORE and to the end for AFTER. -/
def clink {D : Type} (n : Nat × Int × D) (placement : preposition_t) (refnode : Option Nat)
    (cs : List (Nat × Int × D)) : List (Nat × Int × D) :=
  match refnode with
  | some p => clink_at n placement p cs
  | none =>
    match placement with
    | preposition_t.BEFORE => n :: cs
    | preposition_t.AFTER => cs ++ [n]

/-- The structural invariant of a list as the specification words it: `size` is the number
of nodes reachable from `head`, the last of which is `tail`; `head`, `tail` are `NULL` and
`size` is 0 together; `head->prev` and `tail->next` are `NULL`; and for nodes `a`, `b` of the
list `a->next == b` exactly when `b->prev == a`. -/
structure list_invariant {D : Type} (l : fdmap_list D) : Prop where
  size_nodes : ∃ ns, fdmap_list_nodes l = some ns ∧ l.size = ns.length ∧
    l.head = ns.head? ∧ l.tail = ns.getLast?
  head_null : l.head = none ↔ l.tail = none
  tail_null : l.tail = none ↔ l.size = 0
  head_prev : ∀ h, l.head = some h → ∃ n, l.mem h = some n ∧ n.prev = none
  tail_next : ∀ t, l.tail = some t → ∃ n, l.mem t = some n ∧ n.next = none
  adjacent : ∀ ns, fdmap_list_nodes l = some ns → ∀ a ∈ ns, ∀ b ∈ ns, ∀ na nb,
    l.mem a = some na → l.mem b = some nb → (na.next = some b ↔ nb.prev = some a)

end Fdmap

namespace Fdmap

variable {D : Type}

/-! ## Memory and chain lemmas -/

theorem store_write_same (m : Nat → Option (fdmap_node D)) (p : Nat) (n : fdmap_node D) :
    store_write m p n p = some n := by
  simp [store_write]

theorem store_write_ne (m : Nat → Option (fdmap_node D)) {p a : Nat} (n : fdmap_node D)
    (h : a ≠ p) : store_write m p n a = m a := by
  simp [store_write, h]

theorem store_free_ne (m : Nat → Option (fdmap_node D)) {p a : Nat} (h : a ≠ p) :
    store_free m p a = m a := by
  simp [store_free, h]

theorem Seg_frame {m m1 : Nat → Option (fdmap_node D)} {cs : List (Nat × Int × D)}
    {prev nxt : Option Nat} (h : ∀ c ∈ cs, m1 c.1 = m c.1) (hs : Seg m prev cs nxt) :
    Seg m1 prev cs nxt := by
  induction cs generalizing prev with
  | nil => trivial
  | cons c rest ih =>
    obtain ⟨h1, h2⟩ := hs
    refine ⟨?_, ih (fun x hx => h x (List.mem_cons_of_mem _ hx)) h2⟩
    rw [h c (List.mem_cons_self _ _)]; exact h1

theorem first_cons (c : Nat × Int × D) (rest : List (Nat × Int × D)) (nxt : Option Nat) :
    first (c :: rest) nxt = some c.1 := rfl

theorem first_nil (nxt : Option Nat) : first ([] : List (Nat × Int × D)) nxt = nxt := rfl

theorem first_append (xs ys : List (Nat × Int × D)) (nxt : Option Nat) :
    first (xs ++ ys) nxt = first xs (first ys nxt) := by
  cases xs <;> rfl

theorem last_addr_append (prev : Option Nat) (xs ys : List (Nat × Int × D)) :
    last_addr prev (xs ++ ys) = last_addr (last_addr prev xs) ys := by
  induction xs generalizing prev with
  | nil => rfl
  | cons c rest ih => simp [last_addr, ih]

theorem Seg_append {m : Nat → Option (fdmap_node D)} {xs ys : List (Nat × Int × D)}
    {prev nxt : Option Nat} :
    Seg m prev (xs ++ ys) nxt ↔
      Seg m prev xs (first ys nxt) ∧ Seg m (last_addr prev xs) ys nxt := by
  induction xs generalizing prev with
  | nil => simp [Seg, last_addr]
  | cons c rest ih =>
    simp only [List.cons_append, Seg, last_addr, List.append_eq, ih, first_append, and_assoc]

theorem last_addr_mem {prev : Option Nat} {cs : List (Nat × Int × D)} (h : cs ≠ []) :
    ∃ c ∈ cs, last_addr prev cs = some c.1 := by
  induction cs generalizing prev with
  | nil => exact absurd rfl h
  | cons c rest ih =>
    cases rest with
    | nil => exact ⟨c, List.mem_cons_self _ _, rfl⟩
    | cons d rest2 =>
      obtain ⟨x, hx, he⟩ := @ih (some c.1) (List.cons_ne_nil _ _)
      exact ⟨x, List.mem_cons_of_mem _ hx, he⟩

theorem WF.length_le {l : fdmap_list D} {cs : List (Nat × Int × D)} (h : WF l cs) :
    cs.length ≤ l.brk := by
  have hsub : cs.map Prod.fst ⊆ List.range l.brk := by
    intro a ha
    obtain ⟨c, hc, rfl⟩ := List.mem_map.1 ha
    exact List.mem_range.2 (h.lt c hc)
  have hle := (List.subperm_of_subset h.nodup hsub).length_le
  simpa using hle

/-! ## The pointer walks on a chain -/

theorem walk_Seg {m : Nat → Option (fdmap_node D)} {cs : List (Nat × Int × D)}
    {prev : Option Nat} {fuel : Nat} (hs : Seg m prev cs none) (hf : cs.length < fuel) :
    walk m fuel (first cs none) = some (cs.map Prod.snd) := by
  induction cs generalizing prev fuel with
  | nil =>
    cases fuel with
    | zero => exact absurd hf (Nat.lt_irrefl _)
    | succ f => rfl
  | cons c rest ih =>
    cases fuel with
    | zero => exact absurd hf (Nat.not_lt_zero _)
    | succ f =>
      obtain ⟨h1, h2⟩ := hs
      have hr := ih h2 (Nat.lt_of_succ_lt_succ hf)
      simp [first_cons, walk, h1, hr]

theorem fd_find_fifo_Seg {m : Nat → Option (fdmap_node D)} {cs : List (Nat × Int × D)}
    {prev : Option Nat} {fuel : Nat} (k : Int) (hs : Seg m prev cs none)
    (hf : cs.length < fuel) :
    fd_find_fifo m k fuel (first cs none) =
      some ((csplit fdmap_list_type_t.FDMAP_LIST_TYPE_FIFO k cs).map fun r => r.2.1.1) := by
  induction cs generalizing prev fuel with
  | nil =>
    cases fuel with
    | zero => exact absurd hf (Nat.lt_irrefl _)
    | succ f => rfl
  | cons c rest ih =>
    cases fuel with
    | zero => exact absurd hf (Nat.not_lt_zero _)
    | succ f =>
      obtain ⟨h1, h2⟩ := hs
      have hr := ih h2 (Nat.lt_of_succ_lt_succ hf)
      by_cases hk : c.2.1 = k
      · simp [first_cons, fd_find_fifo, h1, csplit, hk]
      · cases hc : csplit fdmap_list_type_t.FDMAP_LIST_TYPE_FIFO k rest <;>
          simp [first_cons, fd_find_fifo, h1, csplit, hk, hr, hc]

theorem fd_find_ordered_Seg {m : Nat → Option (fdmap_node D)} {cs : List (Nat × Int × D)}
    {prev : Option Nat} {fuel : Nat} (k : Int) (hs : Seg m prev cs none)
    (hf : cs.length < fuel) :
    fd_find_ordered m k fuel (first cs none) =
      some ((csplit fdmap_list_type_t.FDMAP_LIST_TYPE_ORDERED k cs).map fun r => r.2.1.1) := by
  induction cs generalizing prev fuel with
  | nil =>
    cases fuel with
    | zero => exact absurd hf (Nat.lt_irrefl _)
    | succ f => rfl
  | cons c rest ih =>
    cases fuel with
    | zero => exact absurd hf (Nat.not_lt_zero _)
    | succ f =>
      obtain ⟨h1, h2⟩ := hs
      have hr := ih h2 (Nat.lt_of_succ_lt_succ hf)
      by_cases hk : c.2.1 = k
      · simp [first_cons, fd_find_ordered, h1, csplit, hk]
      · by_cases hg : k < c.2.1
        · simp [first_cons, fd_find_ordered, h1, csplit, hk, hg]
        · cases hc : csplit fdmap_list_type_t.FDMAP_LIST_TYPE_ORDERED k rest <;>
            simp [first_cons, fd_find_ordered, h1, csplit, hk, hg, hr, hc]

theorem find_fifo_Seg {m : Nat → Option (fdmap_node D)} {cs : List (Nat × Int × D)}
    {prev : Option Nat} {fuel : Nat} (k : Int) (d : D) (hs : Seg m prev cs none)
    (hf : cs.length < fuel) :
    find_fifo m k d fuel (first cs none) =
      some (find_result d (csplit fdmap_list_type_t.FDMAP_LIST_TYPE_FIFO k cs)) := by
  induction cs generalizing prev fuel with
  | nil =>
    cases fuel with
    | zero => exact absurd hf (Nat.lt_irrefl _)
    | succ f => rfl
  | cons c rest ih =>
    cases fuel with
    | zero => exact absurd hf (Nat.not_lt_zero _)
    | succ f =>
      obtain ⟨h1, h2⟩ := hs
      have hr := ih h2 (Nat.lt_of_succ_lt_succ hf)
      by_cases hk : c.2.1 = k
      · simp [first_cons, find_fifo, h1, csplit, hk, find_result]
      · cases hc : csplit fdmap_list_type_t.FDMAP_LIST_TYPE_FIFO k rest <;>
          simp [first_cons, find_fifo, h1, csplit, hk, hr, hc, find_result]

theorem find_ordered_Seg {m : Nat → Option (fdmap_node D)} {cs : List (Nat × Int × D)}
    {prev : Option Nat} {fuel : Nat} (k : Int) (d : D) (hs : Seg m prev cs none)
    (hf : cs.length < fuel) :
    find_ordered m k d fuel (first cs none) =
      some (find_result d (csplit fdmap_list_type_t.FDMAP_LIST_TYPE_ORDERED k cs)) := by
  induction cs generalizing prev fuel with
  | nil =>
    cases fuel with
    | zero => exact absurd hf (Nat.lt_irrefl _)
    | succ f => rfl
  | cons c rest ih =>
    cases fuel with
    | zero => exact absurd hf (Nat.not_lt_zero _)
    | succ f =>
      obtain ⟨h1, h2⟩ := hs
      have hr := ih h2 (Nat.lt_of_succ_lt_succ hf)
      by_cases hk : c.2.1 = k
      · simp [first_cons, find_ordered, h1, csplit, hk, find_result]
      · by_cases hg : k < c.2.1
        · simp [first_cons, find_ordered, h1, csplit, hk, hg, find_result]
        · cases hc : csplit fdmap_list_type_t.FDMAP_LIST_TYPE_ORDERED k rest <;>
            simp [first_cons, find_ordered, h1, csplit, hk, hg, hr, hc, find_result]

/-! ## Unlinking and linking on a well-formed chain -/

theorem last_addr_cases (prev : Option Nat) (cs : List (Nat × Int × D)) :
    last_addr prev cs = prev ∨ ∃ c ∈ cs, last_addr prev cs = some c.1 := by
  cases cs with
  | nil => exact Or.inl rfl
  | cons c rest => exact Or.inr (last_addr_mem (List.cons_ne_nil _ _))

theorem first_cases (cs : List (Nat × Int × D)) (nxt : Option Nat) :
    first cs nxt = nxt ∨ ∃ c ∈ cs, first cs nxt = some c.1 := by
  cases cs with
  | nil => exact Or.inl rfl
  | cons c rest => exact Or.inr ⟨c, List.mem_cons_self _ _, rfl⟩

theorem nodup_split {pre post : List (Nat × Int × D)} {c : Nat × Int × D}
    (h : ((pre ++ c :: post).map Prod.fst).Nodup) :
    ((pre ++ post).map Prod.fst).Nodup ∧ (∀ x ∈ pre, x.1 ≠ c.1) ∧ (∀ x ∈ post, x.1 ≠ c.1) := by
  rw [List.map_append, List.map_cons, List.nodup_append, List.nodup_cons] at h
  obtain ⟨h1, ⟨h2, h3⟩, h4⟩ := h
  refine ⟨?_, ?_, ?_⟩
  · rw [List.map_append, List.nodup_append]
    exact ⟨h1, h3, fun a ha hb => h4 ha (List.mem_cons_of_mem _ hb)⟩
  · intro x hx he
    exact h4 (List.mem_map_of_mem Prod.fst hx) (he ▸ List.mem_cons_self _ _)
  · intro x hx he
    exact h2 (he ▸ List.mem_map_of_mem Prod.fst hx)

/-- Unlinking a cell of a well-formed chain succeeds: no assertion fails, the cell leaves
the chain, the other cells keep their order, and the cell itself is left untouched. -/
theorem unlink_WF {l : fdmap_list D} {pre post : List (Nat × Int × D)} {c : Nat × Int × D}
    (h : WF l (pre ++ c :: post)) :
    ∃ l1, fdmap_list_unlink l (some c.1) = some l1 ∧ WF l1 (pre ++ post) ∧
      l1.mem c.1 = l.mem c.1 ∧ l1.brk = l.brk ∧ l1.type = l.type := by
  obtain ⟨hseg, hnd, hlt, hhead, htail, hsize⟩ := h
  obtain ⟨hnd1, hnpre, hnpost⟩ := nodup_split hnd
  have hlt1 : ∀ x ∈ pre ++ post, x.1 < l.brk := by
    intro x hx
    apply hlt
    rcases List.mem_append.1 hx with hx | hx
    · exact List.mem_append_left _ hx
    · exact List.mem_append_right _ (List.mem_cons_of_mem _ hx)
  have hsz : l.size ≠ 0 := by simp [hsize]
  have hsd : size_dec l.size = (pre ++ post).length := by
    simp [size_dec, hsize]
  rcases List.eq_nil_or_concat pre with rfl | ⟨pre0, d, rfl⟩
  · cases post with
    | nil =>
      simp only [List.nil_append, Seg, first_nil] at hseg
      simp only [List.nil_append, first_cons, last_addr] at hhead htail
      refine ⟨{ l with head := none, tail := none, size := size_dec l.size }, ?_, ?_,
        rfl, rfl, rfl⟩
      · simp [fdmap_list_unlink, hseg.1, hhead, htail]
      · exact ⟨trivial, List.nodup_nil, by simp, rfl, rfl, hsd⟩
    | cons e post0 =>
      simp only [List.nil_append, Seg, first_cons] at hseg
      simp only [List.nil_append, first_cons, last_addr] at hhead htail
      obtain ⟨hc, he, hpost⟩ := hseg
      have hec : e.1 ≠ c.1 := hnpost e (List.mem_cons_self _ _)
      have htl : l.tail ≠ some c.1 := by
        rw [htail]
        rcases last_addr_cases (some e.1) post0 with h | ⟨x, hx, h⟩
        · rw [h]; simpa using hec
        · rw [h]; simpa using hnpost x (List.mem_cons_of_mem _ hx)
      simp only [fdmap_list_unlink, hc, Option.some_bind, hhead, if_true, htl, if_false, hsz,
        wr_prev, he, store_write_ne _ _ hec.symm]
      refine ⟨_, rfl, ?_, ?_, rfl, rfl⟩
      · obtain ⟨_, _, hne⟩ := @nodup_split D [] _ _ hnd1
        refine ⟨⟨store_write_same _ _ _, Seg_frame (fun x hx => ?_) hpost⟩, hnd1, hlt1, rfl,
          htail, hsd⟩
        exact store_write_ne _ _ (hne x hx)
      · simp [store_write, hec.symm, hc]
  · simp only [List.concat_eq_append, List.append_assoc, List.singleton_append] at *
    rw [Seg_append] at hseg
    obtain ⟨hpre0, hd, hseg⟩ := hseg
    rw [first_append, first_cons] at hhead
    have hdc : d.1 ≠ c.1 := hnpre d (by simp)
    have hhd : l.head ≠ some c.1 := by
      rw [hhead]
      rcases first_cases pre0 (some d.1) with h | ⟨x, hx, h⟩
      · rw [h]; simpa using hdc
      · rw [h]; simpa using hnpre x (by simp [hx])
    obtain ⟨hnd0, hne0d, hnepd⟩ := nodup_split hnd1
    cases post with
    | nil =>
      simp only [Seg, first_nil, first_cons] at hseg hd
      simp only [last_addr_append, last_addr] at htail
      simp only [fdmap_list_unlink, hseg.1, Option.some_bind, hhd, if_false, hsz, wr_next, hd,
        store_write_ne _ _ hdc.symm, htail, if_true]
      refine ⟨_, rfl, ?_, ?_, rfl, rfl⟩
      · refine ⟨?_, hnd1, hlt1, by rw [first_append, first_cons]; exact hhead, ?_, hsd⟩
        · rw [Seg_append]
          refine ⟨Seg_frame (fun x hx => store_write_ne _ _ (hne0d x hx)) hpre0, ?_, trivial⟩
          exact store_write_same _ _ _
        · simp [last_addr_append, last_addr]
      · simp [store_write, hdc.symm, hseg.1]
    | cons e post0 =>
      simp only [Seg, first_cons] at hseg hd
      obtain ⟨hc, he, hpost⟩ := hseg
      simp only [last_addr_append, last_addr] at htail
      have hec : e.1 ≠ c.1 := hnpost e (List.mem_cons_self _ _)
      have hed : e.1 ≠ d.1 := hnepd e (List.mem_cons_self _ _)
      have htl : l.tail ≠ some c.1 := by
        rw [htail]
        rcases last_addr_cases (some e.1) post0 with h | ⟨x, hx, h⟩
        · rw [h]; simpa using hec
        · rw [h]; simpa using hnpost x (List.mem_cons_of_mem _ hx)
      simp only [fdmap_list_unlink, hc, Option.some_bind, hhd, if_false, hsz, wr_next, hd,
        store_write_ne _ _ hdc.symm, htl, wr_prev, store_write_ne _ _ hed, he]
      refine ⟨_, rfl, ?_, ?_, rfl, rfl⟩
      · obtain ⟨_, hne0e, hnepe⟩ := @nodup_split D (pre0 ++ [d]) _ e
          (by simpa using hnd1)
        refine ⟨?_, hnd1, hlt1, by rw [first_append, first_cons]; exact hhead, ?_, hsd⟩
        · rw [Seg_append]
          refine ⟨Seg_frame (fun x hx => ?_) hpre0, ?_, ?_, Seg_frame (fun x hx => ?_) hpost⟩
          · have h1 : x.1 ≠ e.1 := hne0e x (by simp [hx])
            simp [store_write, h1, hne0d x hx]
          · simp [store_write, hed.symm, first_cons]
          · simp [store_write]
          · simp [store_write, hnepe x hx, hnepd x (List.mem_cons_of_mem _ hx)]
        · simp [last_addr_append, last_addr, htail]
      · simp [store_write, hec.symm, hdc.symm, hc]

theorem nodup_snoc {cs : List (Nat × Int × D)} {c : Nat × Int × D}
    (h : (cs.map Prod.fst).Nodup) (hc : ∀ x ∈ cs, x.1 ≠ c.1) :
    ((cs ++ [c]).map Prod.fst).Nodup := by
  rw [List.map_append, List.nodup_append]
  refine ⟨h, by simp, ?_⟩
  intro a ha hb
  obtain ⟨x, hx, rfl⟩ := List.mem_map.1 ha
  simp at hb
  exact hc x hx hb

theorem nodup_cons_cell {cs : List (Nat × Int × D)} {c : Nat × Int × D}
    (h : (cs.map Prod.fst).Nodup) (hc : ∀ x ∈ cs, x.1 ≠ c.1) :
    ((c :: cs).map Prod.fst).Nodup := by
  rw [List.map_cons, List.nodup_cons]
  refine ⟨?_, h⟩
  intro ha
  obtain ⟨x, hx, he⟩ := List.mem_map.1 ha
  exact hc x hx he

/-- Linking a fresh cell into an empty chain. -/
theorem link_empty_WF {l : fdmap_list D} {np : Nat} {k : Int} {v : D} {pv nx : Option Nat}
    (placement : preposition_t)
    (h : WF l []) (hm : l.mem np = some ⟨k, v, pv, nx⟩) (hb : np < l.brk) :
    ∃ l1, fdmap_list_link l (some np) placement none = some l1 ∧ WF l1 [(np, k, v)] ∧
      l1.type = l.type ∧ l1.brk = l.brk := by
  obtain ⟨_, _, _, hhead, htail, hsize⟩ := h
  simp only [first_nil, last_addr, List.length_nil] at hhead htail hsize
  simp only [fdmap_list_link, hhead, htail, hsize, and_self, if_true, wr_next, hm, wr_prev,
    store_write_same, Option.some_bind]
  refine ⟨_, rfl, ?_, rfl, rfl⟩
  refine ⟨⟨?_, trivial⟩, by simp, by simpa using hb, rfl, rfl, by simp [hsize]⟩
  simp [store_write, first_nil]

/-- Linking a fresh cell after the tail of a non-empty chain, the reference node being the
tail or `NULL`. -/
theorem link_after_tail_WF {l : fdmap_list D} {cs : List (Nat × Int × D)} {np : Nat} {k : Int}
    {v : D} {pv nx r : Option Nat}
    (h : WF l cs) (hne : cs ≠ []) (hnp : ∀ x ∈ cs, x.1 ≠ np)
    (hm : l.mem np = some ⟨k, v, pv, nx⟩) (hb : np < l.brk) (hr : r = none ∨ r = l.tail) :
    ∃ l1, fdmap_list_link l (some np) preposition_t.AFTER r = some l1 ∧
      WF l1 (cs ++ [(np, k, v)]) ∧ l1.type = l.type ∧ l1.brk = l.brk := by
  obtain ⟨hseg, hnd, hlt, hhead, htail, hsize⟩ := h
  have hnd1 := nodup_snoc (c := (np, k, v)) hnd hnp
  have hlt1 : ∀ x ∈ cs ++ [(np, k, v)], x.1 < l.brk := by
    intro x hx
    rcases List.mem_append.1 hx with hx | hx
    · exact hlt x hx
    · simp at hx; rw [hx]; exact hb
  rcases List.eq_nil_or_concat cs with rfl | ⟨cs0, t, rfl⟩
  · exact absurd rfl hne
  simp only [List.concat_eq_append, List.append_assoc, List.singleton_append] at *
  rw [Seg_append] at hseg
  obtain ⟨hseg0, ht, _⟩ := hseg
  simp only [first_nil, first_cons] at ht hseg0
  simp only [last_addr_append, last_addr] at htail
  have htn : t.1 ≠ np := hnp t (by simp)
  have hhd : l.head ≠ none := by
    rw [hhead]
    rcases first_cases (cs0 ++ [t]) none with h | ⟨x, _, h⟩
    · rw [first_append] at h ⊢; simp [first_cons] at h ⊢
      cases cs0 <;> simp [first]
    · rw [h]; simp
  obtain ⟨_, hn0t, _⟩ := nodup_split hnd
  have hcomp : fdmap_list_link l (some np) preposition_t.AFTER r =
      link_after l np t.1 := by
    rcases hr with rfl | rfl
    · simp [fdmap_list_link, hhd, htail]
    · simp [fdmap_list_link, htail]
  rw [hcomp]
  simp only [link_after, ht, Option.some_bind, wr_next, hm, wr_prev, store_write_same,
    store_write_ne _ _ htn, htail, if_true]
  refine ⟨_, rfl, ?_, rfl, rfl⟩
  refine ⟨?_, hnd1, hlt1, ?_, ?_, by simp [hsize]⟩
  · rw [Seg_append]
    refine ⟨Seg_frame (fun x hx => ?_) hseg0, ?_, ?_, trivial⟩
    · have h1 : x.1 ≠ np := hnp x (by simp [hx])
      simp [store_write, h1, hn0t x hx]
    · simp [store_write, first_cons]
    · simp [store_write, htn.symm, first_nil, last_addr]
  · rw [first_append, first_cons]; rw [first_append, first_cons] at hhead; exact hhead
  · simp [last_addr_append, last_addr]

/-- Linking a fresh cell before the head of a non-empty chain. -/
theorem link_before_head_WF {l : fdmap_list D} {c : Nat × Int × D}
    {rest : List (Nat × Int × D)} {np : Nat} {k : Int} {v : D} {pv nx : Option Nat}
    (h : WF l (c :: rest)) (hnp : ∀ x ∈ c :: rest, x.1 ≠ np)
    (hm : l.mem np = some ⟨k, v, pv, nx⟩) (hb : np < l.brk) :
    ∃ l1, fdmap_list_link l (some np) preposition_t.BEFORE (some c.1) = some l1 ∧
      WF l1 ((np, k, v) :: c :: rest) ∧ l1.type = l.type ∧ l1.brk = l.brk := by
  obtain ⟨hseg, hnd, hlt, hhead, htail, hsize⟩ := h
  have hnd1 := nodup_cons_cell (c := (np, k, v)) hnd hnp
  have hlt1 : ∀ x ∈ (np, k, v) :: c :: rest, x.1 < l.brk := by
    intro x hx
    rcases List.mem_cons.1 hx with hx | hx
    · rw [hx]; exact hb
    · exact hlt x hx
  obtain ⟨hc, hrest⟩ := hseg
  simp only [first_cons] at hhead
  have hcn : c.1 ≠ np := hnp c (List.mem_cons_self _ _)
  obtain ⟨_, _, hnrc⟩ := @nodup_split D [] _ _ hnd
  simp only [fdmap_list_link, reduceCtorEq, false_and, if_false, link_before, wr_next, hm,
    Option.some_bind, store_write_ne _ _ hcn, hc, wr_prev, store_write_same, hhead, if_true]
  refine ⟨_, rfl, ?_, rfl, rfl⟩
  refine ⟨⟨?_, ?_, Seg_frame (fun x hx => ?_) hrest⟩, hnd1, hlt1, rfl, ?_, by simp [hsize]⟩
  · simp [store_write, hcn.symm, first_cons]
  · simp [store_write]
  · have h1 : x.1 ≠ np := hnp x (List.mem_cons_of_mem _ hx)
    simp [store_write, h1, hnrc x hx]
  · simpa [last_addr] using htail

/-! ## The list operations on a well-formed chain -/

theorem WF_new (t : fdmap_list_type_t) : WF (fdmap_list_new t : fdmap_list D) [] :=
  ⟨trivial, List.nodup_nil, by simp, rfl, rfl, rfl⟩

theorem seq_WF {l : fdmap_list D} {cs : List (Nat × Int × D)} (h : WF l cs) :
    fdmap_list_seq l = some (cs.map Prod.snd) := by
  unfold fdmap_list_seq
  rw [h.head]
  exact walk_Seg h.seg (Nat.lt_succ_of_le h.length_le)

theorem fd_find_WF {l : fdmap_list D} {cs : List (Nat × Int × D)} (h : WF l cs) (k : Int) :
    fdmap_list_fd_find l k = some ((csplit l.type k cs).map fun r => r.2.1.1) := by
  unfold fdmap_list_fd_find
  rw [h.head]
  cases ht : l.type
  · exact fd_find_fifo_Seg k h.seg (Nat.lt_succ_of_le h.length_le)
  · exact fd_find_ordered_Seg k h.seg (Nat.lt_succ_of_le h.length_le)

theorem find_WF {l : fdmap_list D} {cs : List (Nat × Int × D)} (h : WF l cs) (k : Int) (d : D) :
    fdmap_list_find l k d = some (find_result d (csplit l.type k cs)) := by
  unfold fdmap_list_find
  rw [h.head]
  cases ht : l.type
  · exact find_fifo_Seg k d h.seg (Nat.lt_succ_of_le h.length_le)
  · exact find_ordered_Seg k d h.seg (Nat.lt_succ_of_le h.length_le)

theorem csplit_spec {t : fdmap_list_type_t} {k : Int} {cs pre post : List (Nat × Int × D)}
    {c : Nat × Int × D} (h : csplit t k cs = some (pre, c, post)) :
    cs = pre ++ c :: post ∧ c.2.1 = k ∧ ∀ x ∈ pre, x.2.1 ≠ k := by
  induction cs generalizing pre with
  | nil => simp [csplit] at h
  | cons a rest ih =>
    by_cases hk : a.2.1 = k
    · simp only [csplit, hk, if_true, Option.some.injEq, Prod.mk.injEq] at h
      obtain ⟨rfl, rfl, rfl⟩ := h
      exact ⟨rfl, hk, by simp⟩
    · simp only [csplit, hk, if_false] at h
      split at h
      · exact absurd h (by simp)
      · cases hr : csplit t k rest with
        | none => simp [hr] at h
        | some r =>
          obtain ⟨p0, c0, q0⟩ := r
          simp only [hr, Option.map_some', Option.some.injEq, Prod.mk.injEq] at h
          obtain ⟨rfl, rfl, rfl⟩ := h
          obtain ⟨h1, h2, h3⟩ := ih hr
          refine ⟨by rw [h1]; rfl, h2, ?_⟩
          intro x hx
          rcases List.mem_cons.1 hx with hx | hx
          · rw [hx]; exact hk
          · exact h3 x hx

theorem csplit_none_of_absent {t : fdmap_list_type_t} {k : Int} {cs : List (Nat × Int × D)}
    (h : ∀ x ∈ cs, x.2.1 ≠ k) : csplit t k cs = none := by
  induction cs with
  | nil => rfl
  | cons a rest ih =>
    have ha : a.2.1 ≠ k := h a (List.mem_cons_self _ _)
    have hr := ih (fun x hx => h x (List.mem_cons_of_mem _ hx))
    simp [csplit, ha, hr]

/-- On a well-formed list `fdmap_list_add` succeeds and yields the chain `cins`. -/
theorem add_WF {l : fdmap_list D} {cs : List (Nat × Int × D)} (h : WF l cs) (k : Int) (v : D) :
    ∃ l1, fdmap_list_add l k v = some l1 ∧ WF l1 (cins l.type (l.brk, k, v) cs) ∧
      l1.type = l.type ∧ l1.brk = l.brk + 1 := by
  have hne : ∀ x ∈ cs, x.1 ≠ l.brk := fun x hx => Nat.ne_of_lt (h.lt x hx)
  have h0 : WF (fdmap_node_new l k v none none).2 cs := by
    refine ⟨Seg_frame (fun x hx => ?_) h.seg, h.nodup,
      fun x hx => Nat.lt_succ_of_lt (h.lt x hx), h.head, h.tail, h.size⟩
    simp [fdmap_node_new, store_write, hne x hx]
  have hm : (fdmap_node_new l k v none none).2.mem l.brk = some ⟨k, v, none, none⟩ := by
    simp [fdmap_node_new, store_write]
  have hb : l.brk < (fdmap_node_new l k v none none).2.brk := by
    simp [fdmap_node_new]
  have hty : (fdmap_node_new l k v none none).2.type = l.type := rfl
  have hbk : (fdmap_node_new l k v none none).2.brk = l.brk + 1 := rfl
  have hfst : (fdmap_node_new l k v none none).1 = l.brk := rfl
  cases ht : l.type
  · -- FIFO: after the tail
    simp only [fdmap_list_add, hfst, hty, ht, cins]
    cases cs with
    | nil =>
      have htl : (fdmap_node_new l k v none none).2.tail = none := h0.tail
      rw [htl]
      obtain ⟨l1, e1, w1, t1, b1⟩ := link_empty_WF preposition_t.AFTER h0 hm hb
      exact ⟨l1, e1, w1, t1.trans (hty.trans ht), b1.trans hbk⟩
    | cons c rest =>
      obtain ⟨l1, e1, w1, t1, b1⟩ :=
        link_after_tail_WF h0 (List.cons_ne_nil _ _) hne hm hb (Or.inr rfl)
      exact ⟨l1, e1, w1, t1.trans (hty.trans ht), b1.trans hbk⟩
  · -- ORDERED: one comparison with the head
    simp only [fdmap_list_add, hfst, hty, ht, cins, hbk]
    cases cs with
    | nil =>
      have hhd : (fdmap_node_new l k v none none).2.head = none := h0.head
      simp only [hhd, add_scan, Option.some_bind]
      obtain ⟨l1, e1, w1, t1, b1⟩ := link_empty_WF preposition_t.AFTER h0 hm hb
      exact ⟨l1, e1, w1, t1.trans (hty.trans ht), b1.trans hbk⟩
    | cons c rest =>
      have hhd : (fdmap_node_new l k v none none).2.head = some c.1 := h0.head
      have hc := h0.seg.1
      by_cases hlt : c.2.1 < k
      · simp only [hhd, add_scan, hc, hlt, if_true, hm, Option.some_bind]
        obtain ⟨l1, e1, w1, t1, b1⟩ :=
          link_after_tail_WF h0 (List.cons_ne_nil _ _) hne hm hb (Or.inl rfl)
        exact ⟨l1, e1, w1, t1.trans (hty.trans ht), b1.trans hbk⟩
      · simp only [hhd, add_scan, hc, hlt, if_false, Option.some_bind]
        obtain ⟨l1, e1, w1, t1, b1⟩ := link_before_head_WF h0 hne hm hb
        exact ⟨l1, e1, w1, t1.trans (hty.trans ht), b1.trans hbk⟩

theorem Seg_cell {m : Nat → Option (fdmap_node D)} {pre post : List (Nat × Int × D)}
    {c : Nat × Int × D} {prev nxt : Option Nat} (h : Seg m prev (pre ++ c :: post) nxt) :
    m c.1 = some ⟨c.2.1, c.2.2, last_addr prev pre, first post nxt⟩ :=
  (Seg_append.1 h).2.1

theorem free_WF {l : fdmap_list D} {cs : List (Nat × Int × D)} {p : Nat} {n : fdmap_node D}
    (h : WF l cs) (hp : ∀ x ∈ cs, x.1 ≠ p) (hm : l.mem p = some n) :
    ∃ l1, fdmap_node_free l (some p) = some l1 ∧ WF l1 cs ∧ l1.type = l.type ∧
      l1.brk = l.brk ∧ l1.size = l.size := by
  simp only [fdmap_node_free, hm]
  refine ⟨_, rfl, ?_, rfl, rfl, rfl⟩
  exact ⟨Seg_frame (fun x hx => store_free_ne _ (hp x hx)) h.seg, h.nodup, h.lt, h.head,
    h.tail, h.size⟩

/-- On a well-formed list `fdmap_list_rm` succeeds: it returns 0 and the list as it was when
the search selects no cell, and otherwise returns 1 and the chain without the selected cell. -/
theorem rm_WF {l : fdmap_list D} {cs : List (Nat × Int × D)} (h : WF l cs) (k : Int) :
    match csplit l.type k cs with
    | none => fdmap_list_rm l k = some (0, l)
    | some r => ∃ l1, fdmap_list_rm l k = some (1, l1) ∧ WF l1 (r.1 ++ r.2.2) ∧
        l1.type = l.type ∧ l1.brk = l.brk := by
  cases hs : csplit l.type k cs with
  | none => simp [fdmap_list_rm, fd_find_WF h k, hs]
  | some r =>
    obtain ⟨pre, c, post⟩ := r
    obtain ⟨rfl, _, _⟩ := csplit_spec hs
    obtain ⟨l1, e1, w1, m1, b1, t1⟩ := unlink_WF h
    obtain ⟨_, hnpre, hnpost⟩ := nodup_split h.nodup
    have hp : ∀ x ∈ pre ++ post, x.1 ≠ c.1 := by
      intro x hx
      rcases List.mem_append.1 hx with hx | hx
      · exact hnpre x hx
      · exact hnpost x hx
    obtain ⟨l2, e2, w2, t2, b2, _⟩ := free_WF w1 hp (m1.trans (Seg_cell h.seg))
    refine ⟨l2, ?_, w2, t2.trans t1, b2.trans b1⟩
    simp [fdmap_list_rm, fd_find_WF h k, hs, e1, e2]

/-- On a well-formed non-empty list `fdmap_list_pop` returns 1, reports the head cell through
the non-null outputs and leaves the chain without its head. -/
theorem pop_cons_WF {l : fdmap_list D} {c : Nat × Int × D} {rest : List (Nat × Int × D)}
    (h : WF l (c :: rest)) (fd : Option Int) (data : Option D) :
    ∃ l1, fdmap_list_pop l fd data =
        some (1, fd.map (fun _ => c.2.1), data.map (fun _ => c.2.2), l1) ∧
      WF l1 rest ∧ l1.type = l.type ∧ l1.brk = l.brk := by
  obtain ⟨l1, e1, w1, m1, b1, t1⟩ := @unlink_WF D _ [] _ _ h
  obtain ⟨_, _, hnpost⟩ := @nodup_split D [] _ _ h.nodup
  have hc : l.mem c.1 = some ⟨c.2.1, c.2.2, none, first rest none⟩ := h.seg.1
  obtain ⟨l2, e2, w2, t2, b2, _⟩ := free_WF w1 hnpost (m1.trans hc)
  refine ⟨l2, ?_, w2, t2.trans t1, b2.trans b1⟩
  have hh : l.head = some c.1 := h.head
  simp [fdmap_list_pop, hh, e1, m1, hc, e2]

theorem pop_nil_WF {l : fdmap_list D} (h : WF l []) (fd : Option Int) (data : Option D) :
    fdmap_list_pop l fd data = some (0, fd, data, l) := by
  have hh : l.head = none := h.head
  simp [fdmap_list_pop, hh]

theorem peek_cons_WF {l : fdmap_list D} {c : Nat × Int × D} {rest : List (Nat × Int × D)}
    (h : WF l (c :: rest)) (fd : Option Int) (data : Option D) :
    fdmap_list_peek l fd data =
      some (1, fd.map (fun _ => c.2.1), data.map (fun _ => c.2.2), l) := by
  have hh : l.head = some c.1 := h.head
  have hc : l.mem c.1 = some ⟨c.2.1, c.2.2, none, first rest none⟩ := h.seg.1
  simp [fdmap_list_peek, hh, hc]

theorem peek_nil_WF {l : fdmap_list D} (h : WF l []) (fd : Option Int) (data : Option D) :
    fdmap_list_peek l fd data = some (0, fd, data, l) := by
  have hh : l.head = none := h.head
  simp [fdmap_list_peek, hh]

/-! ## The table operations under the table invariant -/

theorem bucket_of_lt {map : fdmap D} (hs : 0 < map.size)
    (hl : map.table.length = map.size.toNat) {k : Int} (hk : 0 ≤ k) :
    bucket_of map k < map.table.length := by
  unfold bucket_of
  rw [hl, Int.tmod_eq_emod hk (le_of_lt hs)]
  have h1 : 0 ≤ k % map.size := Int.emod_nonneg _ (ne_of_gt hs)
  have h2 : k % map.size < map.size := Int.emod_lt_of_pos _ hs
  omega

theorem table_get_bucket {map : fdmap D} (hs : 0 < map.size) {k : Int} (hk : 0 ≤ k) :
    (fdmap_hash map k).bind (table_get map) = map.table[bucket_of map k]? := by
  have h1 : 0 ≤ Int.tmod k map.size := by
    rw [Int.tmod_eq_emod hk (le_of_lt hs)]
    exact Int.emod_nonneg _ (ne_of_gt hs)
  simp [fdmap_hash, ne_of_gt hs, table_get, h1, bucket_of]

theorem fdmap_add_eq {map : fdmap D} (hs : 0 < map.size)
    (hl : map.table.length = map.size.toNat) {k : Int} (hk : 0 ≤ k) (v : D) :
    fdmap_add map k v =
      (fdmap_list_add (map.table.get ⟨bucket_of map k, bucket_of_lt hs hl hk⟩) k v).map
        fun b1 => { map with table := map.table.set (bucket_of map k) b1,
                             items := int_wrap (map.items + 1) } := by
  have h1 : 0 ≤ Int.tmod k map.size := by
    rw [Int.tmod_eq_emod hk (le_of_lt hs)]
    exact Int.emod_nonneg _ (ne_of_gt hs)
  have hlt := bucket_of_lt hs hl hk
  have hg : map.table[(Int.tmod k map.size).toNat]? =
      some (map.table.get ⟨bucket_of map k, hlt⟩) := by
    simp [bucket_of, List.getElem?_eq_getElem hlt]
  simp only [fdmap_add, ge_iff_le, hk, if_true, fdmap_hash, ne_of_gt hs, if_false,
    Option.some_bind, table_get, h1, hg]
  cases fdmap_list_add (map.table.get ⟨bucket_of map k, hlt⟩) k v <;> rfl

theorem fdmap_rm_eq {map : fdmap D} (hs : 0 < map.size)
    (hl : map.table.length = map.size.toNat) {k : Int} (hk : 0 ≤ k) :
    fdmap_rm map k =
      (fdmap_list_rm (map.table.get ⟨bucket_of map k, bucket_of_lt hs hl hk⟩) k).map
        fun r => { map with table := map.table.set (bucket_of map k) r.2,
                            items := if r.1 ≠ 0 then int_wrap (map.items - 1)
                              else map.items } := by
  have h1 : 0 ≤ Int.tmod k map.size := by
    rw [Int.tmod_eq_emod hk (le_of_lt hs)]
    exact Int.emod_nonneg _ (ne_of_gt hs)
  have hlt := bucket_of_lt hs hl hk
  have hg : map.table[(Int.tmod k map.size).toNat]? =
      some (map.table.get ⟨bucket_of map k, hlt⟩) := by
    simp [bucket_of, List.getElem?_eq_getElem hlt]
  simp only [fdmap_rm, ge_iff_le, hk, if_true, fdmap_hash, ne_of_gt hs, if_false,
    Option.some_bind, table_get, h1, hg]
  cases hr : fdmap_list_rm (map.table.get ⟨bucket_of map k, hlt⟩) k with
  | none => rfl
  | some r =>
    by_cases h0 : r.1 = 0 <;> simp [h0, bucket_of]

theorem fdmap_find_eq {map : fdmap D} (hs : 0 < map.size)
    (hl : map.table.length = map.size.toNat) {k : Int} (hk : 0 ≤ k) (d : D) :
    fdmap_find map k d =
      fdmap_list_find (map.table.get ⟨bucket_of map k, bucket_of_lt hs hl hk⟩) k d := by
  have h1 : 0 ≤ Int.tmod k map.size := by
    rw [Int.tmod_eq_emod hk (le_of_lt hs)]
    exact Int.emod_nonneg _ (ne_of_gt hs)
  have hlt := bucket_of_lt hs hl hk
  have hg : map.table[(Int.tmod k map.size).toNat]? =
      some (map.table.get ⟨bucket_of map k, hlt⟩) := by
    simp [bucket_of, List.getElem?_eq_getElem hlt]
  simp only [fdmap_find, ge_iff_le, hk, if_true, fdmap_hash, ne_of_gt hs, if_false,
    Option.some_bind, table_get, h1, hg]

theorem sum_sizes_set {bs : List (fdmap_list D)} {i : Nat} (hi : i < bs.length)
    (b1 : fdmap_list D) :
    ((bs.set i b1).map fdmap_list_size).sum + fdmap_list_size (bs.get ⟨i, hi⟩) =
      (bs.map fdmap_list_size).sum + fdmap_list_size b1 := by
  induction bs generalizing i with
  | nil => exact absurd hi (Nat.not_lt_zero _)
  | cons b rest ih =>
    cases i with
    | zero => simp; omega
    | succ j =>
      have hj : j < rest.length := Nat.lt_of_succ_lt_succ hi
      have := ih hj
      simp only [List.set_cons_succ, List.map_cons, List.sum_cons, List.get_cons_succ] at this ⊢
      omega

theorem mem_set_cases {bs : List (fdmap_list D)} {i : Nat} {b1 b : fdmap_list D}
    (h : b ∈ bs.set i b1) : b = b1 ∨ b ∈ bs := by
  rcases List.mem_or_eq_of_mem_set h with h | h
  · exact Or.inr h
  · exact Or.inl h

theorem TableInv_new (n : Int) : TableInv (fdmap_new n : fdmap D) := by
  refine ⟨?_, ?_, ?_, ?_⟩
  · simp only [fdmap_new, FDMAP_DEFAULT_SIZE]; split <;> omega
  · simp [fdmap_new]
  · intro b hb
    simp only [fdmap_new] at hb
    rw [List.eq_of_mem_replicate hb]
    exact ⟨[], WF_new _⟩
  · intro b hb
    simp only [fdmap_new] at hb
    rw [List.eq_of_mem_replicate hb]
    rfl

theorem cins_length (t : fdmap_list_type_t) (c : Nat × Int × D) (cs : List (Nat × Int × D)) :
    (cins t c cs).length = cs.length + 1 := by
  cases t with
  | FDMAP_LIST_TYPE_FIFO => simp [cins]
  | FDMAP_LIST_TYPE_ORDERED =>
    cases cs with
    | nil => simp [cins]
    | cons h rest =>
      simp only [cins]
      split <;> simp

theorem add_WellFormed {l : fdmap_list D} (h : WellFormed l) (k : Int) (v : D) :
    ∃ l1, fdmap_list_add l k v = some l1 ∧ WellFormed l1 ∧ l1.type = l.type ∧
      l1.size = l.size + 1 := by
  obtain ⟨cs, hcs⟩ := h
  obtain ⟨l1, e1, w1, t1, _⟩ := add_WF hcs k v
  refine ⟨l1, e1, ⟨_, w1⟩, t1, ?_⟩
  rw [w1.size, hcs.size, cins_length]

theorem rm_WellFormed {l : fdmap_list D} (h : WellFormed l) (k : Int) :
    ∃ r, fdmap_list_rm l k = some r ∧ WellFormed r.2 ∧ r.2.type = l.type ∧
      ((r.1 = 0 ∧ r.2 = l) ∨ (r.1 = 1 ∧ r.2.size + 1 = l.size)) := by
  obtain ⟨cs, hcs⟩ := h
  have hrm := rm_WF hcs k
  cases hs : csplit l.type k cs with
  | none =>
    rw [hs] at hrm
    exact ⟨(0, l), hrm, ⟨cs, hcs⟩, rfl, Or.inl ⟨rfl, rfl⟩⟩
  | some r =>
    rw [hs] at hrm
    obtain ⟨l1, e1, w1, t1, _⟩ := hrm
    obtain ⟨pre, c, post⟩ := r
    obtain ⟨rfl, _, _⟩ := csplit_spec hs
    refine ⟨(1, l1), e1, ⟨_, w1⟩, t1, Or.inr ⟨rfl, ?_⟩⟩
    show l1.size + 1 = l.size
    rw [w1.size, hcs.size]
    simp
    omega

theorem int_wrap_succ (x : Int) : int_wrap (int_wrap x + 1) = int_wrap (x + 1) := by
  unfold int_wrap; omega

theorem int_wrap_pred (x : Int) : int_wrap (int_wrap x - 1) = int_wrap (x - 1) := by
  unfold int_wrap; omega

theorem int_wrap_of_range {x : Int} (h1 : -2147483648 ≤ x) (h2 : x < 2147483648) :
    int_wrap x = x := by
  unfold int_wrap; omega

theorem TableInv_set {map : fdmap D} (h : TableInv map) {i : Nat}
    (_hi : i < map.table.length) {b1 : fdmap_list D} (hw : WellFormed b1)
    (ht : b1.type = fdmap_list_type_t.FDMAP_LIST_TYPE_ORDERED) (n : Int) :
    TableInv { map with table := map.table.set i b1, items := n } := by
  refine ⟨h.size_pos, ?_, ?_, ?_⟩
  · simpa using h.len
  · intro b hb
    rcases mem_set_cases hb with rfl | hb
    · exact hw
    · exact h.wf b hb
  · intro b hb
    rcases mem_set_cases hb with rfl | hb
    · exact ht
    · exact h.ordered b hb

theorem bucket_sizes_set (map : fdmap D) {i : Nat} (hi : i < map.table.length)
    (b1 : fdmap_list D) (n : Int) :
    bucket_sizes { map with table := map.table.set i b1, items := n } +
        fdmap_list_size (map.table.get ⟨i, hi⟩) =
      bucket_sizes map + fdmap_list_size b1 :=
  sum_sizes_set hi b1

/-- Under the table invariant `fdmap_add` with a non-negative key succeeds, keeps the
invariant, increments `items` as an `int` and adds one to the sum of the bucket sizes. -/
theorem fdmap_add_inv {map : fdmap D} (h : TableInv map) {k : Int} (hk : 0 ≤ k) (v : D) :
    ∃ map1, fdmap_add map k v = some map1 ∧ TableInv map1 ∧ map1.size = map.size ∧
      map1.items = int_wrap (map.items + 1) ∧ bucket_sizes map1 = bucket_sizes map + 1 := by
  have hlt := bucket_of_lt h.size_pos h.len hk
  have hmem : map.table.get ⟨bucket_of map k, hlt⟩ ∈ map.table := List.get_mem _ _ _
  obtain ⟨b1, e1, w1, t1, s1⟩ := add_WellFormed (h.wf _ hmem) k v
  rw [fdmap_add_eq h.size_pos h.len hk, e1]
  refine ⟨_, rfl, TableInv_set h hlt w1 (t1.trans (h.ordered _ hmem)) _, rfl, rfl, ?_⟩
  have hs := bucket_sizes_set map hlt b1 (int_wrap (map.items + 1))
  simp only [fdmap_list_size] at hs
  rw [s1] at hs
  beta_reduce
  omega

/-- Under the table invariant `fdmap_rm` with a non-negative key succeeds and keeps the
invariant; `items` is decremented as an `int`, and the sum of the bucket sizes drops by one,
exactly when `fdmap_list_rm` on the bucket returned 1. -/
theorem fdmap_rm_inv {map : fdmap D} (h : TableInv map) {k : Int} (hk : 0 ≤ k) :
    ∃ map1 r, fdmap_rm map k = some map1 ∧ TableInv map1 ∧ map1.size = map.size ∧
      fdmap_list_rm (map.table.get ⟨bucket_of map k, bucket_of_lt h.size_pos h.len hk⟩) k =
        some r ∧
      ((r.1 = 0 ∧ map1.items = map.items ∧ bucket_sizes map1 = bucket_sizes map) ∨
        (r.1 = 1 ∧ map1.items = int_wrap (map.items - 1) ∧
          bucket_sizes map1 + 1 = bucket_sizes map)) := by
  have hlt := bucket_of_lt h.size_pos h.len hk
  have hmem : map.table.get ⟨bucket_of map k, hlt⟩ ∈ map.table := List.get_mem _ _ _
  obtain ⟨r, e1, w1, t1, hr⟩ := rm_WellFormed (h.wf _ hmem) k
  rw [fdmap_rm_eq h.size_pos h.len hk, e1]
  refine ⟨_, r, rfl, TableInv_set h hlt w1 (t1.trans (h.ordered _ hmem)) _, rfl, rfl, ?_⟩
  have hs := bucket_sizes_set map hlt r.2
    (if r.1 ≠ 0 then int_wrap (map.items - 1) else map.items)
  simp only [fdmap_list_size] at hs
  rcases hr with ⟨h0, he⟩ | ⟨h1, hsz⟩
  · refine Or.inl ⟨h0, by simp [h0], ?_⟩
    have hsz : r.2.size = (map.table.get ⟨bucket_of map k, hlt⟩).size := by rw [he]
    simp only [Option.map_some', h0, ne_eq, not_true_eq_false, if_false] at hs ⊢
    omega
  · refine Or.inr ⟨h1, by simp [h1], ?_⟩
    simp only [Option.map_some', h1, ne_eq, one_ne_zero, not_false_eq_true, if_true] at hs ⊢
    omega

theorem fdmap_run_inv {map : fdmap D} (h : TableInv map) (ops : List (fdmap_op D))
    (hk : ∀ op ∈ ops, 0 ≤ op.key) :
    ∃ map1, fdmap_run map ops = some map1 ∧ TableInv map1 ∧ map1.size = map.size ∧
      (map.items = int_wrap (bucket_sizes map) →
        map1.items = int_wrap (bucket_sizes map1)) := by
  induction ops generalizing map with
  | nil => exact ⟨map, rfl, h, rfl, fun hi => hi⟩
  | cons op rest ih =>
    have hop : 0 ≤ op.key := hk op (List.mem_cons_self _ _)
    have hrest : ∀ o ∈ rest, 0 ≤ o.key := fun o ho => hk o (List.mem_cons_of_mem _ ho)
    cases op with
    | add fd data =>
      obtain ⟨m1, e1, i1, s1, hi1, hb1⟩ := fdmap_add_inv h (k := fd) hop data
      obtain ⟨m2, e2, i2, s2, hi2⟩ := ih i1 hrest
      refine ⟨m2, by simp [fdmap_run, fdmap_step, e1, e2], i2, s2.trans s1, fun hi => hi2 ?_⟩
      rw [hi1, hi, int_wrap_succ, hb1]
      push_cast
      rfl
    | rm fd =>
      obtain ⟨m1, r, e1, i1, s1, _, hr⟩ := fdmap_rm_inv h (k := fd) hop
      obtain ⟨m2, e2, i2, s2, hi2⟩ := ih i1 hrest
      refine ⟨m2, by simp [fdmap_run, fdmap_step, e1, e2], i2, s2.trans s1, fun hi => hi2 ?_⟩
      rcases hr with ⟨_, hit, hbs⟩ | ⟨_, hit, hbs⟩
      · rw [hit, hi, hbs]
      · rw [hit, hi, int_wrap_pred, ← hbs]
        push_cast
        congr 1
        ring

theorem fdmap_new_items (n : Int) :
    (fdmap_new n : fdmap D).items = int_wrap (bucket_sizes (fdmap_new n : fdmap D)) := by
  simp [fdmap_new, bucket_sizes, fdmap_list_size, fdmap_list_new, int_wrap]

/-- The calls `fdmap_add(map, k, v)` made `N` times in a row add `N` to the sum of the
bucket sizes. -/
theorem fdmap_run_adds {map : fdmap D} (h : TableInv map) {k : Int} (hk : 0 ≤ k) (v : D)
    (N : Nat) :
    ∃ map1, fdmap_run map (List.replicate N (fdmap_op.add k v)) = some map1 ∧
      TableInv map1 ∧ bucket_sizes map1 = bucket_sizes map + N ∧
      (map.items = int_wrap (bucket_sizes map) →
        map1.items = int_wrap (bucket_sizes map1)) := by
  induction N generalizing map with
  | zero => exact ⟨map, rfl, h, rfl, fun hi => hi⟩
  | succ M ih =>
    obtain ⟨m1, e1, i1, _, hi1, hb1⟩ := fdmap_add_inv h hk v
    obtain ⟨m2, e2, i2, hb2, hi2⟩ := ih i1
    refine ⟨m2, by simp [List.replicate_succ, fdmap_run, fdmap_step, e1, e2], i2, ?_,
      fun hi => hi2 ?_⟩
    · rw [hb2, hb1]; omega
    · rw [hi1, hi, int_wrap_succ, hb1]
      push_cast
      rfl

/-! ## The claims -/

theorem int_wrap_range (x : Int) : -2147483648 ≤ int_wrap x ∧ int_wrap x < 2147483648 := by
  unfold int_wrap; omega

/-- C4 as stated fails on the code: `items` is an `int`. After 2^31 calls `fdmap_add(map, 0,
v)` on a table with one bucket the bucket holds 2^31 nodes while `map->items++` has wrapped
round to -2^31, so `items` differs from the sum of the bucket sizes. -/
theorem items_counter_wraps_at_two_pow_31 :
    ∃ map : fdmap Unit,
      fdmap_run (fdmap_new 1) (List.replicate 2147483648 (fdmap_op.add 0 ())) = some map ∧
      bucket_sizes map = 2147483648 ∧ map.items = -2147483648 ∧
      map.items ≠ (bucket_sizes map : Int) := by
  obtain ⟨map, e, _, hb, hi⟩ :=
    fdmap_run_adds (TableInv_new 1 : TableInv (fdmap_new 1 : fdmap Unit)) (le_refl 0) ()
      2147483648
  have hb0 : bucket_sizes (fdmap_new 1 : fdmap Unit) = 0 := by
    simp [fdmap_new, bucket_sizes, fdmap_list_size, fdmap_list_new]
  rw [hb0, Nat.zero_add] at hb
  have hit := hi (fdmap_new_items 1)
  rw [hb] at hit
  have hv : int_wrap ((2147483648 : Nat) : Int) = -2147483648 := by
    unfold int_wrap; omega
  rw [hv] at hit
  refine ⟨map, e, hb, hit, ?_⟩
  rw [hit, hb]
  omega

/-- C4, amended: on every table reached from `fdmap_new n` by `fdmap_add` and `fdmap_rm`
calls with non-negative keys, at every point of the sequence (every initial part `pre` of
the calls) the calls succeed and `items` equals the sum of `fdmap_list_size` over the buckets
reduced to the range of `int`, so it equals the sum itself whenever the sum is at most
`INT_MAX = 2^31 - 1`; from such a table `fdmap_add` increments `items` as an `int` (by one
below `INT_MAX`), and `fdmap_rm` decrements it, exactly when `fdmap_list_rm` on the bucket
returned 1 and removed a node. -/
theorem items_eq_sum_of_bucket_sizes_in_int_range (n : Int) (ops : List (fdmap_op D))
    (hk : ∀ op ∈ ops, 0 ≤ op.key) :
    ∀ pre, pre <+: ops →
      ∃ map, fdmap_run (fdmap_new n) pre = some map ∧
        map.items = int_wrap (bucket_sizes map) ∧
        (bucket_sizes map ≤ 2147483647 → map.items = (bucket_sizes map : Int)) ∧
        (∀ k v, 0 ≤ k → ∃ map1, fdmap_add map k v = some map1 ∧
          map1.items = int_wrap (map.items + 1) ∧
          (map.items < 2147483647 → map1.items = map.items + 1)) ∧
        (∀ k, 0 ≤ k → ∃ map1 b r, fdmap_rm map k = some map1 ∧
          (fdmap_hash map k).bind (table_get map) = some b ∧ fdmap_list_rm b k = some r ∧
          ((r.1 = 1 ∧ fdmap_list_size r.2 + 1 = fdmap_list_size b ∧
              map1.items = int_wrap (map.items - 1) ∧
              (-2147483648 < map.items → map1.items = map.items - 1)) ∨
            (r.1 = 0 ∧ r.2 = b ∧ map1.items = map.items))) := by
  intro pre hpre
  have hkp : ∀ op ∈ pre, 0 ≤ op.key := fun op hop => hk op (hpre.subset hop)
  obtain ⟨map, e, inv, _, hi⟩ := fdmap_run_inv (TableInv_new n) pre hkp
  have hit := hi (fdmap_new_items n)
  have hrange := int_wrap_range (bucket_sizes map)
  rw [← hit] at hrange
  refine ⟨map, e, hit, ?_, ?_, ?_⟩
  · intro hle
    rw [hit]
    exact int_wrap_of_range (by omega) (by omega)
  · intro k v hk0
    obtain ⟨m1, e1, _, _, h1, _⟩ := fdmap_add_inv inv hk0 v
    refine ⟨m1, e1, h1, fun hlt => ?_⟩
    rw [h1]
    exact int_wrap_of_range (by omega) (by omega)
  · intro k hk0
    obtain ⟨m1, r, e1, _, _, er, hr⟩ := fdmap_rm_inv inv hk0
    have hlt := bucket_of_lt inv.size_pos inv.len hk0
    have hmem : map.table.get ⟨bucket_of map k, hlt⟩ ∈ map.table := List.get_mem _ _ _
    refine ⟨m1, map.table.get ⟨bucket_of map k, hlt⟩, r, e1, ?_, er, ?_⟩
    · rw [table_get_bucket inv.size_pos hk0]
      exact List.getElem?_eq_getElem hlt
    · obtain ⟨r2, er2, _, _, hr2⟩ := rm_WellFormed (inv.wf _ hmem) k
      have hrr : r2 = r := Option.some.inj (er2.symm.trans er)
      subst hrr
      rcases hr with ⟨h0, hi, _⟩ | ⟨h1, hi, _⟩
      · rcases hr2 with ⟨_, he⟩ | ⟨h1, _⟩
        · exact Or.inr ⟨h0, he, hi⟩
        · rw [h0] at h1; exact absurd h1 (by decide)
      · rcases hr2 with ⟨h0, _⟩ | ⟨_, hs⟩
        · rw [h1] at h0; exact absurd h0 (by decide)
        · refine Or.inl ⟨h1, hs, hi, fun hgt => ?_⟩
          rw [hi]
          exact int_wrap_of_range (by omega) (by omega)

/-- Witness of C4 with four buckets and the calls add 9, add 13, rm 9, rm 5. -/
theorem items_eq_sum_of_bucket_sizes_in_int_range_witness :
    (∀ op ∈ [fdmap_op.add 9 "x", fdmap_op.add 13 "y", fdmap_op.rm 9, fdmap_op.rm 5],
        0 ≤ op.key) ∧
      ∃ map, fdmap_run (fdmap_new 4)
          [fdmap_op.add 9 "x", fdmap_op.add 13 "y", fdmap_op.rm 9, fdmap_op.rm 5] = some map ∧
        map.items = int_wrap (bucket_sizes map) ∧
        (bucket_sizes map ≤ 2147483647 → map.items = (bucket_sizes map : Int)) :=
  ⟨by decide, by
    obtain ⟨map, e, h, h2, _⟩ := items_eq_sum_of_bucket_sizes_in_int_range 4
      [fdmap_op.add 9 "x", fdmap_op.add 13 "y", fdmap_op.rm 9, fdmap_op.rm 5] (by decide)
      _ (List.prefix_refl _)
    exact ⟨map, e, h, h2⟩⟩

/-- C1 fails on the code: on a table with one bucket, after the calls add 0, add 2, add 1 the
bucket holds the keys 0, 2, 1 in this order, and `fdmap_find` of key 1, called immediately
after `fdmap_add` of key 1, stops at key 2 and returns 0 without writing the output. -/
theorem find_after_add_not_found :
    (fdmap_run (fdmap_new 1)
        [fdmap_op.add 0 "a", fdmap_op.add 2 "b", fdmap_op.add 1 "c"]).map
      (fun m => (m.table.map fdmap_list_keys, fdmap_find m 1 "")) =
      some ([[0, 2, 1]], some (0, "")) := by
  decide

/-- C2 fails on the code: adding the keys 5, 1, 3 in this order to an empty `ORDERED` list
yields the head-to-tail key sequence 1, 5, 3, which is not non-decreasing. -/
theorem ordered_adds_5_1_3_keys :
    (list_adds (fdmap_list_new fdmap_list_type_t.FDMAP_LIST_TYPE_ORDERED)
        [(5, "a"), (1, "b"), (3, "c")]).bind fdmap_list_seq =
      some [(1, "b"), (5, "a"), (3, "c")] ∧
    ¬ List.Pairwise (fun a b : Int => a ≤ b)
      (fdmap_list_keys (list_of_adds fdmap_list_type_t.FDMAP_LIST_TYPE_ORDERED
        [(5, "a"), (1, "b"), (3, "c")])) := by
  decide

/-- C3 fails on the code: on the `ORDERED` list holding the keys 1, 5, `fdmap_list_add` of
key 3 appends the new node at the tail, although the node keyed 5 is the first node whose
key is at least 3; the insertion the specification words puts it before that node. -/
theorem ordered_add_not_before_first_ge :
    fdmap_list_seq (list_of_adds fdmap_list_type_t.FDMAP_LIST_TYPE_ORDERED
        [(1, "a"), (5, "b")]) = some [(1, "a"), (5, "b")] ∧
    (fdmap_list_add (list_of_adds fdmap_list_type_t.FDMAP_LIST_TYPE_ORDERED
        [(1, "a"), (5, "b")]) 3 "c").bind fdmap_list_seq =
      some [(1, "a"), (5, "b"), (3, "c")] ∧
    spec_ordered_insert 3 "c" [(1, "a"), (5, "b")] = [(1, "a"), (3, "c"), (5, "b")] := by
  decide

/-- C8 fails on the code: the `ORDERED` list built by adding the keys 5, 1, 3 and popping
once holds the keys 5, 3, and the next `fdmap_list_pop` returns key 5 although a node keyed
3 is in the list. -/
theorem ordered_pop_not_smallest :
    (fdmap_list_pop (list_of_adds fdmap_list_type_t.FDMAP_LIST_TYPE_ORDERED
        [(5, "a"), (1, "b"), (3, "c")]) (some 0) (some "")).map
      (fun r => (r.1, r.2.1, fdmap_list_keys r.2.2.2)) = some (1, some 1, [5, 3]) ∧
    (fdmap_list_pop (list_of_adds fdmap_list_type_t.FDMAP_LIST_TYPE_ORDERED
        [(5, "a"), (1, "b"), (3, "c")]) (some 0) (some "")).bind
      (fun r => (fdmap_list_pop r.2.2.2 (some 0) (some "")).map
        fun r2 => (r2.1, r2.2.1, fdmap_list_keys r2.2.2.2)) = some (1, some 5, [3]) := by
  decide

theorem set_get_self {bs : List (fdmap_list D)} {i : Nat} (hi : i < bs.length) :
    bs.set i (bs.get ⟨i, hi⟩) = bs := by
  induction bs generalizing i with
  | nil => rfl
  | cons b rest ih =>
    cases i with
    | zero => rfl
    | succ j =>
      have hj : j < rest.length := Nat.lt_of_succ_lt_succ hi
      simp only [List.set_cons_succ, List.get_cons_succ]
      rw [ih hj]

theorem keys_WF {l : fdmap_list D} {cs : List (Nat × Int × D)} (h : WF l cs) :
    fdmap_list_keys l = cs.map fun c => c.2.1 := by
  simp [fdmap_list_keys, seq_WF h, List.map_map, Function.comp]

theorem list_adds_WF {l : fdmap_list D} {cs : List (Nat × Int × D)} (h : WF l cs)
    (xs : List (Int × D)) :
    ∃ l1 cs1, list_adds l xs = some l1 ∧ WF l1 cs1 ∧ l1.type = l.type := by
  induction xs generalizing l cs with
  | nil => exact ⟨l, cs, rfl, h, rfl⟩
  | cons x rest ih =>
    obtain ⟨l1, e1, w1, t1, _⟩ := add_WF h x.1 x.2
    obtain ⟨l2, cs2, e2, w2, t2⟩ := ih w1
    exact ⟨l2, cs2, by simp [list_adds, e1, e2], w2, t2.trans t1⟩

theorem list_of_adds_WellFormed (t : fdmap_list_type_t) (xs : List (Int × D)) :
    WellFormed (list_of_adds t xs) ∧ (list_of_adds t xs).type = t := by
  obtain ⟨l1, cs1, e1, w1, t1⟩ := list_adds_WF (WF_new t) xs
  simp only [list_of_adds, e1, Option.getD_some]
  exact ⟨⟨cs1, w1⟩, t1⟩

theorem table_of_ops_inv (n : Int) (ops : List (fdmap_op D)) (hk : ∀ op ∈ ops, 0 ≤ op.key) :
    TableInv (table_of_ops n ops) := by
  obtain ⟨m, e, inv, _⟩ := fdmap_run_inv (TableInv_new n) ops hk
  simp only [table_of_ops, e, Option.getD_some]
  exact inv

/-- C5: on a well-formed list of either type that holds no node keyed `k`,
`fdmap_list_rm(list, k)` returns 0 and leaves the list as it was (record, size and cells);
on a table satisfying the table invariant none of whose buckets holds a node keyed `k2`,
`fdmap_rm(map, k2)` with `k2 >= 0` leaves `items` and every bucket as they were. -/
theorem rm_absent_key_unchanged (l : fdmap_list D) (k : Int) (map : fdmap D) (k2 : Int)
    (hl : WellFormed l) (hlk : k ∉ fdmap_list_keys l)
    (hm : TableInv map) (hk : 0 ≤ k2) (hmk : ∀ b ∈ map.table, k2 ∉ fdmap_list_keys b) :
    fdmap_list_rm l k = some (0, l) ∧ fdmap_rm map k2 = some map := by
  have hlist : ∀ (b : fdmap_list D) (j : Int), WellFormed b → j ∉ fdmap_list_keys b →
      fdmap_list_rm b j = some (0, b) := by
    intro b j ⟨cs, hcs⟩ hb
    rw [keys_WF hcs] at hb
    have habs : ∀ x ∈ cs, x.2.1 ≠ j := by
      intro x hx he
      exact hb (List.mem_map.2 ⟨x, hx, he⟩)
    have hrm := rm_WF hcs j
    rw [csplit_none_of_absent habs] at hrm
    exact hrm
  refine ⟨hlist l k hl hlk, ?_⟩
  have hlt := bucket_of_lt hm.size_pos hm.len hk
  have hmem : map.table.get ⟨bucket_of map k2, hlt⟩ ∈ map.table := List.get_mem _ _ _
  rw [fdmap_rm_eq hm.size_pos hm.len hk, hlist _ k2 (hm.wf _ hmem) (hmk _ hmem)]
  simp only [Option.map_some', ne_eq, not_true_eq_false, if_false, set_get_self hlt]

/-- Witness of C5: the `ORDERED` list holding the keys 1, 5, 3 with the absent key -2; the
table with four buckets holding the keys 9 and 13 with the absent key 5, whose bucket
holds the other two keys. -/
theorem rm_absent_key_unchanged_witness :
    fdmap_list_rm (list_of_adds fdmap_list_type_t.FDMAP_LIST_TYPE_ORDERED
        [(5, "a"), (1, "b"), (3, "c")]) (-2) =
      some (0, list_of_adds fdmap_list_type_t.FDMAP_LIST_TYPE_ORDERED
        [(5, "a"), (1, "b"), (3, "c")]) ∧
    fdmap_rm (table_of_ops 4 [fdmap_op.add 9 "x", fdmap_op.add 13 "y"]) 5 =
      some (table_of_ops 4 [fdmap_op.add 9 "x", fdmap_op.add 13 "y"]) :=
  rm_absent_key_unchanged
    (list_of_adds fdmap_list_type_t.FDMAP_LIST_TYPE_ORDERED [(5, "a"), (1, "b"), (3, "c")])
    (-2) (table_of_ops 4 [fdmap_op.add 9 "x", fdmap_op.add 13 "y"]) 5
    (list_of_adds_WellFormed _ _).1 (by decide)
    (table_of_ops_inv 4 _ (by decide)) (by decide) (by decide)

theorem fifo_adds_WF {l : fdmap_list D} {cs : List (Nat × Int × D)} (h : WF l cs)
    (ht : l.type = fdmap_list_type_t.FDMAP_LIST_TYPE_FIFO) (xs : List (Int × D)) :
    ∃ l1 cs1, list_adds l xs = some l1 ∧ WF l1 (cs ++ cs1) ∧ cs1.map Prod.snd = xs := by
  induction xs generalizing l cs with
  | nil => exact ⟨l, [], rfl, by simpa using h, rfl⟩
  | cons x rest ih =>
    obtain ⟨l1, e1, w1, t1, _⟩ := add_WF h x.1 x.2
    rw [ht] at w1
    simp only [cins] at w1
    obtain ⟨l2, cs2, e2, w2, m2⟩ := ih w1 (t1.trans ht)
    refine ⟨l2, (l.brk, x.1, x.2) :: cs2, by simp [list_adds, e1, e2], ?_, by simp [m2]⟩
    simpa using w2

theorem list_pops_WF {l : fdmap_list D} {cs : List (Nat × Int × D)} (h : WF l cs)
    (fd : Int) (d : D) :
    ∃ l1, list_pops l fd d cs.length = some (cs.map (fun c => (1, c.2.1, c.2.2)), l1) ∧
      WF l1 [] := by
  induction cs generalizing l fd d with
  | nil => exact ⟨l, rfl, h⟩
  | cons c rest ih =>
    obtain ⟨l1, e1, w1, _, _⟩ := pop_cons_WF h (some fd) (some d)
    obtain ⟨l2, e2, w2⟩ := ih w1 c.2.1 c.2.2
    exact ⟨l2, by simp [list_pops, e1, e2], w2⟩

/-- C6 (queue law): for every sequence `xs` of pairs, the `fdmap_list_add` calls for `xs` on
an empty `FIFO` list succeed and give a list of size `N = xs.length`; `N` calls of
`fdmap_list_pop` on it each return 1 and deliver exactly the pairs of `xs` in insertion
order; the list is then empty (size 0, no entry) and a further pop returns 0, writes no
output and leaves the list as it is. -/
theorem fifo_queue_law (xs : List (Int × D)) (fd0 : Int) (d0 : D) :
    ∃ l l1, list_adds (fdmap_list_new fdmap_list_type_t.FDMAP_LIST_TYPE_FIFO) xs = some l ∧
      fdmap_list_size l = xs.length ∧
      fdmap_list_seq l = some xs ∧
      list_pops l fd0 d0 xs.length = some (xs.map (fun x => (1, x.1, x.2)), l1) ∧
      fdmap_list_size l1 = 0 ∧ fdmap_list_seq l1 = some [] ∧
      ∀ fd data, fdmap_list_pop l1 fd data = some (0, fd, data, l1) := by
  obtain ⟨l, cs, e, w, hm⟩ :=
    fifo_adds_WF (WF_new fdmap_list_type_t.FDMAP_LIST_TYPE_FIFO) rfl xs
  simp only [List.nil_append] at w
  obtain ⟨l1, e1, w1⟩ := list_pops_WF w fd0 d0
  have hlen : cs.length = xs.length := by rw [← hm, List.length_map]
  refine ⟨l, l1, e, ?_, ?_, ?_, w1.size, seq_WF w1, fun fd data => pop_nil_WF w1 fd data⟩
  · exact w.size.trans hlen
  · rw [seq_WF w, hm]
  · rw [← hlen, e1, ← hm]
    simp [List.map_map, Function.comp]

/-- C7: on a well-formed list of either type, `fdmap_list_peek` returns the list as it was
(same size, same cells) whether or not it succeeds, and reports the result and outputs that
`fdmap_list_pop` reports on the same list; on an empty list both return 0, leave the
outputs as they were, and pop leaves the list as it was; on a non-empty list both
return 1. -/
theorem peek_reports_pop_and_keeps_list (l : fdmap_list D) (fd : Option Int)
    (data : Option D) (hw : WellFormed l) :
    ∃ ret fd1 data1 l1,
      fdmap_list_peek l fd data = some (ret, fd1, data1, l) ∧
      fdmap_list_pop l fd data = some (ret, fd1, data1, l1) ∧
      (fdmap_list_size l = 0 → ret = 0 ∧ fd1 = fd ∧ data1 = data ∧ l1 = l) ∧
      (fdmap_list_size l ≠ 0 → ret = 1) := by
  obtain ⟨cs, hcs⟩ := hw
  cases cs with
  | nil =>
    refine ⟨0, fd, data, l, peek_nil_WF hcs fd data, pop_nil_WF hcs fd data,
      fun _ => ⟨rfl, rfl, rfl, rfl⟩, fun h => absurd hcs.size h⟩
  | cons c rest =>
    obtain ⟨l1, e1, _, _, _⟩ := pop_cons_WF hcs fd data
    refine ⟨1, _, _, l1, peek_cons_WF hcs fd data, e1, fun h => ?_, fun _ => rfl⟩
    have hs : l.size = (c :: rest).length := hcs.size
    simp [fdmap_list_size, hs] at h

/-- Witness of C7 on the `ORDERED` list built by adding the keys 5, 1, 3. -/
theorem peek_reports_pop_and_keeps_list_witness :
    ∃ ret fd1 data1 l1,
      fdmap_list_peek (list_of_adds fdmap_list_type_t.FDMAP_LIST_TYPE_ORDERED
          [(5, "a"), (1, "b"), (3, "c")]) (some 0) (some "") =
        some (ret, fd1, data1, list_of_adds fdmap_list_type_t.FDMAP_LIST_TYPE_ORDERED
          [(5, "a"), (1, "b"), (3, "c")]) ∧
      fdmap_list_pop (list_of_adds fdmap_list_type_t.FDMAP_LIST_TYPE_ORDERED
          [(5, "a"), (1, "b"), (3, "c")]) (some 0) (some "") = some (ret, fd1, data1, l1) ∧
      ret = 1 ∧ fd1 = some 1 ∧ data1 = some "b" := by
  obtain ⟨ret, fd1, data1, l1, h1, h2, _, _⟩ :=
    peek_reports_pop_and_keeps_list
      (list_of_adds fdmap_list_type_t.FDMAP_LIST_TYPE_ORDERED [(5, "a"), (1, "b"), (3, "c")])
      (some 0) (some "") (list_of_adds_WellFormed _ _).1
  refine ⟨ret, fd1, data1, l1, h1, h2, ?_⟩
  have h3 : (fdmap_list_peek (list_of_adds fdmap_list_type_t.FDMAP_LIST_TYPE_ORDERED
      [(5, "a"), (1, "b"), (3, "c")]) (some 0) (some "")).map
      (fun r => (r.1, r.2.1, r.2.2.1)) = some (1, some 1, some "b") := by decide
  rw [h1] at h3
  simp only [Option.map_some', Option.some.injEq, Prod.mk.injEq] at h3
  exact h3

/-- C9: on a well-formed list of either type `fdmap_list_rm(list, k)` succeeds and returns 0
or 1; when it returns 1 the size has decreased by exactly 1 and the new head-to-tail
sequence is the old one with one entry deleted, the first entry keyed `k`, every other entry
(other entries keyed `k` included) keeping its value and its place in the order. Adding
(7,a) then (7,b) to an empty `ORDERED` list gives size 2, a lookup of 7 returns one of the
two values, and one removal of 7 leaves size 1 with exactly one entry keyed 7. -/
theorem rm_removes_first_match (l : fdmap_list D) (k : Int) (hw : WellFormed l) :
    (∃ r, fdmap_list_rm l k = some r ∧ (r.1 = 0 ∨ r.1 = 1) ∧
      (r.1 = 1 → fdmap_list_size r.2 + 1 = fdmap_list_size l ∧
        ∃ pre e post, fdmap_list_seq l = some (pre ++ e :: post) ∧ e.1 = k ∧
          (∀ x ∈ pre, x.1 ≠ k) ∧ fdmap_list_seq r.2 = some (pre ++ post))) ∧
    fdmap_list_size (list_of_adds fdmap_list_type_t.FDMAP_LIST_TYPE_ORDERED
      [(7, "a"), (7, "b")]) = 2 ∧
    fdmap_list_find (list_of_adds fdmap_list_type_t.FDMAP_LIST_TYPE_ORDERED
      [(7, "a"), (7, "b")]) 7 "" = some (1, "b") ∧
    (fdmap_list_rm (list_of_adds fdmap_list_type_t.FDMAP_LIST_TYPE_ORDERED
        [(7, "a"), (7, "b")]) 7).map (fun r => (r.1, fdmap_list_size r.2, fdmap_list_seq r.2)) =
      some (1, 1, some [(7, "a")]) := by
  refine ⟨?_, by decide, by decide, by decide⟩
  obtain ⟨cs, hcs⟩ := hw
  have hrm := rm_WF hcs k
  cases hs : csplit l.type k cs with
  | none =>
    rw [hs] at hrm
    exact ⟨(0, l), hrm, Or.inl rfl, fun h => by simp at h⟩
  | some r =>
    rw [hs] at hrm
    obtain ⟨pre, c, post⟩ := r
    obtain ⟨l1, e1, w1, _, _⟩ := hrm
    obtain ⟨hsplit, hck, hpre⟩ := csplit_spec hs
    refine ⟨(1, l1), e1, Or.inr rfl, fun _ => ⟨?_, pre.map Prod.snd, c.2, post.map Prod.snd,
      ?_, hck, ?_, ?_⟩⟩
    · show l1.size + 1 = l.size
      rw [w1.size, hcs.size, hsplit]
      simp
      omega
    · rw [seq_WF hcs, hsplit]; simp
    · intro x hx
      obtain ⟨y, hy, rfl⟩ := List.mem_map.1 hx
      exact hpre y hy
    · rw [seq_WF w1]; simp

/-- Witness of C9 on the `ORDERED` list built by adding the keys 5, 1, 3, removing key 5. -/
theorem rm_removes_first_match_witness :
    ∃ r, fdmap_list_rm (list_of_adds fdmap_list_type_t.FDMAP_LIST_TYPE_ORDERED
        [(5, "a"), (1, "b"), (3, "c")]) 5 = some r ∧ (r.1 = 0 ∨ r.1 = 1) :=
  by
    obtain ⟨r, h1, h2, _⟩ := (rm_removes_first_match
      (list_of_adds fdmap_list_type_t.FDMAP_LIST_TYPE_ORDERED [(5, "a"), (1, "b"), (3, "c")])
      5 (list_of_adds_WellFormed _ _).1).1
    exact ⟨r, h1, h2⟩

theorem tmod_nonneg_of {k n : Int} (hk : 0 ≤ k) (hn : 0 < n) : 0 ≤ Int.tmod k n := by
  rw [Int.tmod_eq_emod hk (le_of_lt hn)]
  exact Int.emod_nonneg _ (ne_of_gt hn)

theorem getElem?_set_same {bs : List (fdmap_list D)} {i : Nat} {bk b1 : fdmap_list D}
    (h : bs[i]? = some bk) : (bs.set i b1)[i]? = some b1 := by
  have hlt : i < bs.length := by
    by_contra hge
    rw [List.getElem?_eq_none (Nat.le_of_not_lt hge)] at h
    exact absurd h (by simp)
  simp [List.getElem?_set, hlt]

/-- The call `fdmap_add` seen from the bucket `i` of the key. -/
theorem fdmap_add_at {map : fdmap D} {n k : Int} {i : Nat} (hs : map.size = n) (hn : 0 < n)
    (hk : 0 ≤ k) (hi : (Int.tmod k n).toNat = i) (v : D)
    {bk : fdmap_list D} {cs : List (Nat × Int × D)}
    (hb : map.table[i]? = some bk) (hw : WF bk cs) :
    ∃ m1 b1, fdmap_add map k v = some m1 ∧ m1.size = n ∧
      m1.items = int_wrap (map.items + 1) ∧
      m1.table[i]? = some b1 ∧ WF b1 (cins bk.type (bk.brk, k, v) cs) ∧
      b1.type = bk.type := by
  obtain ⟨b1, e1, w1, t1, _⟩ := add_WF hw k v
  have h1 := tmod_nonneg_of hk hn
  refine ⟨{ map with table := map.table.set i b1, items := int_wrap (map.items + 1) }, b1, ?_,
    hs, rfl,
    getElem?_set_same hb, w1, t1⟩
  simp [fdmap_add, hk, fdmap_hash, hs, ne_of_gt hn, table_get, h1, hi, hb, e1]

/-- The call `fdmap_find` seen from the bucket `i` of the key. -/
theorem fdmap_find_at {map : fdmap D} {n k : Int} {i : Nat} (hs : map.size = n) (hn : 0 < n)
    (hk : 0 ≤ k) (hi : (Int.tmod k n).toNat = i) (d : D)
    {bk : fdmap_list D} {cs : List (Nat × Int × D)}
    (hb : map.table[i]? = some bk) (hw : WF bk cs) :
    fdmap_find map k d = some (find_result d (csplit bk.type k cs)) := by
  have h1 := tmod_nonneg_of hk hn
  simp [fdmap_find, hk, fdmap_hash, hs, ne_of_gt hn, table_get, h1, hi, hb, find_WF hw]

/-- The call `fdmap_rm` seen from the bucket `i` of the key, when the search selects a
cell. -/
theorem fdmap_rm_at {map : fdmap D} {n k : Int} {i : Nat} (hs : map.size = n) (hn : 0 < n)
    (hk : 0 ≤ k) (hi : (Int.tmod k n).toNat = i)
    {bk : fdmap_list D} {cs pre post : List (Nat × Int × D)} {c : Nat × Int × D}
    (hb : map.table[i]? = some bk) (hw : WF bk cs)
    (hc : csplit bk.type k cs = some (pre, c, post)) :
    ∃ m1 b1, fdmap_rm map k = some m1 ∧ m1.size = n ∧
      m1.items = int_wrap (map.items - 1) ∧
      m1.table[i]? = some b1 ∧ WF b1 (pre ++ post) ∧ b1.type = bk.type := by
  have hrm := rm_WF hw k
  rw [hc] at hrm
  obtain ⟨b1, e1, w1, t1, _⟩ := hrm
  have h1 := tmod_nonneg_of hk hn
  refine ⟨{ map with table := map.table.set i b1, items := int_wrap (map.items - 1) }, b1, ?_,
    hs, rfl,
    getElem?_set_same hb, w1, t1⟩
  simp [fdmap_rm, hk, fdmap_hash, hs, ne_of_gt hn, table_get, h1, hi, hb, e1]

/-- C10 (collision independence): for every bucket count `n > 0` and distinct keys
`a, b >= 0` with `a mod n = b mod n`, on a fresh table `fdmap_add(a, x)` then
`fdmap_add(b, y)` succeed and put both entries in the same bucket, which then has size 2;
`fdmap_find` returns `(1, x)` for `a` and `(1, y)` for `b`; after `fdmap_rm` of either key
the other key is still found with its own value, the removed key is not found (result 0,
output untouched) and `items` is 1. -/
theorem collision_independence (n a b : Int) (x y d : D) (hn : 0 < n) (ha : 0 ≤ a)
    (hb : 0 ≤ b) (hab : a ≠ b) (hmod : a % n = b % n) :
    ∃ m1 m2 ma mb bkt s,
      fdmap_add (fdmap_new n) a x = some m1 ∧ fdmap_add m1 b y = some m2 ∧
      fdmap_hash m2 a = some (a % n) ∧ fdmap_hash m2 b = some (a % n) ∧
      table_get m2 (a % n) = some bkt ∧
      fdmap_list_size bkt = 2 ∧ fdmap_list_seq bkt = some s ∧ (a, x) ∈ s ∧ (b, y) ∈ s ∧
      m2.items = 2 ∧
      fdmap_find m2 a d = some (1, x) ∧ fdmap_find m2 b d = some (1, y) ∧
      fdmap_rm m2 a = some ma ∧ fdmap_find ma b d = some (1, y) ∧
      fdmap_find ma a d = some (0, d) ∧ ma.items = 1 ∧
      fdmap_rm m2 b = some mb ∧ fdmap_find mb a d = some (1, x) ∧
      fdmap_find mb b d = some (0, d) ∧ mb.items = 1 := by
  have hta : Int.tmod a n = a % n := Int.tmod_eq_emod ha (le_of_lt hn)
  have htb : Int.tmod b n = a % n := (Int.tmod_eq_emod hb (le_of_lt hn)).trans hmod.symm
  have hia : (Int.tmod a n).toNat = (a % n).toNat := by rw [hta]
  have hib : (Int.tmod b n).toNat = (a % n).toNat := by rw [htb]
  have hs0 : (fdmap_new n : fdmap D).size = n := by simp [fdmap_new, hn]
  have hlt : (a % n).toNat < n.toNat := by
    have h1 : 0 ≤ a % n := Int.emod_nonneg _ (ne_of_gt hn)
    have h2 : a % n < n := Int.emod_lt_of_pos _ hn
    omega
  have hb0 : (fdmap_new n : fdmap D).table[(a % n).toNat]? =
      some (fdmap_list_new fdmap_list_type_t.FDMAP_LIST_TYPE_ORDERED) := by
    simp [fdmap_new, hn, List.getElem?_replicate, hlt]
  obtain ⟨m1, b1, e1, s1, i1, g1, w1, t1⟩ :=
    fdmap_add_at hs0 hn ha hia x hb0 (WF_new _)
  obtain ⟨m2, b2, e2, s2, i2, g2, w2, t2⟩ := fdmap_add_at s1 hn hb hib y g1 w1
  have t1o : b1.type = fdmap_list_type_t.FDMAP_LIST_TYPE_ORDERED := t1
  have t2o : b2.type = fdmap_list_type_t.FDMAP_LIST_TYPE_ORDERED := t2.trans t1o
  rw [t1o] at w2
  have hw1 : (fdmap_list_new fdmap_list_type_t.FDMAP_LIST_TYPE_ORDERED : fdmap_list D).type =
      fdmap_list_type_t.FDMAP_LIST_TYPE_ORDERED := rfl
  simp only [hw1, cins] at w1 w2
  have hbrk : (fdmap_list_new fdmap_list_type_t.FDMAP_LIST_TYPE_ORDERED : fdmap_list D).brk =
      0 := rfl
  rw [hbrk] at w1 w2
  have hba : b ≠ a := fun h => hab h.symm
  have hitems : m2.items = 2 := by
    rw [i2, i1]
    have h0 : (fdmap_new n : fdmap D).items = 0 := rfl
    rw [h0]
    decide
  have hh : ∀ k, fdmap_hash m2 k = some (Int.tmod k n) := by
    intro k; simp [fdmap_hash, s2, ne_of_gt hn]
  have hget : table_get m2 (a % n) = some b2 := by
    have h1 : 0 ≤ a % n := Int.emod_nonneg _ (ne_of_gt hn)
    simp [table_get, h1, g2]
  by_cases hlt2 : a < b
  · -- the bucket holds a then b
    have hnlt : ¬ b < a := not_lt.2 (le_of_lt hlt2)
    simp only [hlt2, if_true, List.cons_append, List.nil_append] at w2
    have fa := fdmap_find_at s2 hn ha hia d g2 w2
    have fb := fdmap_find_at s2 hn hb hib d g2 w2
    have ca : csplit b2.type a
        [(0, a, x), (b1.brk, b, y)] = some ([], (0, a, x), [(b1.brk, b, y)]) := by
      simp [csplit]
    have cb : csplit b2.type b
        [(0, a, x), (b1.brk, b, y)] = some ([(0, a, x)], (b1.brk, b, y), []) := by
      simp [csplit, hab, hnlt]
    obtain ⟨ma, ba, ea, sa, ia, ga, wa, ta⟩ := fdmap_rm_at s2 hn ha hia g2 w2 ca
    obtain ⟨mb, bb, eb, sb, ib, gb, wb, tb⟩ := fdmap_rm_at s2 hn hb hib g2 w2 cb
    have fab := fdmap_find_at sa hn hb hib d ga wa
    have faa := fdmap_find_at sa hn ha hia d ga wa
    have fba := fdmap_find_at sb hn ha hia d gb wb
    have fbb := fdmap_find_at sb hn hb hib d gb wb
    rw [ta, t2o] at fab faa
    rw [tb, t2o] at fba fbb
    refine ⟨m1, m2, ma, mb, b2, _, e1, e2, by rw [hh, hta], by rw [hh, htb], hget, ?_,
      seq_WF w2, by simp, by simp, hitems, ?_, ?_, ea, ?_, ?_, ?_, eb, ?_, ?_, ?_⟩
    · rw [fdmap_list_size, w2.size]; rfl
    · rw [fa, ca]; rfl
    · rw [fb, cb]; rfl
    · rw [fab]; simp [csplit, find_result]
    · rw [faa]; simp [csplit, find_result, hba, hlt2]
    · rw [ia, hitems]; decide
    · rw [fba]; simp [csplit, find_result]
    · rw [fbb]; simp [csplit, find_result, hab, hnlt]
    · rw [ib, hitems]; decide
  · -- the bucket holds b then a
    have hlt3 : b < a := lt_of_le_of_ne (not_lt.1 hlt2) hba
    have hnlt : ¬ a < b := hlt2
    simp only [hlt2, if_false] at w2
    have fa := fdmap_find_at s2 hn ha hia d g2 w2
    have fb := fdmap_find_at s2 hn hb hib d g2 w2
    have ca : csplit b2.type a
        [(b1.brk, b, y), (0, a, x)] = some ([(b1.brk, b, y)], (0, a, x), []) := by
      simp [csplit, hba, hnlt]
    have cb : csplit b2.type b
        [(b1.brk, b, y), (0, a, x)] = some ([], (b1.brk, b, y), [(0, a, x)]) := by
      simp [csplit]
    obtain ⟨ma, ba, ea, sa, ia, ga, wa, ta⟩ := fdmap_rm_at s2 hn ha hia g2 w2 ca
    obtain ⟨mb, bb, eb, sb, ib, gb, wb, tb⟩ := fdmap_rm_at s2 hn hb hib g2 w2 cb
    have fab := fdmap_find_at sa hn hb hib d ga wa
    have faa := fdmap_find_at sa hn ha hia d ga wa
    have fba := fdmap_find_at sb hn ha hia d gb wb
    have fbb := fdmap_find_at sb hn hb hib d gb wb
    rw [ta, t2o] at fab faa
    rw [tb, t2o] at fba fbb
    refine ⟨m1, m2, ma, mb, b2, _, e1, e2, by rw [hh, hta], by rw [hh, htb], hget, ?_,
      seq_WF w2, by simp, by simp, hitems, ?_, ?_, ea, ?_, ?_, ?_, eb, ?_, ?_, ?_⟩
    · rw [fdmap_list_size, w2.size]; rfl
    · rw [fa, ca]; rfl
    · rw [fb, cb]; rfl
    · rw [fab]; simp [csplit, find_result]
    · rw [faa]; simp [csplit, find_result, hba, hnlt]
    · rw [ia, hitems]; decide
    · rw [fba]; simp [csplit, find_result]
    · rw [fbb]; simp [csplit, find_result, hab, hlt3]
    · rw [ib, hitems]; decide

/-- Witness of C10 with four buckets and the keys 9 and 13, which both hash to bucket 1. -/
theorem collision_independence_witness :
    (9 : Int) % 4 = 13 % 4 ∧
    ∃ m1 m2 ma mb, fdmap_add (fdmap_new 4) 9 "x" = some m1 ∧ fdmap_add m1 13 "y" = some m2 ∧
      fdmap_hash m2 9 = some 1 ∧ fdmap_hash m2 13 = some 1 ∧
      fdmap_find m2 9 "" = some (1, "x") ∧ fdmap_find m2 13 "" = some (1, "y") ∧
      fdmap_rm m2 9 = some ma ∧ fdmap_find ma 13 "" = some (1, "y") ∧
      fdmap_find ma 9 "" = some (0, "") ∧ ma.items = 1 ∧
      fdmap_rm m2 13 = some mb ∧ fdmap_find mb 9 "" = some (1, "x") ∧
      fdmap_find mb 13 "" = some (0, "") ∧ mb.items = 1 := by
  refine ⟨by decide, ?_⟩
  obtain ⟨m1, m2, ma, mb, _, _, h1, h2, h3, h4, _, _, _, _, _, _, h5, h6, h7, h8, h9, h10,
    h11, h12, h13, h14⟩ :=
    collision_independence 4 9 13 "x" "y" "" (by decide) (by decide) (by decide) (by decide)
      (by decide)
  exact ⟨m1, m2, ma, mb, h1, h2, h3, h4, h5, h6, h7, h8, h9, h10, h11, h12, h13, h14⟩

/-- C11: for every integer `initial_size` the table `fdmap_new initial_size` has
`initial_size` buckets when `initial_size > 0` and `FDMAP_DEFAULT_SIZE = 10` buckets
otherwise (so `fdmap_new 0` and `fdmap_new (-3)` have 10 buckets), its `items` counter is 0,
every bucket is an empty list of type `ORDERED`, and `fdmap_find` on it reports not-found,
leaving the output untouched, for every key `k >= 0`. -/
theorem fdmap_new_buckets (initial_size k : Int) (d : D) (hk : 0 ≤ k) :
    (fdmap_new initial_size : fdmap D).size =
      (if initial_size > 0 then initial_size else FDMAP_DEFAULT_SIZE) ∧
    FDMAP_DEFAULT_SIZE = 10 ∧
    (((fdmap_new initial_size : fdmap D).table.length : Nat) : Int) =
      (fdmap_new initial_size : fdmap D).size ∧
    (fdmap_new 0 : fdmap D).table.length = 10 ∧
    (fdmap_new (-3) : fdmap D).table.length = 10 ∧
    (fdmap_new initial_size : fdmap D).items = 0 ∧
    (∀ b ∈ (fdmap_new initial_size : fdmap D).table,
      b.type = fdmap_list_type_t.FDMAP_LIST_TYPE_ORDERED ∧ fdmap_list_size b = 0 ∧
      b.head = none ∧ b.tail = none ∧ fdmap_list_seq b = some []) ∧
    fdmap_find (fdmap_new initial_size) k d = some (0, d) := by
  have inv : TableInv (fdmap_new initial_size : fdmap D) := TableInv_new initial_size
  refine ⟨rfl, rfl, ?_, rfl, rfl, rfl, ?_, ?_⟩
  · rw [inv.len]
    exact Int.toNat_of_nonneg (le_of_lt inv.size_pos)
  · intro b hb
    simp only [fdmap_new] at hb
    rw [List.eq_of_mem_replicate hb]
    exact ⟨rfl, rfl, rfl, rfl, rfl⟩
  · have hlt := bucket_of_lt inv.size_pos inv.len hk
    have hmem : (fdmap_new initial_size : fdmap D).table.get
        ⟨bucket_of (fdmap_new initial_size) k, hlt⟩ ∈
        (fdmap_new initial_size : fdmap D).table := List.get_mem _ _ _
    rw [fdmap_find_eq inv.size_pos inv.len hk]
    simp only [fdmap_new] at hmem
    have hb := List.eq_of_mem_replicate hmem
    simp only [fdmap_new]
    rw [hb, find_WF (WF_new _)]
    rfl

/-- Witness of C11 with the requested size -3 and the key 7. -/
theorem fdmap_new_buckets_witness :
    (fdmap_new (-3) : fdmap String).size = 10 ∧
    (fdmap_new (-3) : fdmap String).items = 0 ∧
    fdmap_find (fdmap_new (-3)) 7 "" = some (0, "") :=
  by
    obtain ⟨h1, _, _, _, _, h2, _, h3⟩ := fdmap_new_buckets (-3) 7 "" (by decide)
    exact ⟨h1, h2, h3⟩

/-- C12: on every table reached from `fdmap_new n` by calls with non-negative keys (the
fresh table included) the bucket count is positive and equals the length of the bucket
array, and for every key `fd >= 0` the hash `fdmap_hash(map, fd)` is computed without a
division by zero, equals `fd mod size` and lies in `0 .. size - 1`, so that the bucket
lookup `map->table[fdmap_hash(map, fd)]` of `fdmap_add`, `fdmap_rm` and `fdmap_find` is
within the array and the three calls return. -/
theorem fdmap_hash_in_range (n : Int) (ops : List (fdmap_op D)) (fd : Int) (v d : D)
    (hops : ∀ op ∈ ops, 0 ≤ op.key) (hfd : 0 ≤ fd) :
    ∃ map, fdmap_run (fdmap_new n) ops = some map ∧
      0 < map.size ∧ ((map.table.length : Nat) : Int) = map.size ∧
      fdmap_hash map fd = some (fd % map.size) ∧
      0 ≤ fd % map.size ∧ fd % map.size < map.size ∧
      (∃ b, table_get map (fd % map.size) = some b) ∧
      (∃ m1, fdmap_add map fd v = some m1) ∧
      (∃ m1, fdmap_rm map fd = some m1) ∧
      (∃ r, fdmap_find map fd d = some r) := by
  obtain ⟨map, e, inv, _⟩ := fdmap_run_inv (TableInv_new n) ops hops
  have hpos := inv.size_pos
  have h1 : 0 ≤ fd % map.size := Int.emod_nonneg _ (ne_of_gt hpos)
  have h2 : fd % map.size < map.size := Int.emod_lt_of_pos _ hpos
  have hlen : ((map.table.length : Nat) : Int) = map.size := by
    rw [inv.len]; exact Int.toNat_of_nonneg (le_of_lt hpos)
  have hlt : (fd % map.size).toNat < map.table.length := by omega
  have hmem : map.table.get ⟨bucket_of map fd, bucket_of_lt hpos inv.len hfd⟩ ∈ map.table :=
    List.get_mem _ _ _
  refine ⟨map, e, hpos, hlen, ?_, h1, h2, ?_, ?_, ?_, ?_⟩
  · simp [fdmap_hash, ne_of_gt hpos, Int.tmod_eq_emod hfd (le_of_lt hpos)]
  · exact ⟨map.table.get ⟨_, hlt⟩, by simp [table_get, h1, List.getElem?_eq_getElem hlt]⟩
  · obtain ⟨m1, e1, _⟩ := fdmap_add_inv inv hfd v
    exact ⟨m1, e1⟩
  · obtain ⟨m1, _, e1, _⟩ := fdmap_rm_inv inv hfd
    exact ⟨m1, e1⟩
  · obtain ⟨cs, hcs⟩ := inv.wf _ hmem
    exact ⟨_, (fdmap_find_eq hpos inv.len hfd d).trans (find_WF hcs fd d)⟩

/-- Witness of C12 on the table with four buckets after add 9, add 13, rm 9, key 13. -/
theorem fdmap_hash_in_range_witness :
    ∃ map, fdmap_run (fdmap_new 4)
        [fdmap_op.add 9 "x", fdmap_op.add 13 "y", fdmap_op.rm 9] = some map ∧
      fdmap_hash map 13 = some (13 % map.size) ∧ 0 ≤ 13 % map.size ∧
      13 % map.size < map.size :=
  by
    obtain ⟨map, e, _, _, h1, h2, h3, _⟩ := fdmap_hash_in_range 4
      [fdmap_op.add 9 "x", fdmap_op.add 13 "y", fdmap_op.rm 9] 13 "v" "" (by decide)
      (by decide)
    exact ⟨map, e, h1, h2, h3⟩

theorem find_fifo_out {m : Nat → Option (fdmap_node D)} {k : Int} {d : D} :
    ∀ (fuel : Nat) (p : Option Nat) (r : Int × D), find_fifo m k d fuel p = some r →
      r = (0, d) ∨ (r.1 = 1 ∧ ∃ q n, m q = some n ∧ n.fd = k ∧ r.2 = n.data) := by
  intro fuel
  induction fuel with
  | zero => intro p r h; simp [find_fifo] at h
  | succ f ih =>
    intro p r h
    cases p with
    | none =>
      simp only [find_fifo, Option.some.injEq] at h
      exact Or.inl h.symm
    | some q =>
      simp only [find_fifo] at h
      cases hq : m q with
      | none => simp [hq] at h
      | some n =>
        simp only [hq] at h
        by_cases hk : n.fd = k
        · simp only [hk, if_true, Option.some.injEq] at h
          subst h
          exact Or.inr ⟨rfl, q, n, hq, hk, rfl⟩
        · simp only [hk, if_false] at h
          exact ih _ _ h

theorem find_ordered_out {m : Nat → Option (fdmap_node D)} {k : Int} {d : D} :
    ∀ (fuel : Nat) (p : Option Nat) (r : Int × D), find_ordered m k d fuel p = some r →
      r = (0, d) ∨ (r.1 = 1 ∧ ∃ q n, m q = some n ∧ n.fd = k ∧ r.2 = n.data) := by
  intro fuel
  induction fuel with
  | zero => intro p r h; simp [find_ordered] at h
  | succ f ih =>
    intro p r h
    cases p with
    | none =>
      simp only [find_ordered, Option.some.injEq] at h
      exact Or.inl h.symm
    | some q =>
      simp only [find_ordered] at h
      cases hq : m q with
      | none => simp [hq] at h
      | some n =>
        simp only [hq] at h
        by_cases hk : n.fd = k
        · simp only [hk, if_true, Option.some.injEq] at h
          subst h
          exact Or.inr ⟨rfl, q, n, hq, hk, rfl⟩
        · simp only [hk, if_false] at h
          by_cases hg : n.fd > k
          · simp only [hg, if_true, Option.some.injEq] at h
            exact Or.inl h.symm
          · simp only [hg, if_false] at h
            exact ih _ _ h

theorem fdmap_list_find_out {l : fdmap_list D} {k : Int} {d : D} {r : Int × D}
    (h : fdmap_list_find l k d = some r) :
    r = (0, d) ∨ (r.1 = 1 ∧ ∃ q n, l.mem q = some n ∧ n.fd = k ∧ r.2 = n.data) := by
  unfold fdmap_list_find at h
  cases ht : l.type
  · rw [ht] at h; exact find_fifo_out _ _ _ h
  · rw [ht] at h; exact find_ordered_out _ _ _ h

theorem fdmap_find_out {map : fdmap D} {k : Int} {d : D} {r : Int × D}
    (h : fdmap_find map k d = some r) :
    r = (0, d) ∨ (r.1 = 1 ∧ ∃ b ∈ map.table, ∃ q n, b.mem q = some n ∧ n.fd = k ∧
      r.2 = n.data) := by
  unfold fdmap_find at h
  split at h
  · cases hh : fdmap_hash map k with
    | none => simp [hh] at h
    | some i =>
      cases hg : table_get map i with
      | none => simp [hh, hg] at h
      | some b =>
        simp only [hh, hg, Option.some_bind] at h
        have hb : b ∈ map.table := by
          unfold table_get at hg
          split at hg
          · exact List.getElem?_mem hg
          · exact absurd hg (by simp)
        rcases fdmap_list_find_out h with h0 | ⟨h1, q, n, hq, hk, hd⟩
        · exact Or.inl h0
        · exact Or.inr ⟨h1, b, hb, q, n, hq, hk, hd⟩
  · exact absurd h (by simp)

/-- C13: `fdmap_list_find` on a well-formed list of either type and `fdmap_find` on a table
satisfying the table invariant (key `k2 >= 0`) return, with result 0 or 1; on every list and
every table whatsoever, whenever the lookup returns 0 the output location holds the value
`d` it held before, and it is written only on result 1, with the data of a node keyed as
asked. The lookups take the list and the table as values and give none back: the source
makes no assignment through `map`, `list` or a node, so the table, `items` and all lists
are as before. -/
theorem find_writes_only_when_found (l : fdmap_list D) (map : fdmap D) (k k2 : Int) (d : D)
    (hl : WellFormed l) (hm : TableInv map) (hk : 0 ≤ k2) :
    (∃ r, fdmap_list_find l k d = some r ∧ (r.1 = 0 ∨ r.1 = 1)) ∧
    (∃ r, fdmap_find map k2 d = some r ∧ (r.1 = 0 ∨ r.1 = 1)) ∧
    (∀ (l1 : fdmap_list D) (j : Int) (r : Int × D), fdmap_list_find l1 j d = some r →
      (r.1 = 0 ∧ r.2 = d) ∨
        (r.1 = 1 ∧ ∃ q n, l1.mem q = some n ∧ n.fd = j ∧ r.2 = n.data)) ∧
    (∀ (m1 : fdmap D) (j : Int) (r : Int × D), fdmap_find m1 j d = some r →
      (r.1 = 0 ∧ r.2 = d) ∨
        (r.1 = 1 ∧ ∃ b ∈ m1.table, ∃ q n, b.mem q = some n ∧ n.fd = j ∧ r.2 = n.data)) := by
  have hl1 : ∀ (l1 : fdmap_list D) (j : Int) (r : Int × D), fdmap_list_find l1 j d = some r →
      (r.1 = 0 ∧ r.2 = d) ∨
        (r.1 = 1 ∧ ∃ q n, l1.mem q = some n ∧ n.fd = j ∧ r.2 = n.data) := by
    intro l1 j r h
    rcases fdmap_list_find_out h with h0 | h1
    · rw [h0]; exact Or.inl ⟨rfl, rfl⟩
    · exact Or.inr h1
  have hm1 : ∀ (m1 : fdmap D) (j : Int) (r : Int × D), fdmap_find m1 j d = some r →
      (r.1 = 0 ∧ r.2 = d) ∨
        (r.1 = 1 ∧ ∃ b ∈ m1.table, ∃ q n, b.mem q = some n ∧ n.fd = j ∧ r.2 = n.data) := by
    intro m1 j r h
    rcases fdmap_find_out h with h0 | h1
    · rw [h0]; exact Or.inl ⟨rfl, rfl⟩
    · exact Or.inr h1
  refine ⟨?_, ?_, hl1, hm1⟩
  · obtain ⟨cs, hcs⟩ := hl
    refine ⟨_, find_WF hcs k d, ?_⟩
    rcases hl1 l k _ (find_WF hcs k d) with h | h
    · exact Or.inl h.1
    · exact Or.inr h.1
  · have hlt := bucket_of_lt hm.size_pos hm.len hk
    have hmem : map.table.get ⟨bucket_of map k2, hlt⟩ ∈ map.table := List.get_mem _ _ _
    obtain ⟨cs, hcs⟩ := hm.wf _ hmem
    have e := (fdmap_find_eq hm.size_pos hm.len hk d).trans (find_WF hcs k2 d)
    refine ⟨_, e, ?_⟩
    rcases hm1 map k2 _ e with h | h
    · exact Or.inl h.1
    · exact Or.inr h.1

/-- Witness of C13: the `ORDERED` list holding the keys 1, 5, 3 looked up for key 3, which
the early exit misses, and the table with four buckets holding 9 and 13 looked up for 5. -/
theorem find_writes_only_when_found_witness :
    (∃ r, fdmap_list_find (list_of_adds fdmap_list_type_t.FDMAP_LIST_TYPE_ORDERED
        [(5, "a"), (1, "b"), (3, "c")]) 3 "old" = some r ∧ (r.1 = 0 ∨ r.1 = 1)) ∧
    (∃ r, fdmap_find (table_of_ops 4 [fdmap_op.add 9 "x", fdmap_op.add 13 "y"]) 5 "old" =
      some r ∧ (r.1 = 0 ∨ r.1 = 1)) :=
  by
    obtain ⟨h1, h2, _⟩ := find_writes_only_when_found
      (list_of_adds fdmap_list_type_t.FDMAP_LIST_TYPE_ORDERED [(5, "a"), (1, "b"), (3, "c")])
      (table_of_ops 4 [fdmap_op.add 9 "x", fdmap_op.add 13 "y"]) 3 5 "old"
      (list_of_adds_WellFormed _ _).1 (table_of_ops_inv 4 _ (by decide)) (by decide)
    exact ⟨h1, h2⟩

theorem csplit_fifo_lookup (k : Int) (d : D) (cs : List (Nat × Int × D)) :
    find_result d (csplit fdmap_list_type_t.FDMAP_LIST_TYPE_FIFO k cs) =
      seq_lookup k d (cs.map Prod.snd) := by
  induction cs with
  | nil => rfl
  | cons c rest ih =>
    by_cases hk : c.2.1 = k
    · simp [csplit, seq_lookup, hk, find_result]
    · rw [List.map_cons, seq_lookup, if_neg hk, ← ih]
      cases hc : csplit fdmap_list_type_t.FDMAP_LIST_TYPE_FIFO k rest <;>
        simp [csplit, hk, hc, find_result]

theorem csplit_sorted {k : Int} {cs : List (Nat × Int × D)}
    (h : (cs.map fun c => c.2.1).Pairwise (fun a b => a ≤ b)) :
    csplit fdmap_list_type_t.FDMAP_LIST_TYPE_ORDERED k cs =
      csplit fdmap_list_type_t.FDMAP_LIST_TYPE_FIFO k cs := by
  induction cs with
  | nil => rfl
  | cons c rest ih =>
    rw [List.map_cons, List.pairwise_cons] at h
    by_cases hk : c.2.1 = k
    · simp [csplit, hk]
    · by_cases hg : k < c.2.1
      · have habs : ∀ x ∈ rest, x.2.1 ≠ k := by
          intro x hx he
          have hle : c.2.1 ≤ x.2.1 := h.1 _ (List.mem_map.2 ⟨x, hx, rfl⟩)
          omega
        simp [csplit, hk, hg, csplit_none_of_absent habs]
      · simp [csplit, hk, hg, ih h.2]

theorem free_mem_none {l l2 : fdmap_list D} {p : Nat}
    (h : fdmap_node_free l (some p) = some l2) : l2.mem p = none := by
  unfold fdmap_node_free at h
  cases hp : l.mem p with
  | none => simp [hp] at h
  | some n =>
    simp only [hp, Option.some.injEq] at h
    subst h
    simp [store_free]

/-- C14: on a well-formed list of either type, sorted or not, `fdmap_list_rm(list, k)`,
`fdmap_list_find(list, k, &d)` and the scan `fdmap_list_fd_find(list, k)` all return; rm
returns 1 exactly when find returns 1, exactly when the scan returns a node; and then the
node the scan returns, which rm unlinks and frees, is keyed `k` and carries the value find
reported, and the sequence loses exactly that entry, the first entry keyed `k`. -/
theorem rm_uses_search_of_find (l : fdmap_list D) (k : Int) (d : D) (hw : WellFormed l) :
    ∃ r f p, fdmap_list_rm l k = some r ∧ fdmap_list_find l k d = some f ∧
      fdmap_list_fd_find l k = some p ∧
      (r.1 = 0 ∨ r.1 = 1) ∧ (f.1 = 0 ∨ f.1 = 1) ∧
      (r.1 = 1 ↔ f.1 = 1) ∧ (p ≠ none ↔ f.1 = 1) ∧
      (∀ q, p = some q →
        (∃ n, l.mem q = some n ∧ n.fd = k ∧ n.data = f.2) ∧ r.2.mem q = none ∧
        ∃ pre post, fdmap_list_seq l = some (pre ++ (k, f.2) :: post) ∧
          (∀ x ∈ pre, x.1 ≠ k) ∧ fdmap_list_seq r.2 = some (pre ++ post)) := by
  obtain ⟨cs, hcs⟩ := hw
  have hrm := rm_WF hcs k
  have hfd := fd_find_WF hcs k
  have hfind := find_WF hcs k d
  cases hs : csplit l.type k cs with
  | none =>
    rw [hs] at hrm hfd hfind
    refine ⟨(0, l), (0, d), none, hrm, hfind, hfd, Or.inl rfl, Or.inl rfl, ?_, ?_, ?_⟩
    · simp
    · simp
    · intro q hq; exact absurd hq (by simp)
  | some x =>
    obtain ⟨pre, c, post⟩ := x
    rw [hs] at hrm hfd hfind
    obtain ⟨l1, e1, w1, _, _⟩ := hrm
    obtain ⟨hsplit, hck, hpre⟩ := csplit_spec hs
    refine ⟨(1, l1), (1, c.2.2), some c.1, e1, hfind, hfd, Or.inr rfl, Or.inr rfl, ?_, ?_, ?_⟩
    · simp
    · simp
    · intro q hq
      have hqc : c.1 = q := Option.some.inj hq
      subst hqc
      have hcell : l.mem c.1 = some ⟨c.2.1, c.2.2, last_addr none pre, first post none⟩ := by
        have hseg := hcs.seg
        rw [hsplit] at hseg
        exact Seg_cell hseg
      refine ⟨⟨_, hcell, hck, rfl⟩, ?_, pre.map Prod.snd, post.map Prod.snd, ?_, ?_, ?_⟩
      · -- the node is freed by rm
        have e2 := e1
        simp only [fdmap_list_rm, hfd, Option.some_bind, Option.map_some'] at e2
        cases hu : fdmap_list_unlink l (some c.1) with
        | none => simp [hu] at e2
        | some lu =>
          simp only [hu, Option.some_bind] at e2
          cases hf : fdmap_node_free lu (some c.1) with
          | none => simp [hf] at e2
          | some lf =>
            simp only [hf, Option.some_bind, Option.some.injEq, Prod.mk.injEq, true_and] at e2
            subst e2
            exact free_mem_none hf
      · rw [seq_WF hcs, hsplit]
        have : c.2 = (k, c.2.2) := by rw [← hck]
        simp [← this]
      · intro y hy
        obtain ⟨z, hz, rfl⟩ := List.mem_map.1 hy
        exact hpre z hz
      · rw [seq_WF w1]; simp

/-- Witness of C14 on the `ORDERED` list holding the keys 1, 5, 3 and key 5. -/
theorem rm_uses_search_of_find_witness :
    ∃ r f p, fdmap_list_rm (list_of_adds fdmap_list_type_t.FDMAP_LIST_TYPE_ORDERED
        [(5, "a"), (1, "b"), (3, "c")]) 5 = some r ∧
      fdmap_list_find (list_of_adds fdmap_list_type_t.FDMAP_LIST_TYPE_ORDERED
        [(5, "a"), (1, "b"), (3, "c")]) 5 "" = some f ∧
      fdmap_list_fd_find (list_of_adds fdmap_list_type_t.FDMAP_LIST_TYPE_ORDERED
        [(5, "a"), (1, "b"), (3, "c")]) 5 = some p ∧ (r.1 = 1 ↔ f.1 = 1) :=
  by
    obtain ⟨r, f, p, h1, h2, h3, _, _, h4, _⟩ := rm_uses_search_of_find
      (list_of_adds fdmap_list_type_t.FDMAP_LIST_TYPE_ORDERED [(5, "a"), (1, "b"), (3, "c")])
      5 "" (list_of_adds_WellFormed _ _).1
    exact ⟨r, f, p, h1, h2, h3, h4⟩

theorem WF_retype {l : fdmap_list D} {cs : List (Nat × Int × D)} (h : WF l cs)
    (t : fdmap_list_type_t) : WF { l with type := t } cs :=
  ⟨h.seg, h.nodup, h.lt, h.head, h.tail, h.size⟩

theorem seq_lookup_found {k : Int} {d : D} {pre post : List (Int × D)} {e : Int × D}
    (he : e.1 = k) (hpre : ∀ x ∈ pre, x.1 ≠ k) :
    seq_lookup k d (pre ++ e :: post) = (1, e.2) := by
  induction pre with
  | nil => simp [seq_lookup, he]
  | cons a rest ih =>
    have ha : a.1 ≠ k := hpre a (List.mem_cons_self _ _)
    rw [List.cons_append, seq_lookup, if_neg ha]
    exact ih (fun x hx => hpre x (List.mem_cons_of_mem _ hx))

theorem seq_lookup_absent {k : Int} {d : D} {s : List (Int × D)} (h : ∀ x ∈ s, x.1 ≠ k) :
    seq_lookup k d s = (0, d) := by
  induction s with
  | nil => rfl
  | cons a rest ih =>
    have ha : a.1 ≠ k := h a (List.mem_cons_self _ _)
    rw [seq_lookup, if_neg ha]
    exact ih (fun x hx => h x (List.mem_cons_of_mem _ hx))

theorem seq_lookup_cases (k : Int) (d : D) (s : List (Int × D)) :
    (seq_lookup k d s = (0, d) ∧ ∀ x ∈ s, x.1 ≠ k) ∨
      ∃ pre e post, s = pre ++ e :: post ∧ e.1 = k ∧ (∀ x ∈ pre, x.1 ≠ k) ∧
        seq_lookup k d s = (1, e.2) := by
  induction s with
  | nil => exact Or.inl ⟨rfl, by simp⟩
  | cons a rest ih =>
    by_cases ha : a.1 = k
    · exact Or.inr ⟨[], a, rest, rfl, ha, by simp, by simp [seq_lookup, ha]⟩
    · rcases ih with ⟨h0, habs⟩ | ⟨pre, e, post, hs, he, hpre, h1⟩
      · refine Or.inl ⟨by rw [seq_lookup, if_neg ha]; exact h0, ?_⟩
        intro x hx
        rcases List.mem_cons.1 hx with hx | hx
        · rw [hx]; exact ha
        · exact habs x hx
      · refine Or.inr ⟨a :: pre, e, post, by rw [hs]; rfl, he, ?_, ?_⟩
        · intro x hx
          rcases List.mem_cons.1 hx with hx | hx
          · rw [hx]; exact ha
          · exact hpre x hx
        · rw [seq_lookup, if_neg ha]; exact h1

theorem seq_lookup_one_iff (k : Int) (d : D) (s : List (Int × D)) :
    (seq_lookup k d s).1 = 1 ↔ ∃ e ∈ s, e.1 = k := by
  rcases seq_lookup_cases k d s with ⟨h0, habs⟩ | ⟨pre, e, post, hs, he, _, h1⟩
  · rw [h0]
    constructor
    · intro h; simp at h
    · rintro ⟨e, he, hk⟩; exact absurd hk (habs e he)
  · rw [h1]
    exact ⟨fun _ => ⟨e, by rw [hs]; simp, he⟩, fun _ => rfl⟩

/-- C15: on a well-formed chain whose keys are non-decreasing from head to tail, for every
key `k` the `ORDERED` scan of `fdmap_list_find`, with its early exit, returns the same result
and output as the `FIFO` full scan over the same nodes: found exactly when some node carries
`k`, with the value of the first such node, and otherwise 0 with the output untouched. -/
theorem ordered_find_sound_on_sorted (l : fdmap_list D) (k : Int) (d : D)
    (hw : WellFormed l) (hs : (fdmap_list_keys l).Pairwise (fun a b => a ≤ b)) :
    ∃ s, fdmap_list_seq l = some s ∧
      find_ordered l.mem k d (l.brk + 1) l.head = find_fifo l.mem k d (l.brk + 1) l.head ∧
      fdmap_list_find { l with type := fdmap_list_type_t.FDMAP_LIST_TYPE_ORDERED } k d =
        fdmap_list_find { l with type := fdmap_list_type_t.FDMAP_LIST_TYPE_FIFO } k d ∧
      fdmap_list_find { l with type := fdmap_list_type_t.FDMAP_LIST_TYPE_ORDERED } k d =
        some (seq_lookup k d s) ∧
      ((seq_lookup k d s).1 = 1 ↔ ∃ e ∈ s, e.1 = k) ∧
      (∀ pre e post, s = pre ++ e :: post → e.1 = k → (∀ x ∈ pre, x.1 ≠ k) →
        seq_lookup k d s = (1, e.2)) ∧
      ((∀ e ∈ s, e.1 ≠ k) → seq_lookup k d s = (0, d)) := by
  obtain ⟨cs, hcs⟩ := hw
  rw [keys_WF hcs] at hs
  have hO := find_WF (WF_retype hcs fdmap_list_type_t.FDMAP_LIST_TYPE_ORDERED) k d
  have hF := find_WF (WF_retype hcs fdmap_list_type_t.FDMAP_LIST_TYPE_FIFO) k d
  simp only [csplit_sorted hs] at hO
  rw [csplit_fifo_lookup] at hO hF
  refine ⟨cs.map Prod.snd, seq_WF hcs, ?_, hO.trans hF.symm, hO, seq_lookup_one_iff k d _, ?_,
    fun h => seq_lookup_absent h⟩
  · have hO2 : find_ordered l.mem k d (l.brk + 1) l.head = _ := hO
    have hF2 : find_fifo l.mem k d (l.brk + 1) l.head = _ := hF
    rw [hO2, hF2]
  · intro pre e post hsplit he hpre
    rw [hsplit]
    exact seq_lookup_found he hpre

/-- Witness of C15 on the chain holding the keys 1, 3, 5 and key 4, where the early exit
fires at key 5. -/
theorem ordered_find_sound_on_sorted_witness :
    fdmap_list_find { list_of_adds fdmap_list_type_t.FDMAP_LIST_TYPE_ORDERED
        [(1, "a"), (3, "b"), (5, "c")] with
        type := fdmap_list_type_t.FDMAP_LIST_TYPE_ORDERED } 4 "" =
      fdmap_list_find { list_of_adds fdmap_list_type_t.FDMAP_LIST_TYPE_ORDERED
        [(1, "a"), (3, "b"), (5, "c")] with
        type := fdmap_list_type_t.FDMAP_LIST_TYPE_FIFO } 4 "" :=
  by
    obtain ⟨s, _, _, h, _⟩ := ordered_find_sound_on_sorted
      (list_of_adds fdmap_list_type_t.FDMAP_LIST_TYPE_ORDERED [(1, "a"), (3, "b"), (5, "c")])
      4 "" (list_of_adds_WellFormed _ _).1 (by decide)
    exact h

/-- C17: on a well-formed `ORDERED` list the insertion scan of `fdmap_list_add` ends after at
most one comparison, the second test meeting the `NULL` forward pointer of the new node (two
units of fuel suffice, more change nothing): the scan returns the head when the list is
non-empty and the head key is not below `k`, and `NULL` otherwise. Accordingly the call
succeeds and the new node becomes the head when the list is empty or its head key is
`>= k`, and is appended at the tail otherwise, whatever the keys of the other nodes. -/
theorem ordered_add_head_or_tail (l : fdmap_list D) (k : Int) (v : D) (hw : WellFormed l)
    (ht : l.type = fdmap_list_type_t.FDMAP_LIST_TYPE_ORDERED) :
    ∃ s l1, fdmap_list_seq l = some s ∧ fdmap_list_add l k v = some l1 ∧
      (fdmap_node_new l k v none none).2.mem (fdmap_node_new l k v none none).1 =
        some ⟨k, v, none, none⟩ ∧
      add_scan (fdmap_node_new l k v none none).2.mem (fdmap_node_new l k v none none).1 k 2
          l.head =
        some (match s with
          | [] => none
          | h :: _ => if h.1 < k then none else l.head) ∧
      (∀ fuel, 2 ≤ fuel →
        add_scan (fdmap_node_new l k v none none).2.mem (fdmap_node_new l k v none none).1 k
            fuel l.head =
          add_scan (fdmap_node_new l k v none none).2.mem (fdmap_node_new l k v none none).1 k
            2 l.head) ∧
      fdmap_list_seq l1 = some (match s with
        | [] => [(k, v)]
        | h :: rest => if h.1 < k then h :: rest ++ [(k, v)] else (k, v) :: h :: rest) ∧
      (match s with
        | [] => l1.head = some l.brk ∧ l1.tail = some l.brk
        | h :: _ => if h.1 < k then l1.head = l.head ∧ l1.tail = some l.brk
            else l1.head = some l.brk ∧ l1.tail = l.tail) := by
  obtain ⟨cs, hcs⟩ := hw
  obtain ⟨l1, e1, w1, _, _⟩ := add_WF hcs k v
  rw [ht] at w1
  have hm : (fdmap_node_new l k v none none).2.mem (fdmap_node_new l k v none none).1 =
      some ⟨k, v, none, none⟩ := by
    simp [fdmap_node_new, store_write]
  refine ⟨cs.map Prod.snd, l1, seq_WF hcs, e1, hm, ?_⟩
  cases cs with
  | nil =>
    have hh : l.head = none := hcs.head
    simp only [cins] at w1
    refine ⟨by simp [hh, add_scan], ?_, by rw [seq_WF w1]; rfl, w1.head, w1.tail⟩
    intro fuel hf
    obtain ⟨f, rfl⟩ : ∃ f, fuel = f + 2 := ⟨fuel - 2, by omega⟩
    simp [hh, add_scan]
  | cons c rest =>
    have hh : l.head = some c.1 := hcs.head
    have hne : c.1 ≠ l.brk := Nat.ne_of_lt (hcs.lt c (List.mem_cons_self _ _))
    have hc : (fdmap_node_new l k v none none).2.mem c.1 =
        some ⟨c.2.1, c.2.2, none, first rest none⟩ := by
      have := hcs.seg.1
      simp [fdmap_node_new, store_write, hne, this]
    simp only [cins] at w1
    by_cases hlt : c.2.1 < k
    · simp only [hlt, if_true] at w1
      refine ⟨?_, ?_, ?_, ?_⟩
      · simp [hh, add_scan, hc, hm, hlt]
      · intro fuel hf
        obtain ⟨f, rfl⟩ : ∃ f, fuel = f + 2 := ⟨fuel - 2, by omega⟩
        simp [hh, add_scan, hc, hm, hlt]
      · rw [seq_WF w1]; simp [hlt]
      · simp only [List.map_cons, hlt, if_true]
        refine ⟨w1.head.trans hh.symm, ?_⟩
        rw [w1.tail, last_addr_append]; rfl
    · simp only [hlt, if_false] at w1
      refine ⟨?_, ?_, ?_, ?_⟩
      · simp [hh, add_scan, hc, hlt]
      · intro fuel hf
        obtain ⟨f, rfl⟩ : ∃ f, fuel = f + 2 := ⟨fuel - 2, by omega⟩
        simp [hh, add_scan, hc, hlt]
      · rw [seq_WF w1]; simp [hlt]
      · simp only [List.map_cons, hlt, if_false]
        exact ⟨w1.head, w1.tail.trans hcs.tail.symm⟩

/-- Witness of C17 on the `ORDERED` list holding the keys 1, 5 and the new key 3, which is
appended at the tail. -/
theorem ordered_add_head_or_tail_witness :
    ∃ l1, fdmap_list_add (list_of_adds fdmap_list_type_t.FDMAP_LIST_TYPE_ORDERED
        [(1, "a"), (5, "b")]) 3 "c" = some l1 ∧
      fdmap_list_seq l1 = some [(1, "a"), (5, "b"), (3, "c")] :=
  by
    obtain ⟨s, l1, h1, h2, _, _, _, h3, _⟩ := ordered_add_head_or_tail
      (list_of_adds fdmap_list_type_t.FDMAP_LIST_TYPE_ORDERED [(1, "a"), (5, "b")]) 3 "c"
      (list_of_adds_WellFormed _ _).1 (list_of_adds_WellFormed _ _).2
    have hs : fdmap_list_seq (list_of_adds fdmap_list_type_t.FDMAP_LIST_TYPE_ORDERED
        [(1, "a"), (5, "b")]) = some [(1, "a"), (5, "b")] := by decide
    rw [hs] at h1
    have hs2 : s = [(1, "a"), (5, "b")] := (Option.some.inj h1).symm
    subst hs2
    exact ⟨l1, h2, h3⟩

theorem find_result_map (d : D) (a : Nat × Int × D)
    (o : Option (List (Nat × Int × D) × (Nat × Int × D) × List (Nat × Int × D))) :
    find_result d (o.map fun r => (a :: r.1, r.2.1, r.2.2)) = find_result d o := by
  cases o <;> rfl

theorem csplit_snoc_ne (t : fdmap_list_type_t) {k1 : Int} (d : D) {c : Nat × Int × D}
    (hc : c.2.1 ≠ k1) (cs : List (Nat × Int × D)) :
    find_result d (csplit t k1 (cs ++ [c])) = find_result d (csplit t k1 cs) := by
  induction cs with
  | nil =>
    simp only [List.nil_append, csplit, hc, if_false]
    split <;> rfl
  | cons a rest ih =>
    simp only [List.cons_append, csplit]
    by_cases ha : a.2.1 = k1
    · simp [ha, find_result]
    · simp only [ha, if_false]
      split
      · rfl
      · rw [find_result_map, find_result_map]
        exact ih

theorem csplit_cins_ne (t : fdmap_list_type_t) {k1 : Int} (d : D) {c : Nat × Int × D}
    (hc : c.2.1 ≠ k1) (cs : List (Nat × Int × D)) :
    find_result d (csplit t k1 (cins t c cs)) = find_result d (csplit t k1 cs) := by
  cases t with
  | FDMAP_LIST_TYPE_FIFO => exact csplit_snoc_ne _ d hc cs
  | FDMAP_LIST_TYPE_ORDERED =>
    cases cs with
    | nil => exact csplit_snoc_ne _ d hc []
    | cons h rest =>
      simp only [cins]
      by_cases hlt : h.2.1 < c.2.1
      · simp only [hlt, if_true]
        exact csplit_snoc_ne _ d hc (h :: rest)
      · simp only [hlt, if_false]
        by_cases hg : c.2.1 > k1
        · have hh1 : h.2.1 ≠ k1 := by omega
          have hh2 : h.2.1 > k1 := by omega
          simp [csplit, hc, hg, hh1, hh2]
        · have h1 : csplit fdmap_list_type_t.FDMAP_LIST_TYPE_ORDERED k1 (c :: h :: rest) =
              (csplit fdmap_list_type_t.FDMAP_LIST_TYPE_ORDERED k1 (h :: rest)).map
                fun r => (c :: r.1, r.2.1, r.2.2) := by
            conv => lhs; rw [csplit]
            simp [hc, hg]
          rw [h1, find_result_map]

theorem fdmap_add_table {map : fdmap D} (hm : TableInv map) {j : Int} (hj : 0 ≤ j) (v : D) :
    ∃ b cs b1, map.table[bucket_of map j]? = some b ∧ WF b cs ∧
      fdmap_add map j v = some { map with table := map.table.set (bucket_of map j) b1,
                                          items := int_wrap (map.items + 1) } ∧
      WF b1 (cins b.type (b.brk, j, v) cs) ∧ b1.type = b.type := by
  have hlt := bucket_of_lt hm.size_pos hm.len hj
  have hmem : map.table.get ⟨bucket_of map j, hlt⟩ ∈ map.table := List.get_mem _ _ _
  obtain ⟨cs, hcs⟩ := hm.wf _ hmem
  obtain ⟨b1, e1, w1, t1, _⟩ := add_WF hcs j v
  refine ⟨_, cs, b1, List.getElem?_eq_getElem hlt, hcs, ?_, w1, t1⟩
  rw [fdmap_add_eq hm.size_pos hm.len hj, e1]
  rfl

/-- C18: on a well-formed list of either type, sorted or not, `fdmap_list_add(list, k, v)`
succeeds and `fdmap_list_find(list, k1, &d)` for every other key `k1` returns the same
result and output after the call as before it; on a table satisfying the table invariant
`fdmap_add(map, j, v)` leaves `fdmap_find(map, j1, &d)` as it was for every other key `j1`,
the keys being non-negative. -/
theorem add_keeps_other_lookups (l : fdmap_list D) (map : fdmap D) (k k1 j j1 : Int) (v d : D)
    (hl : WellFormed l) (hk : k1 ≠ k) (hm : TableInv map) (hj : 0 ≤ j) (hj1 : 0 ≤ j1)
    (hjj : j1 ≠ j) :
    (∃ l1 r, fdmap_list_add l k v = some l1 ∧ fdmap_list_find l k1 d = some r ∧
      fdmap_list_find l1 k1 d = some r) ∧
    (∃ m1 r, fdmap_add map j v = some m1 ∧ fdmap_find map j1 d = some r ∧
      fdmap_find m1 j1 d = some r) := by
  constructor
  · obtain ⟨cs, hcs⟩ := hl
    obtain ⟨l1, e1, w1, t1, _⟩ := add_WF hcs k v
    refine ⟨l1, _, e1, find_WF hcs k1 d, ?_⟩
    rw [find_WF w1 k1 d, t1]
    have hc : (l.brk, k, v).2.1 ≠ k1 := fun h => hk h.symm
    rw [csplit_cins_ne l.type d hc cs]
  · obtain ⟨b, cs, b1, hb, hcs, e1, w1, t1⟩ := fdmap_add_table hm hj v
    have hlt1 := bucket_of_lt hm.size_pos hm.len hj1
    have hmem1 : map.table.get ⟨bucket_of map j1, hlt1⟩ ∈ map.table := List.get_mem _ _ _
    obtain ⟨cs1, hcs1⟩ := hm.wf _ hmem1
    have hg1 : map.table[bucket_of map j1]? = some (map.table.get ⟨bucket_of map j1, hlt1⟩) :=
      List.getElem?_eq_getElem hlt1
    have hf := fdmap_find_at rfl hm.size_pos hj1 rfl d hg1 hcs1
    refine ⟨_, _, e1, hf, ?_⟩
    by_cases hi : bucket_of map j = bucket_of map j1
    · -- same bucket: the list result
      have hbb : b = map.table.get ⟨bucket_of map j1, hlt1⟩ := by
        rw [hi, hg1] at hb
        exact (Option.some.inj hb).symm
      subst hbb
      have hg2 : (map.table.set (bucket_of map j) b1)[bucket_of map j1]? = some b1 := by
        rw [← hi]; exact getElem?_set_same hb
      have hf2 := @fdmap_find_at D { map with
          table := map.table.set (bucket_of map j) b1, items := int_wrap (map.items + 1) } _ _ _
        rfl hm.size_pos hj1 rfl d _ _ hg2 w1
      rw [hf2, t1]
      have hc : (((map.table.get ⟨bucket_of map j1, hlt1⟩).brk, j, v) : Nat × Int × D).2.1 ≠
          j1 := fun h => hjj h.symm
      rw [csplit_cins_ne _ d hc cs]
      have hf3 := fdmap_find_at rfl hm.size_pos hj1 rfl d hg1 hcs
      rw [← hf3, hf]
    · have hg2 : (map.table.set (bucket_of map j) b1)[bucket_of map j1]? =
          some (map.table.get ⟨bucket_of map j1, hlt1⟩) := by
        rw [List.getElem?_set_ne hi]; exact hg1
      exact @fdmap_find_at D { map with
          table := map.table.set (bucket_of map j) b1, items := int_wrap (map.items + 1) } _ _ _
        rfl hm.size_pos hj1 rfl d _ _ hg2 hcs1

/-- Witness of C18: the `ORDERED` list holding the keys 1, 5, 3 with the new key 4 and the
lookup of 3; the table with four buckets holding 9 and 13 with the new key 5 and the lookup
of 13, both in bucket 1. -/
theorem add_keeps_other_lookups_witness :
    (∃ l1 r, fdmap_list_add (list_of_adds fdmap_list_type_t.FDMAP_LIST_TYPE_ORDERED
        [(5, "a"), (1, "b"), (3, "c")]) 4 "v" = some l1 ∧
      fdmap_list_find (list_of_adds fdmap_list_type_t.FDMAP_LIST_TYPE_ORDERED
        [(5, "a"), (1, "b"), (3, "c")]) 3 "" = some r ∧
      fdmap_list_find l1 3 "" = some r) ∧
    (∃ m1 r, fdmap_add (table_of_ops 4 [fdmap_op.add 9 "x", fdmap_op.add 13 "y"]) 5 "v" =
        some m1 ∧
      fdmap_find (table_of_ops 4 [fdmap_op.add 9 "x", fdmap_op.add 13 "y"]) 13 "" = some r ∧
      fdmap_find m1 13 "" = some r) :=
  add_keeps_other_lookups
    (list_of_adds fdmap_list_type_t.FDMAP_LIST_TYPE_ORDERED [(5, "a"), (1, "b"), (3, "c")])
    (table_of_ops 4 [fdmap_op.add 9 "x", fdmap_op.add 13 "y"]) 4 3 5 13 "v" ""
    (list_of_adds_WellFormed _ _).1 (by decide) (table_of_ops_inv 4 _ (by decide))
    (by decide) (by decide) (by decide)

theorem head_min_cins {c : Nat × Int × D} {cs : List (Nat × Int × D)} (h : head_min cs) :
    head_min (cins fdmap_list_type_t.FDMAP_LIST_TYPE_ORDERED c cs) := by
  cases cs with
  | nil =>
    intro a ha x hx
    simp only [cins, List.head?_cons, Option.mem_def, Option.some.injEq] at ha
    simp only [cins, List.mem_singleton] at hx
    rw [hx, ← ha]
  | cons a rest =>
    have ha : ∀ x ∈ a :: rest, a.2.1 ≤ x.2.1 := h a rfl
    simp only [cins]
    by_cases hlt : a.2.1 < c.2.1
    · simp only [hlt, if_true]
      intro b hb x hx
      simp only [List.cons_append, List.head?_cons, Option.mem_def, Option.some.injEq] at hb
      subst hb
      rcases List.mem_append.1 hx with hx | hx
      · exact ha x hx
      · simp only [List.mem_singleton] at hx
        rw [hx]; exact le_of_lt hlt
    · simp only [hlt, if_false]
      intro b hb x hx
      simp only [List.head?_cons, Option.mem_def, Option.some.injEq] at hb
      subst hb
      rcases List.mem_cons.1 hx with hx | hx
      · rw [hx]
      · exact le_trans (not_lt.1 hlt) (ha x hx)

theorem ordered_adds_head_min {l : fdmap_list D} {cs : List (Nat × Int × D)} (h : WF l cs)
    (ht : l.type = fdmap_list_type_t.FDMAP_LIST_TYPE_ORDERED) (hmin : head_min cs)
    (xs : List (Int × D)) :
    ∃ l1 cs1, list_adds l xs = some l1 ∧ WF l1 cs1 ∧ head_min cs1 ∧
      cs1.length = cs.length + xs.length := by
  induction xs generalizing l cs with
  | nil => exact ⟨l, cs, rfl, h, hmin, rfl⟩
  | cons x rest ih =>
    obtain ⟨l1, e1, w1, t1, _⟩ := add_WF h x.1 x.2
    rw [ht] at w1
    obtain ⟨l2, cs2, e2, w2, m2, n2⟩ := ih w1 (t1.trans ht) (head_min_cins hmin)
    refine ⟨l2, cs2, by simp [list_adds, e1, e2], w2, m2, ?_⟩
    rw [n2, cins_length, List.length_cons]
    omega

/-- C19: for every non-empty sequence `xs` of pairs, the `fdmap_list_add` calls for `xs` on
an empty `ORDERED` list succeed and give a non-empty list whose head node carries a key
`<=` the key of every node; `fdmap_list_peek` and the first `fdmap_list_pop` on it return 1
and report that head node, so they return a minimum key. -/
theorem ordered_adds_head_is_min (xs : List (Int × D)) (fd : Option Int) (data : Option D)
    (hne : xs ≠ []) :
    ∃ l h rest l1,
      list_adds (fdmap_list_new fdmap_list_type_t.FDMAP_LIST_TYPE_ORDERED) xs = some l ∧
      fdmap_list_seq l = some (h :: rest) ∧ (∀ e ∈ h :: rest, h.1 ≤ e.1) ∧
      fdmap_list_peek l fd data =
        some (1, fd.map (fun _ => h.1), data.map (fun _ => h.2), l) ∧
      fdmap_list_pop l fd data =
        some (1, fd.map (fun _ => h.1), data.map (fun _ => h.2), l1) ∧
      fdmap_list_seq l1 = some rest := by
  obtain ⟨l, cs, e, w, hmin, hlen⟩ := ordered_adds_head_min
    (WF_new fdmap_list_type_t.FDMAP_LIST_TYPE_ORDERED) rfl
    (fun h hh => by simp at hh) xs
  cases cs with
  | nil =>
    cases xs with
    | nil => exact absurd rfl hne
    | cons x rest => simp at hlen
  | cons c rest =>
    obtain ⟨l1, e1, w1, _, _⟩ := pop_cons_WF w fd data
    refine ⟨l, c.2, rest.map Prod.snd, l1, e, by rw [seq_WF w]; rfl, ?_, peek_cons_WF w fd data,
      e1, seq_WF w1⟩
    intro y hy
    have hy2 : y ∈ (c :: rest).map Prod.snd := hy
    obtain ⟨z, hz, rfl⟩ := List.mem_map.1 hy2
    exact hmin c rfl z hz

/-- Witness of C19 for the keys 5, 1, 3 added in this order. -/
theorem ordered_adds_head_is_min_witness :
    ∃ l h rest l1,
      list_adds (fdmap_list_new fdmap_list_type_t.FDMAP_LIST_TYPE_ORDERED)
        [(5, "a"), (1, "b"), (3, "c")] = some l ∧
      fdmap_list_seq l = some (h :: rest) ∧ (∀ e ∈ h :: rest, h.1 ≤ e.1) ∧
      fdmap_list_peek l (some 0) (some "") =
        some (1, (some (0 : Int)).map (fun _ => h.1), (some "").map (fun _ => h.2), l) ∧
      fdmap_list_pop l (some 0) (some "") =
        some (1, (some (0 : Int)).map (fun _ => h.1), (some "").map (fun _ => h.2), l1) ∧
      fdmap_list_seq l1 = some rest :=
  ordered_adds_head_is_min [(5, "a"), (1, "b"), (3, "c")] (some 0) (some "") (by decide)

/-! ## Lists reached by calls -/

theorem walk_nodes_Seg {m : Nat → Option (fdmap_node D)} {cs : List (Nat × Int × D)}
    {prev : Option Nat} {fuel : Nat} (hs : Seg m prev cs none) (hf : cs.length < fuel) :
    walk_nodes m fuel (first cs none) = some (cs.map Prod.fst) := by
  induction cs generalizing prev fuel with
  | nil =>
    cases fuel with
    | zero => exact absurd hf (Nat.lt_irrefl _)
    | succ f => rfl
  | cons c rest ih =>
    cases fuel with
    | zero => exact absurd hf (Nat.not_lt_zero _)
    | succ f =>
      obtain ⟨h1, h2⟩ := hs
      have hr := ih h2 (Nat.lt_of_succ_lt_succ hf)
      simp [first_cons, walk_nodes, h1, hr]

theorem nodes_WF {l : fdmap_list D} {cs : List (Nat × Int × D)} (h : WF l cs) :
    fdmap_list_nodes l = some (cs.map Prod.fst) := by
  unfold fdmap_list_nodes
  rw [h.head]
  exact walk_nodes_Seg h.seg (Nat.lt_succ_of_le h.length_le)

theorem Seg_mem_cell {m : Nat → Option (fdmap_node D)} {cs : List (Nat × Int × D)}
    {prev nxt : Option Nat} (h : Seg m prev cs nxt) {x : Nat × Int × D} (hx : x ∈ cs) :
    ∃ pv nx, m x.1 = some ⟨x.2.1, x.2.2, pv, nx⟩ := by
  obtain ⟨pre, post, rfl⟩ := List.append_of_mem hx
  exact ⟨_, _, Seg_cell h⟩

/-- One call on a well-formed list succeeds and gives a well-formed list of the same type,
whose chain is the old one with the new cell inserted (`cins`) or a sublist of the old
one. -/
theorem list_step_WF {l : fdmap_list D} {cs : List (Nat × Int × D)} (h : WF l cs)
    (op : list_op D) :
    ∃ l1 cs1, list_step l op = some l1 ∧ WF l1 cs1 ∧ l1.type = l.type ∧
      ((∃ k v, cs1 = cins l.type (l.brk, k, v) cs) ∨ cs1.Sublist cs) := by
  cases op with
  | add k v =>
    obtain ⟨l1, e1, w1, t1, _⟩ := add_WF h k v
    exact ⟨l1, _, e1, w1, t1, Or.inl ⟨k, v, rfl⟩⟩
  | rm k =>
    have hrm := rm_WF h k
    cases hs : csplit l.type k cs with
    | none =>
      rw [hs] at hrm
      exact ⟨l, cs, by simp [list_step, hrm], h, rfl, Or.inr (List.Sublist.refl _)⟩
    | some r =>
      rw [hs] at hrm
      obtain ⟨pre, c, post⟩ := r
      obtain ⟨l1, e1, w1, t1, _⟩ := hrm
      obtain ⟨hsplit, _, _⟩ := csplit_spec hs
      refine ⟨l1, _, by simp [list_step, e1], w1, t1, Or.inr ?_⟩
      rw [hsplit]
      exact List.Sublist.append (List.Sublist.refl _) (List.sublist_cons_self _ _)
  | pop =>
    cases cs with
    | nil =>
      exact ⟨l, [], by simp [list_step, pop_nil_WF h], h, rfl, Or.inr (List.Sublist.refl _)⟩
    | cons c rest =>
      obtain ⟨l1, e1, w1, t1, _⟩ := pop_cons_WF h none none
      exact ⟨l1, rest, by simp [list_step, e1], w1, t1, Or.inr (List.sublist_cons_self _ _)⟩
  | peek =>
    cases cs with
    | nil =>
      exact ⟨l, [], by simp [list_step, peek_nil_WF h], h, rfl, Or.inr (List.Sublist.refl _)⟩
    | cons c rest =>
      exact ⟨l, _, by simp [list_step, peek_cons_WF h], h, rfl, Or.inr (List.Sublist.refl _)⟩

/-- Every list reached from a well-formed list by calls is well formed, of the same type. -/
theorem list_run_WF {l : fdmap_list D} {cs : List (Nat × Int × D)} (h : WF l cs)
    (ops : List (list_op D)) :
    ∃ l1 cs1, list_run l ops = some l1 ∧ WF l1 cs1 ∧ l1.type = l.type := by
  induction ops generalizing l cs with
  | nil => exact ⟨l, cs, rfl, h, rfl⟩
  | cons op rest ih =>
    obtain ⟨l1, cs1, e1, w1, t1, _⟩ := list_step_WF h op
    obtain ⟨l2, cs2, e2, w2, t2⟩ := ih w1
    exact ⟨l2, cs2, by simp [list_run, e1, e2], w2, t2.trans t1⟩

/-- In a `FIFO` list reached by calls the node addresses increase from head to tail: the
head-to-tail order is the order of insertion. -/
theorem fifo_run_sorted {l : fdmap_list D} {cs : List (Nat × Int × D)} (h : WF l cs)
    (ht : l.type = fdmap_list_type_t.FDMAP_LIST_TYPE_FIFO)
    (hs : (cs.map Prod.fst).Pairwise (fun a b => a < b)) (ops : List (list_op D)) :
    ∃ l1 cs1, list_run l ops = some l1 ∧ WF l1 cs1 ∧
      l1.type = fdmap_list_type_t.FDMAP_LIST_TYPE_FIFO ∧
      (cs1.map Prod.fst).Pairwise (fun a b => a < b) := by
  induction ops generalizing l cs with
  | nil => exact ⟨l, cs, rfl, h, ht, hs⟩
  | cons op rest ih =>
    obtain ⟨l1, cs1, e1, w1, t1, hrel⟩ := list_step_WF h op
    have hs1 : (cs1.map Prod.fst).Pairwise (fun a b => a < b) := by
      rcases hrel with ⟨k, v, rfl⟩ | hsub
      · rw [ht]
        simp only [cins, List.map_append, List.map_cons, List.map_nil]
        rw [List.pairwise_append]
        refine ⟨hs, List.pairwise_singleton _ _, ?_⟩
        intro a ha b hb
        obtain ⟨x, hx, rfl⟩ := List.mem_map.1 ha
        simp only [List.mem_singleton] at hb
        rw [hb]
        exact h.lt x hx
      · exact hs.sublist (hsub.map Prod.fst)
    obtain ⟨l2, cs2, e2, w2, t2, hs2⟩ := ih w1 (t1.trans ht) hs1
    exact ⟨l2, cs2, by simp [list_run, e1, e2], w2, t2, hs2⟩

theorem csplit_fifo_none {k : Int} {cs : List (Nat × Int × D)}
    (h : csplit fdmap_list_type_t.FDMAP_LIST_TYPE_FIFO k cs = none) : ∀ x ∈ cs, x.2.1 ≠ k := by
  induction cs with
  | nil => intro x hx; simp at hx
  | cons a rest ih =>
    by_cases ha : a.2.1 = k
    · simp [csplit, ha] at h
    · simp only [csplit, ha, if_false, reduceCtorEq, false_and, Option.map_eq_none'] at h
      intro x hx
      rcases List.mem_cons.1 hx with hx | hx
      · rw [hx]; exact ha
      · exact ih h x hx

/-- C20: on a well-formed `FIFO` list `fdmap_list_find(list, k, &d)` returns 1 exactly when
some node carries `k`, with the value of the first such node from the head, and 0 with the
output untouched otherwise; `fdmap_list_add(list, k, v)` appends at the tail, after which
the lookup of `k` returns 1, with `v` exactly when no node keyed `k` was in the list before
or the first of them holds `v`. On every `FIFO` list reached from an empty one by calls the
node addresses, which follow the order of insertion, increase from head to tail, and the
node whose value the lookup returns has the least address among the nodes keyed `k`: it is
the earliest inserted such node still in the list. -/
theorem fifo_find_oldest (l : fdmap_list D) (ops : List (list_op D)) (k : Int) (v d : D)
    (hw : WellFormed l) (ht : l.type = fdmap_list_type_t.FDMAP_LIST_TYPE_FIFO) :
    (∃ s l1 w, fdmap_list_seq l = some s ∧
      fdmap_list_find l k d = some (seq_lookup k d s) ∧
      ((seq_lookup k d s).1 = 1 ↔ ∃ e ∈ s, e.1 = k) ∧
      (∀ pre e post, s = pre ++ e :: post → e.1 = k → (∀ x ∈ pre, x.1 ≠ k) →
        seq_lookup k d s = (1, e.2)) ∧
      ((∀ e ∈ s, e.1 ≠ k) → seq_lookup k d s = (0, d)) ∧
      fdmap_list_add l k v = some l1 ∧ fdmap_list_seq l1 = some (s ++ [(k, v)]) ∧
      fdmap_list_find l1 k d = some (1, w) ∧
      (w = v ↔ ((∀ e ∈ s, e.1 ≠ k) ∨ seq_lookup k d s = (1, v)))) ∧
    (∃ lr ns f, list_run (fdmap_list_new fdmap_list_type_t.FDMAP_LIST_TYPE_FIFO) ops = some lr ∧
      fdmap_list_nodes lr = some ns ∧ ns.Pairwise (fun a b => a < b) ∧
      fdmap_list_find lr k d = some f ∧
      (f.1 = 1 ↔ ∃ q ∈ ns, ∃ n, lr.mem q = some n ∧ n.fd = k) ∧
      (f.1 = 1 → ∃ q ∈ ns, ∃ n, lr.mem q = some n ∧ n.fd = k ∧ f.2 = n.data ∧
        ∀ q1 ∈ ns, ∀ n1, lr.mem q1 = some n1 → n1.fd = k → q ≤ q1)) := by
  constructor
  · obtain ⟨cs, hcs⟩ := hw
    obtain ⟨l1, e1, w1, t1, _⟩ := add_WF hcs k v
    rw [ht] at w1
    simp only [cins] at w1
    have hf := find_WF hcs k d
    rw [ht, csplit_fifo_lookup] at hf
    have hf1 := find_WF w1 k d
    rw [t1, ht, csplit_fifo_lookup] at hf1
    have hseq1 : fdmap_list_seq l1 = some (cs.map Prod.snd ++ [(k, v)]) := by
      rw [seq_WF w1]; simp
    have hmap : List.map Prod.snd (cs ++ [(l.brk, k, v)]) = cs.map Prod.snd ++ [(k, v)] := by
      simp
    rw [hmap] at hf1
    rcases seq_lookup_cases k d (cs.map Prod.snd) with ⟨h0, habs⟩ | ⟨pre, e, post, hs, he, hpre, h1⟩
    · refine ⟨_, l1, v, seq_WF hcs, hf, seq_lookup_one_iff k d _, ?_, fun h => seq_lookup_absent h,
        e1, hseq1, ?_, ?_⟩
      · intro pre e post hsplit he hpre
        rw [hsplit]; exact seq_lookup_found he hpre
      · rw [hf1, seq_lookup_found (e := (k, v)) rfl habs]
      · exact ⟨fun _ => Or.inl habs, fun _ => rfl⟩
    · refine ⟨_, l1, e.2, seq_WF hcs, hf, seq_lookup_one_iff k d _, ?_,
        fun h => seq_lookup_absent h, e1, hseq1, ?_, ?_⟩
      · intro pre e post hsplit he hpre
        rw [hsplit]; exact seq_lookup_found he hpre
      · rw [hf1, hs, List.append_assoc, List.cons_append]
        rw [seq_lookup_found he hpre]
      · rw [h1]
        constructor
        · intro hev; exact Or.inr (by rw [hev])
        · rintro (habs | heq)
          · exact absurd he (habs e (by rw [hs]; simp))
          · exact (Prod.mk.inj heq).2
  · obtain ⟨lr, cs, e, w, t, hs⟩ := fifo_run_sorted
      (WF_new fdmap_list_type_t.FDMAP_LIST_TYPE_FIFO) rfl (by simp) ops
    have hf := find_WF w k d
    rw [t] at hf
    refine ⟨lr, cs.map Prod.fst, _, e, nodes_WF w, hs, hf, ?_⟩
    cases hc : csplit fdmap_list_type_t.FDMAP_LIST_TYPE_FIFO k cs with
    | none =>
      have habs := csplit_fifo_none hc
      refine ⟨⟨fun h => by simp [find_result] at h, ?_⟩, fun h => by simp [find_result] at h⟩
      rintro ⟨q, hq, n, hn, hk⟩
      obtain ⟨x, hx, rfl⟩ := List.mem_map.1 hq
      obtain ⟨pv, nx, hm⟩ := Seg_mem_cell w.seg hx
      rw [hm] at hn
      have hn2 := Option.some.inj hn
      rw [← hn2] at hk
      exact absurd hk (habs x hx)
    | some r =>
      obtain ⟨pre, c, post⟩ := r
      obtain ⟨hsplit, hck, hpre⟩ := csplit_spec hc
      have hcm : c ∈ cs := by rw [hsplit]; simp
      obtain ⟨pv, nx, hm⟩ := Seg_mem_cell w.seg hcm
      have hq : c.1 ∈ cs.map Prod.fst := List.mem_map_of_mem Prod.fst hcm
      refine ⟨⟨fun _ => ⟨c.1, hq, _, hm, hck⟩, fun _ => rfl⟩,
        fun _ => ⟨c.1, hq, _, hm, hck, rfl, ?_⟩⟩
      intro q1 hq1 n1 hn1 hk1
      obtain ⟨x, hx, rfl⟩ := List.mem_map.1 hq1
      obtain ⟨pv1, nx1, hm1⟩ := Seg_mem_cell w.seg hx
      rw [hm1] at hn1
      have hn2 := Option.some.inj hn1
      rw [← hn2] at hk1
      rw [hsplit, List.map_append, List.map_cons, List.pairwise_append, List.pairwise_cons] at hs
      rw [hsplit] at hx
      rcases List.mem_append.1 hx with hx | hx
      · exact absurd hk1 (hpre x hx)
      · rcases List.mem_cons.1 hx with hx | hx
        · rw [hx]
        · exact le_of_lt (hs.2.1.1 _ (List.mem_map_of_mem Prod.fst hx))

/-- Witness of C20: the `FIFO` list holding (7,a), (2,b), (7,c) and the calls add 7, add 2,
add 7, pop. -/
theorem fifo_find_oldest_witness :
    ∃ s l1 w, fdmap_list_seq (list_of_adds fdmap_list_type_t.FDMAP_LIST_TYPE_FIFO
        [(7, "a"), (2, "b"), (7, "c")]) = some s ∧
      fdmap_list_find (list_of_adds fdmap_list_type_t.FDMAP_LIST_TYPE_FIFO
        [(7, "a"), (2, "b"), (7, "c")]) 7 "" = some (seq_lookup 7 "" s) ∧
      fdmap_list_add (list_of_adds fdmap_list_type_t.FDMAP_LIST_TYPE_FIFO
        [(7, "a"), (2, "b"), (7, "c")]) 7 "v" = some l1 ∧
      fdmap_list_find l1 7 "" = some (1, w) :=
  by
    obtain ⟨⟨s, l1, w, h1, h2, _, _, _, h3, _, h4, _⟩, _⟩ := fifo_find_oldest
      (list_of_adds fdmap_list_type_t.FDMAP_LIST_TYPE_FIFO [(7, "a"), (2, "b"), (7, "c")])
      [list_op.add 7 "a", list_op.add 2 "b", list_op.add 7 "c", list_op.pop] 7 "v" ""
      (list_of_adds_WellFormed _ _).1 (list_of_adds_WellFormed _ _).2
    exact ⟨s, l1, w, h1, h2, h3, h4⟩

/-! ## The invariant in the words of the specification -/

theorem first_eq_head? (cs : List (Nat × Int × D)) :
    first cs none = (cs.map Prod.fst).head? := by
  cases cs <;> rfl

theorem last_addr_eq_getLast? (prev : Option Nat) (cs : List (Nat × Int × D)) :
    last_addr prev cs = ((cs.map Prod.fst).getLast?).or prev := by
  induction cs generalizing prev with
  | nil => rfl
  | cons c rest ih =>
    rw [last_addr, ih]
    cases rest with
    | nil => rfl
    | cons e rest2 =>
      simp only [List.map_cons, List.getLast?_cons_cons]
      cases h : (e.1 :: List.map Prod.fst rest2).getLast? with
      | none => simp at h
      | some a => rfl

theorem Seg_prev_cases {m : Nat → Option (fdmap_node D)} {cs : List (Nat × Int × D)}
    {pv nxt : Option Nat} (h : Seg m pv cs nxt) {b : Nat × Int × D} (hb : b ∈ cs)
    {nb : fdmap_node D} (hm : m b.1 = some nb) :
    nb.prev = pv ∨ ∃ y ∈ cs, nb.prev = some y.1 := by
  induction cs generalizing pv with
  | nil => simp at hb
  | cons c rest ih =>
    obtain ⟨h1, h2⟩ := h
    rcases List.mem_cons.1 hb with hb | hb
    · subst hb
      rw [h1] at hm
      exact Or.inl (by rw [← Option.some.inj hm])
    · rcases ih h2 hb with h | ⟨y, hy, h⟩
      · exact Or.inr ⟨c, List.mem_cons_self _ _, h⟩
      · exact Or.inr ⟨y, List.mem_cons_of_mem _ hy, h⟩

theorem Seg_next_cases {m : Nat → Option (fdmap_node D)} {cs : List (Nat × Int × D)}
    {pv : Option Nat} (h : Seg m pv cs none) {a : Nat × Int × D} (ha : a ∈ cs)
    {na : fdmap_node D} (hm : m a.1 = some na) :
    na.next = none ∨ ∃ y ∈ cs, na.next = some y.1 := by
  induction cs generalizing pv with
  | nil => simp at ha
  | cons c rest ih =>
    obtain ⟨h1, h2⟩ := h
    rcases List.mem_cons.1 ha with ha | ha
    · subst ha
      rw [h1] at hm
      have hn : na.next = first rest none := by rw [← Option.some.inj hm]
      rcases first_cases rest none with h | ⟨x, hx, h⟩
      · exact Or.inl (hn.trans h)
      · exact Or.inr ⟨x, List.mem_cons_of_mem _ hx, hn.trans h⟩
    · rcases ih h2 ha with h | ⟨y, hy, h⟩
      · exact Or.inl h
      · exact Or.inr ⟨y, List.mem_cons_of_mem _ hy, h⟩

theorem Seg_first_iff {m : Nat → Option (fdmap_node D)} {cs : List (Nat × Int × D)}
    {pv : Option Nat} (h : Seg m pv cs none) (hnd : (cs.map Prod.fst).Nodup)
    (hpv : ∀ x ∈ cs, pv ≠ some x.1) {b : Nat × Int × D} (hb : b ∈ cs)
    {nb : fdmap_node D} (hm : m b.1 = some nb) :
    first cs none = some b.1 ↔ nb.prev = pv := by
  cases cs with
  | nil => simp at hb
  | cons r rest =>
    obtain ⟨h1, h2⟩ := h
    rw [first_cons]
    rcases List.mem_cons.1 hb with hb | hb
    · subst hb
      rw [h1] at hm
      exact ⟨fun _ => by rw [← Option.some.inj hm], fun _ => rfl⟩
    · have hne : b.1 ≠ r.1 := (@nodup_split D [] rest r hnd).2.2 b hb
      constructor
      · intro he
        exact absurd (Option.some.inj he).symm hne
      · intro he
        rcases Seg_prev_cases h2 hb hm with h | ⟨y, hy, h⟩
        · exact absurd (he.symm.trans h) (hpv r (List.mem_cons_self _ _))
        · exact absurd (he.symm.trans h) (hpv y (List.mem_cons_of_mem _ hy))

theorem Seg_adjacent {m : Nat → Option (fdmap_node D)} {cs : List (Nat × Int × D)}
    {pv : Option Nat} (h : Seg m pv cs none) (hnd : (cs.map Prod.fst).Nodup)
    (hpv : ∀ x ∈ cs, pv ≠ some x.1) {a b : Nat × Int × D} (ha : a ∈ cs) (hb : b ∈ cs)
    {na nb : fdmap_node D} (hma : m a.1 = some na) (hmb : m b.1 = some nb) :
    na.next = some b.1 ↔ nb.prev = some a.1 := by
  induction cs generalizing pv with
  | nil => simp at ha
  | cons c rest ih =>
    obtain ⟨h1, h2⟩ := h
    obtain ⟨hndr, _, hnc⟩ := @nodup_split D [] rest c hnd
    have hpv2 : ∀ x ∈ rest, some c.1 ≠ some x.1 := fun x hx he =>
      hnc x hx (Option.some.inj he).symm
    have hpc : pv ≠ some c.1 := hpv c (List.mem_cons_self _ _)
    rcases List.mem_cons.1 ha with ha1 | ha2
    · rw [ha1] at hma ⊢
      have hna : na.next = first rest none := by
        rw [h1] at hma; rw [← Option.some.inj hma]
      rcases List.mem_cons.1 hb with hb1 | hb2
      · rw [hb1] at hmb ⊢
        have hnb : nb.prev = pv := by
          rw [h1] at hmb; rw [← Option.some.inj hmb]
        constructor
        · intro he
          rcases first_cases rest none with h | ⟨x, hx, h⟩
          · rw [hna, h] at he; exact absurd he (by simp)
          · rw [hna, h] at he
            exact absurd (Option.some.inj he) (hnc x hx)
        · intro he
          exact absurd (hnb.symm.trans he) hpc
      · rw [hna]
        exact Seg_first_iff h2 hndr hpv2 hb2 hmb
    · rcases List.mem_cons.1 hb with hb1 | hb2
      · rw [hb1] at hmb ⊢
        have hnb : nb.prev = pv := by
          rw [h1] at hmb; rw [← Option.some.inj hmb]
        constructor
        · intro he
          rcases Seg_next_cases h2 ha2 hma with h | ⟨y, hy, h⟩
          · rw [h] at he; exact absurd he (by simp)
          · rw [h] at he
            exact absurd (Option.some.inj he) (hnc y hy)
        · intro he
          exact absurd (hnb.symm.trans he) (hpv a (List.mem_cons_of_mem _ ha2))
      · exact ih h2 hndr hpv2 ha2 hb2

/-- A well-formed list satisfies the invariant in the words of the specification. -/
theorem WF_list_invariant {l : fdmap_list D} {cs : List (Nat × Int × D)} (h : WF l cs) :
    list_invariant l := by
  have hn := nodes_WF h
  have hhead : l.head = (cs.map Prod.fst).head? := h.head.trans (first_eq_head? cs)
  have htail : l.tail = (cs.map Prod.fst).getLast? := by
    rw [h.tail, last_addr_eq_getLast?]; simp
  refine ⟨⟨_, hn, by rw [h.size, List.length_map], hhead, htail⟩, ?_, ?_, ?_, ?_, ?_⟩
  · rw [hhead, htail]
    cases cs with
    | nil => simp
    | cons c rest =>
      simp only [List.map_cons, List.head?_cons, reduceCtorEq, false_iff]
      intro he
      have := List.getLast?_eq_none_iff.1 he
      simp at this
  · rw [htail, h.size]
    cases cs with
    | nil => simp
    | cons c rest =>
      simp only [List.length_cons, Nat.add_one_ne_zero, iff_false]
      intro he
      have := List.getLast?_eq_none_iff.1 he
      simp at this
  · intro a ha
    cases cs with
    | nil => rw [h.head] at ha; simp [first] at ha
    | cons c rest =>
      have hc := h.seg.1
      rw [h.head, first_cons] at ha
      rw [← Option.some.inj ha]
      exact ⟨_, hc, rfl⟩
  · intro t ht
    rcases List.eq_nil_or_concat cs with rfl | ⟨cs0, c, rfl⟩
    · rw [h.tail] at ht; simp [last_addr] at ht
    · have hseg := h.seg
      rw [List.concat_eq_append] at hseg
      have hc := Seg_cell hseg
      rw [h.tail, List.concat_eq_append, last_addr_append] at ht
      simp only [last_addr] at ht
      rw [← Option.some.inj ht]
      exact ⟨_, hc, rfl⟩
  · intro ns hns a ha b hb na nb hma hmb
    rw [hn] at hns
    rw [← Option.some.inj hns] at ha hb
    obtain ⟨x, hx, rfl⟩ := List.mem_map.1 ha
    obtain ⟨y, hy, rfl⟩ := List.mem_map.1 hb
    exact Seg_adjacent h.seg h.nodup (fun _ _ => by simp) hx hy hma hmb

/-! ## Linking at any place of a well-formed chain -/

theorem nodup_join {pre post : List (Nat × Int × D)} {c : Nat × Int × D}
    (h : ((pre ++ post).map Prod.fst).Nodup) (hc : ∀ x ∈ pre ++ post, x.1 ≠ c.1) :
    ((pre ++ c :: post).map Prod.fst).Nodup := by
  rw [List.map_append, List.map_cons, List.nodup_middle, List.nodup_cons, ← List.map_append]
  refine ⟨?_, h⟩
  intro hmem
  obtain ⟨x, hx, he⟩ := List.mem_map.1 hmem
  exact hc x hx he

/-- Linking a fresh cell between two neighbours `d` and `c` of a well-formed chain, called
as BEFORE `c` or as AFTER `d`: no assertion fails and the cell sits between them. -/
theorem link_mid_WF {l : fdmap_list D} {pre0 post : List (Nat × Int × D)}
    {d c : Nat × Int × D} {np : Nat} {k : Int} {v : D} {pv nx : Option Nat}
    (h : WF l (pre0 ++ d :: c :: post)) (hnp : ∀ x ∈ pre0 ++ d :: c :: post, x.1 ≠ np)
    (hm : l.mem np = some ⟨k, v, pv, nx⟩) (hb : np < l.brk) :
    (∃ l1, fdmap_list_link l (some np) preposition_t.BEFORE (some c.1) = some l1 ∧
      WF l1 (pre0 ++ d :: (np, k, v) :: c :: post) ∧ l1.type = l.type ∧ l1.brk = l.brk) ∧
    (∃ l1, fdmap_list_link l (some np) preposition_t.AFTER (some d.1) = some l1 ∧
      WF l1 (pre0 ++ d :: (np, k, v) :: c :: post) ∧ l1.type = l.type ∧ l1.brk = l.brk) := by
  obtain ⟨hseg, hnd, hlt, hhead, htail, hsize⟩ := h
  have hnd1 : ((pre0 ++ d :: (np, k, v) :: c :: post).map Prod.fst).Nodup := by
    have h1 : pre0 ++ d :: (np, k, v) :: c :: post = (pre0 ++ [d]) ++ (np, k, v) :: (c :: post) := by
      simp
    rw [h1]
    apply nodup_join
    · simpa using hnd
    · intro x hx
      exact hnp x (by simpa using hx)
  have hlt1 : ∀ x ∈ pre0 ++ d :: (np, k, v) :: c :: post, x.1 < l.brk := by
    intro x hx
    simp only [List.mem_append, List.mem_cons] at hx
    rcases hx with hx | hx | hx | hx | hx
    · exact hlt x (by simp [hx])
    · exact hlt x (by simp [hx])
    · rw [hx]; exact hb
    · exact hlt x (by simp [hx])
    · exact hlt x (by simp [hx])
  rw [Seg_append] at hseg
  obtain ⟨hpre0, hd, hc, hpost⟩ := hseg
  simp only [first_cons] at hpre0 hd hc
  obtain ⟨hnd2, hn0d, hnpd⟩ := nodup_split hnd
  obtain ⟨_, hn0c, hnpc⟩ := nodup_split hnd2
  have hdn : d.1 ≠ np := hnp d (by simp)
  have hcn : c.1 ≠ np := hnp c (by simp)
  have hcd : c.1 ≠ d.1 := hnpd c (List.mem_cons_self _ _)
  rw [first_append, first_cons] at hhead
  simp only [last_addr_append, last_addr] at htail
  have hhd : l.head ≠ some c.1 := by
    rw [hhead]
    rcases first_cases pre0 (some d.1) with h | ⟨x, hx, h⟩
    · rw [h]; simpa using hcd.symm
    · rw [h]; simpa using hn0c x hx
  have htl : l.tail ≠ some d.1 := by
    rw [htail]
    rcases last_addr_cases (some c.1) post with h | ⟨x, hx, h⟩
    · rw [h]; simpa using hcd
    · rw [h]; simpa using hnpd x (List.mem_cons_of_mem _ hx)
  have hwf : ∀ m1 : Nat → Option (fdmap_node D),
      m1 np = some ⟨k, v, some d.1, some c.1⟩ →
      m1 d.1 = some ⟨d.2.1, d.2.2, last_addr none pre0, some np⟩ →
      m1 c.1 = some ⟨c.2.1, c.2.2, some np, first post none⟩ →
      (∀ a, a ≠ np → a ≠ d.1 → a ≠ c.1 → m1 a = l.mem a) →
      WF { l with mem := m1, size := l.size + 1 } (pre0 ++ d :: (np, k, v) :: c :: post) := by
    intro m1 h1 h2 h3 h4
    refine ⟨?_, hnd1, hlt1, by rw [first_append, first_cons]; exact hhead, ?_,
      by simp [hsize]; omega⟩
    · rw [Seg_append]
      refine ⟨Seg_frame (fun x hx => ?_) hpre0, ?_, ?_, ?_, Seg_frame (fun x hx => ?_) hpost⟩
      · exact h4 _ (hnp x (by simp [hx])) (hn0d x hx) (hn0c x hx)
      · simpa [first_cons] using h2
      · simpa [first_cons] using h1
      · simpa [first_cons] using h3
      · exact h4 _ (hnp x (by simp [hx])) (hnpd x (List.mem_cons_of_mem _ hx)) (hnpc x hx)
    · simpa [last_addr_append, last_addr] using htail
  constructor
  · simp only [fdmap_list_link, reduceCtorEq, false_and, if_false, link_before, wr_next, hm,
      Option.some_bind, store_write_ne _ _ hcn, hc, wr_prev, store_write_same, hhd,
      store_write_ne _ _ hdn, hd, store_write_ne _ _ hcd]
    refine ⟨_, rfl, ?_, rfl, rfl⟩
    apply hwf
    · simp [store_write, hcn.symm, hdn.symm]
    · simp [store_write, hcd.symm]
    · simp [store_write]
    · intro a h1 h2 h3
      simp [store_write, h1, h2, h3]
  · simp only [fdmap_list_link, reduceCtorEq, false_and, if_false, link_after, hd,
      Option.some_bind, wr_next, hm, wr_prev, store_write_same, store_write_ne _ _ hdn, htl,
      store_write_ne _ _ hcn, hc, store_write_ne _ _ hcd.symm]
    refine ⟨_, rfl, ?_, rfl, rfl⟩
    apply hwf
    · simp [store_write, hcn.symm, hdn.symm]
    · simp [store_write]
    · simp [store_write, hcd]
    · intro a h1 h2 h3
      simp [store_write, h1, h2, h3]

theorem clink_at_split (n : Nat × Int × D) (pl : preposition_t)
    {pre post : List (Nat × Int × D)} {c : Nat × Int × D} (hpre : ∀ x ∈ pre, x.1 ≠ c.1) :
    clink_at n pl c.1 (pre ++ c :: post) =
      pre ++ (match pl with
        | preposition_t.BEFORE => n :: c :: post
        | preposition_t.AFTER => c :: n :: post) := by
  induction pre with
  | nil => simp [clink_at]
  | cons a rest ih =>
    have ha : a.1 ≠ c.1 := hpre a (List.mem_cons_self _ _)
    simp only [List.cons_append, clink_at, ha, if_false, List.append_eq]
    rw [ih (fun x hx => hpre x (List.mem_cons_of_mem _ hx))]

/-- Linking a fresh cell into a well-formed chain, BEFORE or AFTER a reference node that is
`NULL` or a node of the chain: no assertion fails and the result is the well-formed chain
`clink`. -/
theorem link_WF {l : fdmap_list D} {cs : List (Nat × Int × D)} {np : Nat} {k : Int} {v : D}
    {pv nx : Option Nat} (h : WF l cs) (hnp : ∀ x ∈ cs, x.1 ≠ np)
    (hm : l.mem np = some ⟨k, v, pv, nx⟩) (hb : np < l.brk) (pl : preposition_t)
    (r : Option Nat) (hr : r = none ∨ ∃ c ∈ cs, r = some c.1) :
    ∃ l1, fdmap_list_link l (some np) pl r = some l1 ∧ WF l1 (clink (np, k, v) pl r cs) ∧
      l1.type = l.type ∧ l1.brk = l.brk := by
  rcases hr with rfl | ⟨c, hc, rfl⟩
  · -- a NULL reference node
    cases cs with
    | nil =>
      obtain ⟨l1, e1, w1, t1, b1⟩ := link_empty_WF pl h hm hb
      refine ⟨l1, e1, ?_, t1, b1⟩
      cases pl <;> exact w1
    | cons c rest =>
      cases pl with
      | BEFORE =>
        obtain ⟨l1, e1, w1, t1, b1⟩ := link_before_head_WF h hnp hm hb
        refine ⟨l1, ?_, w1, t1, b1⟩
        rw [← e1]
        have hh : l.head = some c.1 := h.head
        simp [fdmap_list_link, hh]
      | AFTER =>
        exact link_after_tail_WF h (List.cons_ne_nil _ _) hnp hm hb (Or.inl rfl)
  · obtain ⟨pre, post, rfl⟩ := List.append_of_mem hc
    obtain ⟨_, hnpre, _⟩ := nodup_split h.nodup
    simp only [clink, clink_at_split (np, k, v) pl hnpre]
    cases pl with
    | BEFORE =>
      rcases List.eq_nil_or_concat pre with rfl | ⟨pre0, d, rfl⟩
      · exact link_before_head_WF h hnp hm hb
      · rw [List.concat_eq_append, List.append_assoc, List.singleton_append] at h hnp ⊢
        exact (link_mid_WF h hnp hm hb).1
    | AFTER =>
      cases post with
      | nil =>
        have ht : some c.1 = l.tail := by
          rw [h.tail, last_addr_append]; rfl
        obtain ⟨l1, e1, w1, t1, b1⟩ :=
          link_after_tail_WF h (by simp) hnp hm hb (Or.inr ht)
        exact ⟨l1, e1, by simpa using w1, t1, b1⟩
      | cons e post0 =>
        exact (link_mid_WF h hnp hm hb).2

theorem erase_split {pre post : List (Nat × Int × D)} {c : Nat × Int × D}
    (hpre : ∀ x ∈ pre, x.1 ≠ c.1) :
    ((pre ++ c :: post).map Prod.fst).erase c.1 = (pre ++ post).map Prod.fst := by
  have hnot : c.1 ∉ pre.map Prod.fst := by
    intro hmem
    obtain ⟨x, hx, he⟩ := List.mem_map.1 hmem
    exact hpre x hx he
  rw [List.map_append, List.map_cons, List.erase_append_right _ hnot, List.erase_cons_head,
    List.map_append]

theorem WF_head_tail {l : fdmap_list D} {cs : List (Nat × Int × D)} (h : WF l cs) :
    l.head = (cs.map Prod.fst).head? ∧ l.tail = (cs.map Prod.fst).getLast? := by
  refine ⟨h.head.trans (first_eq_head? cs), ?_⟩
  rw [h.tail, last_addr_eq_getLast?]; simp

/-- C16: the structural invariant of a list (`WellFormed`, which gives the invariant in the
words of the specification, `list_invariant`: `size` is the number of nodes reachable from
`head`; `head`, `tail` are `NULL` and `size` is 0 together; `head->prev` and `tail->next` are
`NULL`; `a->next == b` exactly when `b->prev == a`) is established by `fdmap_list_new`, holds
on every list reached from it by calls, and is preserved by `fdmap_list_add`,
`fdmap_list_rm`, `fdmap_list_pop` and `fdmap_list_peek` in both modes, which all return.
Under it `fdmap_list_unlink` of any node of the list (the first, the last or the sole one
included) fails no assertion and leaves the other nodes in order with `head` and `tail` the
first and the last of them, and `fdmap_list_link` of an allocated node outside the list,
with either placement and a reference node that is `NULL` or a node of the list, fails no
assertion and keeps the invariant. -/
theorem list_invariant_preserved (l : fdmap_list D) (t : fdmap_list_type_t)
    (ops : List (list_op D)) (k : Int) (v : D) (fd : Option Int) (data : Option D)
    (placement : preposition_t) (hw : WellFormed l) :
    (WellFormed (fdmap_list_new t : fdmap_list D) ∧
      list_invariant (fdmap_list_new t : fdmap_list D)) ∧
    (∃ lr, list_run (fdmap_list_new t) ops = some lr ∧ WellFormed lr ∧ list_invariant lr ∧
      lr.type = t) ∧
    list_invariant l ∧
    (∃ l1, fdmap_list_add l k v = some l1 ∧ WellFormed l1 ∧ list_invariant l1) ∧
    (∃ r, fdmap_list_rm l k = some r ∧ WellFormed r.2 ∧ list_invariant r.2) ∧
    (∃ r, fdmap_list_pop l fd data = some r ∧ WellFormed r.2.2.2 ∧
      list_invariant r.2.2.2) ∧
    (∃ r, fdmap_list_peek l fd data = some r ∧ r.2.2.2 = l) ∧
    (∃ ns, fdmap_list_nodes l = some ns ∧ ∀ p ∈ ns,
      ∃ l1, fdmap_list_unlink l (some p) = some l1 ∧ WellFormed l1 ∧ list_invariant l1 ∧
        fdmap_list_nodes l1 = some (ns.erase p) ∧ l1.head = (ns.erase p).head? ∧
        l1.tail = (ns.erase p).getLast? ∧ l1.size + 1 = l.size) ∧
    (∃ ns, fdmap_list_nodes l = some ns ∧ ∀ (node : Nat) (refnode : Option Nat)
      (n : fdmap_node D), l.mem node = some n → node < l.brk → node ∉ ns →
      (refnode = none ∨ ∃ p ∈ ns, refnode = some p) →
      ∃ l1, fdmap_list_link l (some node) placement refnode = some l1 ∧ WellFormed l1 ∧
        list_invariant l1 ∧ l1.size = l.size + 1) := by
  obtain ⟨cs, hcs⟩ := hw
  have hnew : WF (fdmap_list_new t : fdmap_list D) [] := WF_new t
  refine ⟨⟨⟨[], hnew⟩, WF_list_invariant hnew⟩, ?_, WF_list_invariant hcs, ?_, ?_, ?_, ?_, ?_, ?_⟩
  · obtain ⟨lr, cs1, e, w, ty⟩ := list_run_WF hnew ops
    exact ⟨lr, e, ⟨cs1, w⟩, WF_list_invariant w, ty⟩
  · obtain ⟨l1, e1, w1, _, _⟩ := add_WF hcs k v
    exact ⟨l1, e1, ⟨_, w1⟩, WF_list_invariant w1⟩
  · have hrm := rm_WF hcs k
    cases hs : csplit l.type k cs with
    | none =>
      rw [hs] at hrm
      exact ⟨_, hrm, ⟨cs, hcs⟩, WF_list_invariant hcs⟩
    | some r =>
      rw [hs] at hrm
      obtain ⟨l1, e1, w1, _, _⟩ := hrm
      exact ⟨_, e1, ⟨_, w1⟩, WF_list_invariant w1⟩
  · cases cs with
    | nil => exact ⟨_, pop_nil_WF hcs fd data, ⟨[], hcs⟩, WF_list_invariant hcs⟩
    | cons c rest =>
      obtain ⟨l1, e1, w1, _, _⟩ := pop_cons_WF hcs fd data
      exact ⟨_, e1, ⟨_, w1⟩, WF_list_invariant w1⟩
  · cases cs with
    | nil => exact ⟨_, peek_nil_WF hcs fd data, rfl⟩
    | cons c rest => exact ⟨_, peek_cons_WF hcs fd data, rfl⟩
  · refine ⟨_, nodes_WF hcs, ?_⟩
    intro p hp
    obtain ⟨c, hc, rfl⟩ := List.mem_map.1 hp
    obtain ⟨pre, post, rfl⟩ := List.append_of_mem hc
    obtain ⟨l1, e1, w1, _, _, _⟩ := unlink_WF hcs
    obtain ⟨_, hnpre, _⟩ := nodup_split hcs.nodup
    rw [erase_split hnpre]
    refine ⟨l1, e1, ⟨_, w1⟩, WF_list_invariant w1, nodes_WF w1, (WF_head_tail w1).1,
      (WF_head_tail w1).2, ?_⟩
    rw [w1.size, hcs.size]
    simp
    omega
  · refine ⟨_, nodes_WF hcs, ?_⟩
    intro node refnode n hm hb hnot href
    have hnp : ∀ x ∈ cs, x.1 ≠ node := by
      intro x hx he
      exact hnot (List.mem_map.2 ⟨x, hx, he⟩)
    have hr : refnode = none ∨ ∃ c ∈ cs, refnode = some c.1 := by
      rcases href with h | ⟨p, hp, h⟩
      · exact Or.inl h
      · obtain ⟨c, hc, rfl⟩ := List.mem_map.1 hp
        exact Or.inr ⟨c, hc, h⟩
    have hm2 : l.mem node = some ⟨n.fd, n.data, n.prev, n.next⟩ := hm
    obtain ⟨l1, e1, w1, _, _⟩ := link_WF hcs hnp hm2 hb placement refnode hr
    refine ⟨l1, e1, ⟨_, w1⟩, WF_list_invariant w1, ?_⟩
    rw [w1.size, hcs.size]
    rcases hr with rfl | ⟨c, hc, rfl⟩
    · cases placement <;> simp [clink]
    · obtain ⟨pre, post, rfl⟩ := List.append_of_mem hc
      obtain ⟨_, hnpre, _⟩ := nodup_split hcs.nodup
      simp only [clink, clink_at_split _ placement hnpre]
      cases placement <;> simp <;> omega

/-- Witness of C16 on the `ORDERED` list holding the keys 1, 5, 3, with the calls add 4,
rm 5, pop and peek. -/
theorem list_invariant_preserved_witness :
    list_invariant (list_of_adds fdmap_list_type_t.FDMAP_LIST_TYPE_ORDERED
      [(5, "a"), (1, "b"), (3, "c")]) ∧
    (∃ l1, fdmap_list_add (list_of_adds fdmap_list_type_t.FDMAP_LIST_TYPE_ORDERED
        [(5, "a"), (1, "b"), (3, "c")]) 4 "v" = some l1 ∧ WellFormed l1 ∧
      list_invariant l1) ∧
    (∃ r, fdmap_list_rm (list_of_adds fdmap_list_type_t.FDMAP_LIST_TYPE_ORDERED
        [(5, "a"), (1, "b"), (3, "c")]) 4 = some r ∧ WellFormed r.2 ∧ list_invariant r.2) :=
  by
    obtain ⟨_, _, h1, h2, h3, _⟩ := list_invariant_preserved
      (list_of_adds fdmap_list_type_t.FDMAP_LIST_TYPE_ORDERED [(5, "a"), (1, "b"), (3, "c")])
      fdmap_list_type_t.FDMAP_LIST_TYPE_FIFO
      [list_op.add 1 "x", list_op.pop, list_op.peek, list_op.rm 2] 4 "v" (some 0) (some "")
      preposition_t.BEFORE (list_of_adds_WellFormed _ _).1
    exact ⟨h1, h2, h3⟩

end Fdmap
